import Mathlib

/-!
# go-msgpack `codec`: the compact (binc) timestamp codec

A shallow embedding of `bincEncodeTime` and `bincDecodeTime`
(`codec/codec_test.go`) together with the pieces of the Go standard library
they call (`encoding/binary` big-endian accessors, `time.Unix`, `time.Time`
accessors, the builtin `copy`).

Conventions.
* A Go `byte` is a `Nat` below 256; fixed-width integers are `Nat`/`Int`
  with the wrap-around written out.
* A Go slice is a `List Nat`; its capacity is taken to be its length.
* A run-time panic (index or slice bound out of range) is `none`.
-/

namespace Codec

/-! ## Go primitives -/

/-- Conversion of a non-negative integer to a Go `byte`. -/
def byte (x : Nat) : Nat := x % 256

/-- Conversion `uint64(x)` of a signed integer. -/
def uint64 (x : Int) : Nat := (x % 2 ^ 64).toNat

/-- Conversion `uint32(x)` of a signed integer. -/
def uint32 (x : Int) : Nat := (x % 2 ^ 32).toNat

/-- Conversion `uint16(x)` of a signed integer. -/
def uint16 (x : Int) : Nat := (x % 2 ^ 16).toNat

/-- Conversion `int64(x)`: wrap an integer into the signed 64-bit range. -/
def int64 (x : Int) : Int := (x + 2 ^ 63) % 2 ^ 64 - 2 ^ 63

/-- Conversion `int16(x)` of a `uint16`. -/
def int16 (x : Nat) : Int := ((x : Int) + 2 ^ 15) % 2 ^ 16 - 2 ^ 15

/-- The builtin `copy(dst[lo:hi], src)`: overwrites `min (hi - lo) (len src)`
bytes of `dst` starting at `lo`; the other bytes of `dst` are kept. -/
def copyRange (dst : List Nat) (lo hi : Nat) (src : List Nat) : List Nat :=
  dst.take lo ++ src.take (hi - lo) ++ dst.drop (lo + min (hi - lo) src.length)

/-- The slice expression `bs[i:j]`; `none` when the bounds are out of range. -/
def slice (bs : List Nat) (i j : Nat) : Option (List Nat) :=
  if i ≤ j ∧ j ≤ bs.length then some ((bs.drop i).take (j - i)) else none

/-- Big-endian value of a byte string (`bigen.Uint16/32/64` on 2/4/8 bytes). -/
def bigenUint (bs : List Nat) : Nat := bs.foldl (fun acc b => acc * 256 + b) 0

/-- Writes done by `bigen.PutUint64(b, v)`. -/
def bigenPutUint64 (v : Nat) : List Nat :=
  [byte (v >>> 56), byte (v >>> 48), byte (v >>> 40), byte (v >>> 32),
   byte (v >>> 24), byte (v >>> 16), byte (v >>> 8), byte v]

/-- Writes done by `bigen.PutUint32(b, v)`. -/
def bigenPutUint32 (v : Nat) : List Nat :=
  [byte (v >>> 24), byte (v >>> 16), byte (v >>> 8), byte v]

/-- Writes done by `bigen.PutUint16(b, v)`. -/
def bigenPutUint16 (v : Nat) : List Nat :=
  [byte (v >>> 8), byte v]

/-! ## `time.Time` as seen by the codec -/

/-- A `*time.Location`: the distinguished `time.UTC`, or a zone made by
`time.FixedZone(name, offset)` (offset in seconds east of UTC).  The codec
observes a location only through the comparison with `time.UTC` and through
the offset that `t.Zone()` reports, so any other location is represented by
the name and offset it has at the instant at hand. -/
inductive Location where
  | utc : Location
  | fixed (name : String) (offset : Int) : Location
deriving DecidableEq, Repr

/-- A `time.Time`: Unix seconds (an `int64`), nanoseconds within the second,
and the location it is presented in. -/
structure Time where
  sec : Int
  nsec : Nat
  loc : Location
deriving DecidableEq, Repr

/-- Offset returned by `t.Zone()`, seconds east of UTC. -/
def Time.zoneOffset (t : Time) : Int :=
  match t.loc with
  | Location.utc => 0
  | Location.fixed _ off => off

/-- Offset of a time in minutes, with Go integer division (`zoneOffset / 60`). -/
def Time.offsetMinutes (t : Time) : Int := t.zoneOffset.tdiv 60

/-- Invariants of a `time.Time` value: seconds fit an `int64`, nanoseconds are
below one second. -/
def Time.WF (t : Time) : Prop :=
  -2 ^ 63 ≤ t.sec ∧ t.sec < 2 ^ 63 ∧ t.nsec < 1000000000

instance (t : Time) : Decidable t.WF := by unfold Time.WF; infer_instance

/-- Seconds and nanoseconds of `time.Unix(sec, nsec)`: nanoseconds outside
`[0, 1e9)` are carried into the seconds (`int64` arithmetic). -/
def timeUnix (sec nsec : Int) : Int × Nat :=
  if nsec < 0 ∨ nsec ≥ 1000000000 then
    let n := nsec.tdiv 1000000000
    let sec1 := int64 (sec + n)
    let nsec1 := nsec - n * 1000000000
    if nsec1 < 0 then (int64 (sec1 - 1), (nsec1 + 1000000000).toNat)
    else (sec1, nsec1.toNat)
  else (sec, nsec.toNat)

/-- Result of `time.Unix(sec, nsec).UTC()`. -/
def timeUnixUTC (sec nsec : Int) : Time :=
  { sec := (timeUnix sec nsec).1, nsec := (timeUnix sec nsec).2, loc := Location.utc }

/-- Result of `time.Unix(sec, nsec).In(time.FixedZone(name, offset))`. -/
def timeUnixIn (sec nsec : Int) (name : String) (offset : Int) : Time :=
  { sec := (timeUnix sec nsec).1, nsec := (timeUnix sec nsec).2,
    loc := Location.fixed name offset }

/-! ## Helpers declared outside the translated file -/

/-- Modelled from the spec: `pruneSignExt(v, pos)` is called by `bincEncodeTime`
but declared in another file of the package.  The specification asks for
"the smallest sufficient two's-complement big-endian representation
(sign-extension pruned)": the result is the number of leading bytes of `v`
that are pure sign extension, that is the bytes equal to the sign fill
(`0x00` when `pos`, `0xff` otherwise) whose successor still carries the same
sign in its top bit.  At least one byte is always kept. -/
def pruneSignExt : List Nat → Bool → Nat
  | b0 :: b1 :: rest, pos =>
    if (pos && b0 == 0 && decide (b1 < 128)) || (!pos && b0 == 255 && decide (128 ≤ b1)) then
      pruneSignExt (b1 :: rest) pos + 1
    else 0
  | _, _ => 0

/-- Modelled from the spec: `bsAll0xff` is a package-level byte slice declared
in another file; `bincDecodeTime` copies from it to "fill btmp[0..8-n] with
0xff (ie sign extend it)".  It is taken to be eight `0xff` bytes. -/
def bsAll0xff : List Nat := List.replicate 8 255

/-! ## The codec -/

/-- Local variables of `bincEncodeTime` that its three blocks update: the
descriptor `bd`, the scratch buffer `bs [16]byte` and the write index `i`. -/
structure EncState where
  bd : Nat
  bs : List Nat
  i : Nat
deriving DecidableEq, Repr

/-- State at the `var ( ... )` declaration: `bd = 0`, `bs` zeroed, `i = 1`. -/
def EncState.init : EncState := { bd := 0, bs := List.replicate 16 0, i := 1 }

/-- The block `if tsecs != 0 { ... }` of `bincEncodeTime`.  The index `f` never
exceeds 7 (`pruneSignExt_lt`), so `7 - f` and `8 - f` do not underflow. -/
def putSecs (tsecs : Int) (st : EncState) : EncState :=
  if tsecs ≠ 0 then
    let bd := st.bd ||| 0x80
    let btmp := bigenPutUint64 (uint64 tsecs)
    let f := pruneSignExt btmp (decide (tsecs ≥ 0))
    let bd := bd ||| byte (byte (7 - f) <<< 2)
    let bs := copyRange st.bs st.i st.bs.length (btmp.drop f)
    { bd := bd, bs := bs, i := st.i + (8 - f) }
  else st

/-- The block `if tnsecs != 0 { ... }` of `bincEncodeTime`. -/
def putNsecs (tnsecs : Nat) (st : EncState) : EncState :=
  if tnsecs ≠ 0 then
    let bd := st.bd ||| 0x40
    let btmp := bigenPutUint32 (uint32 tnsecs)
    let f := pruneSignExt btmp true
    let bd := bd ||| byte (3 - f)
    let bs := copyRange st.bs st.i st.bs.length (btmp.drop f)
    { bd := bd, bs := bs, i := st.i + (4 - f) }
  else st

/-- The block `if l != nil { ... }` of `bincEncodeTime`, where `l` is the
location of `t`, or `nil` when that location is `time.UTC`. -/
def putZone (t : Time) (st : EncState) : EncState :=
  -- l := t.Location(); if l == time.UTC { l = nil }
  let l : Option Location := if t.loc = Location.utc then none else some t.loc
  match l with
  | some _ =>
    let bd := st.bd ||| 0x20
    let zoneOffset := t.zoneOffset
    let zoneOffset := zoneOffset.tdiv 60
    let z := uint16 zoneOffset
    let btmp := bigenPutUint16 z
    -- clear dst flags
    let bs := st.bs.set st.i (btmp.getD 0 0 &&& 0x3f)
    let bs := bs.set (st.i + 1) (btmp.getD 1 0)
    { bd := bd, bs := bs, i := st.i + 2 }
  | none => st

/-- Embedding of `bincEncodeTime(t time.Time) []byte`: the three blocks in
source order, then `bs[0] = bd; return bs[0:i]`. -/
def bincEncodeTime (t : Time) : List Nat :=
  let st := putSecs t.sec EncState.init
  let st := putNsecs t.nsec st
  let st := putZone t st
  (st.bs.set 0 st.bd).take st.i

/-- The block `if bd&(1<<7) != 0 { ... }` of `bincDecodeTime`, started with
read index `i`: the decoded `tsec` and the advanced index. -/
def getSecs (bs : List Nat) (bd i : Nat) : Option (Int × Nat) :=
  if bd &&& (1 <<< 7) ≠ 0 then do
    let btmp : List Nat := List.replicate 8 0
    let n := byte (((bd >>> 2) &&& 0x7) + 1)
    let i2 := byte (i + n)
    let src ← slice bs i i2
    let btmp := copyRange btmp (8 - n) btmp.length src
    -- if first bit of bs[i] is set, then fill btmp[0..8-n] with 0xff
    let b ← bs[i]?
    let btmp := if b &&& (1 <<< 7) ≠ 0 then copyRange btmp 0 (8 - n) bsAll0xff else btmp
    pure (int64 (bigenUint btmp), i2)
  else pure (0, i)

/-- The block `if bd&(1<<6) != 0 { ... }` of `bincDecodeTime`, started with
read index `i`: the decoded `tnsec` (a `uint32`) and the advanced index. -/
def getNsecs (bs : List Nat) (bd i : Nat) : Option (Nat × Nat) :=
  if bd &&& (1 <<< 6) ≠ 0 then do
    let btmp : List Nat := List.replicate 4 0
    let n := byte ((bd &&& 0x3) + 1)
    let i2 := byte (i + n)
    let src ← slice bs i i2
    let btmp := copyRange btmp (4 - n) btmp.length src
    pure (bigenUint btmp, i2)
  else pure (0, i)

/-- The tail of `bincDecodeTime` from `if bd&(1<<5) == 0` on. -/
def getZone (bs : List Nat) (bd i : Nat) (tsec : Int) (tnsec : Nat) : Option Time :=
  if bd &&& (1 <<< 5) = 0 then
    pure (timeUnixUTC tsec tnsec)
  else do
    let i2 := byte (i + 2)
    let tzb ← slice bs i i2
    let tz := bigenUint tzb
    -- sign extend sign bit into top 2 MSB (which were dst bits)
    let tz := if tz &&& (1 <<< 13) = 0 then tz &&& 0x3fff else tz ||| 0xc000
    let tzint := int16 tz
    if tzint = 0 then
      pure (timeUnixUTC tsec tnsec)
    else
      pure (timeUnixIn tsec tnsec "" (tzint * 60))

/-- Embedding of `bincDecodeTime(bs []byte) (tt time.Time, err error)`.
The outer `Option` is `none` on a run-time panic; the second component is
the returned `err` (`none` for `nil`), which the function never assigns. -/
def bincDecodeTime (bs : List Nat) : Option (Time × Option String) := do
  let bd ← bs[0]?
  let (tsec, i) ← getSecs bs bd 1
  let (tnsec, i) ← getNsecs bs bd i
  let tt ← getZone bs bd i tsec tnsec
  pure (tt, none)

/-! ## The three payload fields of an encoded timestamp -/

/-- Bytes written for the seconds: the eight big-endian bytes of `uint64(tsecs)`
from index `pruneSignExt` on; nothing when the seconds are zero. -/
def secsField (t : Time) : List Nat :=
  if t.sec ≠ 0 then
    (bigenPutUint64 (uint64 t.sec)).drop
      (pruneSignExt (bigenPutUint64 (uint64 t.sec)) (decide (t.sec ≥ 0)))
  else []

/-- Bytes written for the nanoseconds: the four big-endian bytes of
`uint32(tnsecs)` from index `pruneSignExt` on; nothing when they are zero. -/
def nsecsField (t : Time) : List Nat :=
  if t.nsec ≠ 0 then
    (bigenPutUint32 (uint32 t.nsec)).drop (pruneSignExt (bigenPutUint32 (uint32 t.nsec)) true)
  else []

/-- Bytes written for the zone: two bytes unless the location is `time.UTC`. -/
def tzField (t : Time) : List Nat :=
  if t.loc = Location.utc then []
  else [byte (uint16 t.offsetMinutes >>> 8) &&& 0x3f, byte (uint16 t.offsetMinutes)]

/-- Descriptor byte assembled by `bincEncodeTime`. -/
def descriptor (t : Time) : Nat :=
  (if t.sec ≠ 0 then 0x80 + 4 * ((secsField t).length - 1) else 0)
  + (if t.nsec ≠ 0 then 0x40 + ((nsecsField t).length - 1) else 0)
  + (if t.loc = Location.utc then 0 else 0x20)

/-- Shape of the scratch buffer while `bincEncodeTime` runs: a placeholder for
the descriptor, the payload `P` written so far, zeros up to 16 bytes. -/
def EncState.Holds (st : EncState) (P : List Nat) : Prop :=
  st.bs = (0 :: P) ++ List.replicate (15 - P.length) 0 ∧ st.i = 1 + P.length

/-- Value of a byte string read as a big-endian two's-complement integer. -/
def sbigen (bs : List Nat) : Int :=
  if 128 ≤ bs.headD 0 then (bigenUint bs : Int) - 2 ^ (8 * bs.length) else (bigenUint bs : Int)

/-- The integer `s` is representable in `k` bytes of two's complement. -/
def FitsSigned (k : Nat) (s : Int) : Prop := -2 ^ (8 * k - 1) ≤ s ∧ s < 2 ^ (8 * k - 1)

/-- Every element of the list is a byte. -/
def IsBytes (bs : List Nat) : Prop := ∀ b ∈ bs, b < 256

instance (bs : List Nat) : Decidable (IsBytes bs) := by unfold IsBytes; infer_instance

instance (k : Nat) (s : Int) : Decidable (FitsSigned k s) := by unfold FitsSigned; infer_instance

/-- Descriptor bit `A` (bit 7): a seconds field follows. -/
def bitA (bd : Nat) : Bool := bd.testBit 7

/-- Descriptor bit `B` (bit 6): a nanoseconds field follows. -/
def bitB (bd : Nat) : Bool := bd.testBit 6

/-- Descriptor bit `C` (bit 5): a zone field follows. -/
def bitC (bd : Nat) : Bool := bd.testBit 5

/-- Descriptor bits 4..2, `DDD`. -/
def fieldDDD (bd : Nat) : Nat := bd / 4 % 8

/-- Descriptor bits 1..0, `EE`. -/
def fieldEE (bd : Nat) : Nat := bd % 4

/-- Sign extension of the low 14 bits of a zone field. -/
def sext14 (x : Nat) : Int :=
  if x % 16384 < 8192 then ((x % 16384 : Nat) : Int) else ((x % 16384 : Nat) : Int) - 16384

/-- Number of seconds bytes a descriptor declares. -/
def secsLen (bd : Nat) : Nat := if bitA bd then fieldDDD bd + 1 else 0

/-- Number of nanoseconds bytes a descriptor declares. -/
def nsecsLen (bd : Nat) : Nat := if bitB bd then fieldEE bd + 1 else 0

/-- Number of zone bytes a descriptor declares. -/
def tzLen (bd : Nat) : Nat := if bitC bd then 2 else 0

/-- Length of the input a descriptor declares: itself and its three fields. -/
def declaredLen (bd : Nat) : Nat := 1 + secsLen bd + nsecsLen bd + tzLen bd

/-- The time denoted by a descriptor and its three fields: seconds read as a
signed big-endian integer, nanoseconds as an unsigned one, both handed to
`time.Unix`; the zone is the sign-extended 14-bit field, in minutes. -/
def decodedTime (bd : Nat) (S N Z : List Nat) : Time :=
  let tsec : Int := if bitA bd then sbigen S else 0
  let tnsec : Nat := if bitB bd then bigenUint N else 0
  if bitC bd = true ∧ sext14 (bigenUint Z) ≠ 0 then
    timeUnixIn tsec tnsec "" (sext14 (bigenUint Z) * 60)
  else timeUnixUTC tsec tnsec

/-- The seconds bytes of an input: those the descriptor `bs[0]` declares. -/
def inSecs (bs : List Nat) : List Nat := (bs.drop 1).take (secsLen (bs.headD 0))

/-- The nanoseconds bytes of an input, after the seconds bytes. -/
def inNsecs (bs : List Nat) : List Nat :=
  (bs.drop (1 + secsLen (bs.headD 0))).take (nsecsLen (bs.headD 0))

/-- The zone bytes of an input, after the nanoseconds bytes. -/
def inTz (bs : List Nat) : List Nat :=
  (bs.drop (1 + secsLen (bs.headD 0) + nsecsLen (bs.headD 0))).take (tzLen (bs.headD 0))

/-- A sample time: one second before the epoch, five nanoseconds, in a zone
named "UGO" five hours west of UTC. -/
def sampleTime : Time := { sec := -1, nsec := 5, loc := Location.fixed "UGO" (-18000) }

/-- The value `tsec` that `bincDecodeTime` hands to `time.Unix`: the seconds
bytes read as a signed big-endian integer, or zero when bit `A` is clear. -/
def rawSecs (bs : List Nat) : Int := if bitA (bs.headD 0) then sbigen (inSecs bs) else 0

/-- The value `tnsec` that `bincDecodeTime` hands to `time.Unix`: the
nanoseconds bytes read as an unsigned big-endian integer, or zero when bit
`B` is clear. -/
def rawNsecs (bs : List Nat) : Nat := if bitB (bs.headD 0) then bigenUint (inNsecs bs) else 0

/-! ## Test oracle for generic decoding (`testVerifyVal`) -/

/-- The `testVerifyFlag` bits (`1 << iota`, the first one unused). -/
def testVerifyMapTypeSame : Nat := 2

/-- Flag bit `testVerifyMapTypeStrIntf`. -/
def testVerifyMapTypeStrIntf : Nat := 4

/-- Flag bit `testVerifyMapTypeIntfIntf`. -/
def testVerifyMapTypeIntfIntf : Nat := 8

/-- Flag bit `testVerifyTimeAsInteger` (after `ForPython = 16`, `DoNil = 32`). -/
def testVerifyTimeAsInteger : Nat := 64

/-- The method `(f testVerifyFlag) isset(v)`: `f&v == v`. -/
def isset (f v : Nat) : Bool := f &&& v == v

/-- Dynamic values (`interface{}`) that `testVerifyVal` receives and returns.
A map is the list of its entries in the iteration order of the run; `str`,
`bool` and `other` are values that fall to the `default` case; `nilIntf` is
the nil interface. -/
inductive TestVal where
  | int8 (v : Int) : TestVal
  | int16 (v : Int) : TestVal
  | int32 (v : Int) : TestVal
  | int64 (v : Int) : TestVal
  | uint8 (v : Nat) : TestVal
  | uint16 (v : Nat) : TestVal
  | uint32 (v : Nat) : TestVal
  | uint64 (v : Nat) : TestVal
  | float32 (x : Nat) : TestVal
  | float64 (x : Nat) : TestVal
  | float64of32 (x : Nat) : TestVal
  | slice (l : List TestVal) : TestVal
  | mbs (l : List TestVal) : TestVal
  | mapStrBool (l : List (String × Bool)) : TestVal
  | mapStrIntf (l : List (String × TestVal)) : TestVal
  | mapIntfIntf (l : List (TestVal × TestVal)) : TestVal
  | bool (b : Bool) : TestVal
  | str (s : String) : TestVal
  | time (t : Time) : TestVal
  | nilIntf : TestVal
  | other (tag : Nat) : TestVal

/-- Embedding of `testVerifyValInt(v int64, isMsgp bool)`. -/
def testVerifyValInt (v : Int) (isMsgp : Bool) : TestVal :=
  if isMsgp then
    if v ≥ 0 ∧ v ≤ 127 then TestVal.uint64 (uint64 v) else TestVal.int64 (int64 v)
  else if v ≥ 0 then TestVal.uint64 (uint64 v)
  else TestVal.int64 (int64 v)

/-- The method `t.UnixNano()`: nanoseconds since the epoch, an `int64`. -/
def Time.unixNano (t : Time) : Int := int64 (t.sec * 1000000000 + t.nsec)

mutual
/-- Embedding of `testVerifyVal(v interface{}, f testVerifyFlag, h Handle)`;
of the handle only `isMsgp` (is it a `*MsgpackHandle`) is used.  A `float32`
widened by `float64(iv)` is kept as `float64of32`.  A rebuilt
`map[interface{}]interface{}` is given entry by entry: entries whose rebuilt
keys coincide are both listed, where the Go map keeps one of them. -/
def testVerifyVal (v : TestVal) (f : Nat) (isMsgp : Bool) : TestVal :=
  match v with
  | TestVal.int8 iv => testVerifyValInt (int64 iv) isMsgp
  | TestVal.int16 iv => testVerifyValInt (int64 iv) isMsgp
  | TestVal.int32 iv => testVerifyValInt (int64 iv) isMsgp
  | TestVal.int64 iv => testVerifyValInt (int64 iv) isMsgp
  | TestVal.uint8 iv => TestVal.uint64 (uint64 iv)
  | TestVal.uint16 iv => TestVal.uint64 (uint64 iv)
  | TestVal.uint32 iv => TestVal.uint64 (uint64 iv)
  | TestVal.uint64 iv => TestVal.uint64 (uint64 iv)
  | TestVal.float32 x => TestVal.float64of32 x
  | TestVal.float64 x => TestVal.float64 x
  | TestVal.slice iv => TestVal.slice (testVerifyVals iv f isMsgp)
  | TestVal.mbs iv => TestVal.mbs (testVerifyVals iv f isMsgp)
  | TestVal.mapStrBool iv =>
    if isset f testVerifyMapTypeSame then TestVal.mapStrBool iv
    else if isset f testVerifyMapTypeStrIntf then
      TestVal.mapStrIntf (iv.map (fun kv => (kv.1, TestVal.bool kv.2)))
    else if isset f testVerifyMapTypeIntfIntf then
      TestVal.mapIntfIntf (iv.map (fun kv => (TestVal.str kv.1, TestVal.bool kv.2)))
    else TestVal.nilIntf
  | TestVal.mapStrIntf iv =>
    if isset f testVerifyMapTypeSame then TestVal.mapStrIntf (testVerifyEntries iv f isMsgp)
    else if isset f testVerifyMapTypeStrIntf then
      TestVal.mapStrIntf (testVerifyEntries iv f isMsgp)
    else if isset f testVerifyMapTypeIntfIntf then
      TestVal.mapIntfIntf
        ((testVerifyEntries iv f isMsgp).map (fun kv => (TestVal.str kv.1, kv.2)))
    else TestVal.nilIntf
  | TestVal.mapIntfIntf iv => TestVal.mapIntfIntf (testVerifyPairs iv f isMsgp)
  | TestVal.time iv =>
    if isset f testVerifyTimeAsInteger then
      if iv.unixNano ≥ 0 then TestVal.uint64 (uint64 iv.unixNano)
      else TestVal.int64 (int64 iv.unixNano)
    else if isMsgp then TestVal.time { iv with loc := Location.utc }
    else TestVal.time iv
  | v => v
/-- The loop `for j, vj := range iv { m2[j] = testVerifyVal(vj, f, h) }`. -/
def testVerifyVals (l : List TestVal) (f : Nat) (isMsgp : Bool) : List TestVal :=
  match l with
  | [] => []
  | vj :: rest => testVerifyVal vj f isMsgp :: testVerifyVals rest f isMsgp
/-- The loop `for kj, kv := range iv { m2[kj] = testVerifyVal(kv, f, h) }`. -/
def testVerifyEntries (l : List (String × TestVal)) (f : Nat) (isMsgp : Bool) :
    List (String × TestVal) :=
  match l with
  | [] => []
  | (kj, kv) :: rest => (kj, testVerifyVal kv f isMsgp) :: testVerifyEntries rest f isMsgp
/-- The loop `for kj, kv := range iv { m2[testVerifyVal(kj, f, h)] = testVerifyVal(kv, f, h) }`. -/
def testVerifyPairs (l : List (TestVal × TestVal)) (f : Nat) (isMsgp : Bool) :
    List (TestVal × TestVal) :=
  match l with
  | [] => []
  | (kj, kv) :: rest =>
    (testVerifyVal kj f isMsgp, testVerifyVal kv f isMsgp) :: testVerifyPairs rest f isMsgp
end

/-! ## Extension hooks of the tests (`wrapInt64Ext`) -/

/-- Dynamic values (`interface{}`) handed to the extension hooks.  `wrapInt64`
is an integer type declared in another file of the package; the hooks convert
it to and from `int64`.  A pointer is given with the value it points to. -/
inductive Iface where
  | wrapInt64 (x : Int) : Iface
  | ptrWrapInt64 (x : Int) : Iface
  | int64 (x : Int) : Iface
  | uint64 (x : Nat) : Iface
  | ptrTime (t : Time) : Iface
  | float64 (x : Nat) : Iface
  | str (s : String) : Iface
  | nilIntf : Iface
deriving DecidableEq, Repr

/-- The call `bigen.Uint64(bs)`: reads the first eight bytes, panics (`none`)
on a shorter slice. -/
def bigenUint64 (bs : List Nat) : Option Nat :=
  if 8 ≤ bs.length then some (bigenUint (bs.take 8)) else none

/-- Embedding of `(*wrapInt64Ext).WriteExt(v interface{}) []byte`; `none` when
the type assertion `v.(wrapInt64)` panics. -/
def wrapInt64Ext.WriteExt (v : Iface) : Option (List Nat) :=
  match v with
  | Iface.wrapInt64 x =>
    let v2 := uint64 (int64 x)
    some (bigenPutUint64 v2)
  | _ => none

/-- Embedding of `(*wrapInt64Ext).ReadExt(v interface{}, bs []byte)`: the value
stored through the pointer `v.(*wrapInt64)`; `none` on a panic. -/
def wrapInt64Ext.ReadExt (v : Iface) (bs : List Nat) : Option Int :=
  match v with
  | Iface.ptrWrapInt64 _ => do
    let ui ← bigenUint64 bs
    pure (int64 ui)
  | _ => none

/-- Embedding of `(*wrapInt64Ext).ConvertExt(v interface{}) interface{}`. -/
def wrapInt64Ext.ConvertExt (v : Iface) : Option Iface :=
  match v with
  | Iface.wrapInt64 x => some (Iface.int64 (int64 x))
  | _ => none

/-- Embedding of `(*wrapInt64Ext).UpdateExt(dest interface{}, v interface{})`:
the value stored through `dest.(*wrapInt64)`; `none` when a type assertion
(`dest.(*wrapInt64)` or `v.(int64)`) panics. -/
def wrapInt64Ext.UpdateExt (dest : Iface) (v : Iface) : Option Int :=
  match dest with
  | Iface.ptrWrapInt64 _ =>
    match v with
    | Iface.int64 x => some x
    | _ => none
  | _ => none

/-! ## The reflective engine, modelled from the specification

The engine itself (encoder, decoder, type resolver) is declared outside the
translated files; only its tests are at hand.  The definitions of this
section follow the specification: the engine works on the tokens of the
Format Adapter contract, the byte layout of a token being given externally. -/

namespace Engine

/-- Modelled from the spec: the error taxonomy of §7, as far as the modelled
operations raise it (structural errors: end of input and malformed input;
type mismatch; depth exceeded; circular reference). -/
inductive Err where
  | endOfInput : Err
  | malformed : Err
  | typeMismatch : Err
  | depthExceeded : Err
  | circularReference : Err
deriving DecidableEq, Repr

/-- Modelled from the spec: the tokens of the Format Adapter contract (§6):
map header, array header, string, byte string, integer, float, extension.  An
extension is its header (tag and declared length) followed by that many raw
payload bytes, which are read one by one. -/
inductive Tok where
  | nil : Tok
  | bool (b : Bool) : Tok
  | int (i : Int) : Tok
  | uint (u : Nat) : Tok
  | float (x : Nat) : Tok
  | str (s : List Nat) : Tok
  | bin (b : List Nat) : Tok
  | arrHdr (n : Nat) : Tok
  | mapHdr (n : Nat) : Tok
  | extHdr (tag n : Nat) : Tok
  | raw (b : Nat) : Tok
deriving DecidableEq, Repr

/-- Modelled from the spec: a decoded-but-untyped value (§9: a sum type that
keeps signedness).  A map is the list of its entries in iteration order; a
float is given by its bit pattern; an extension is kept as tag and bytes. -/
inductive Val where
  | nil : Val
  | bool (b : Bool) : Val
  | int (i : Int) : Val
  | uint (u : Nat) : Val
  | float (x : Nat) : Val
  | str (s : List Nat) : Val
  | bin (b : List Nat) : Val
  | arr (l : List Val) : Val
  | map (l : List (Val × Val)) : Val
  | ext (tag : Nat) (data : List Nat) : Val

/-- Modelled from the spec: the Handle options of §3 used by the model.
`maxDepth = 0` leaves the nesting depth unbounded. -/
structure Handle where
  canonical : Bool
  checkCircularRef : Bool
  structToArray : Bool
  maxDepth : Nat
deriving DecidableEq, Repr

/-- Modelled from the spec: the sort code of a token: the kind, then the content.  Strings compare
byte-wise, integers numerically (a negative `int` before every `uint`). -/
def Tok.code : Tok → List Int
  | Tok.nil => [0]
  | Tok.bool b => [1, if b then 1 else 0]
  | Tok.int i => [2, i]
  | Tok.uint u => [3, u]
  | Tok.float x => [4, x]
  | Tok.str s => 5 :: s.map Int.ofNat
  | Tok.bin b => 6 :: b.map Int.ofNat
  | Tok.arrHdr n => [7, n]
  | Tok.mapHdr n => [8, n]
  | Tok.extHdr tag n => [9, tag, n]
  | Tok.raw b => [10, b]

/-- Modelled from the spec: the sort key of an encoded map entry: the codes of
its key tokens, compared lexicographically.  The value of the entry takes no
part in it. -/
def entryKey (e : List Tok × List Tok) : List (List Int) := e.1.map Tok.code

/-- Modelled from the spec: the order in which canonical mode emits buffered
map entries (§4.3): by key, byte-wise for string keys and numerically for
numeric keys.  Entries whose keys encode alike are not told apart by it. -/
def entryLe (a b : List Tok × List Tok) : Prop := entryKey a ≤ entryKey b

instance : DecidableRel entryLe := fun a b => by unfold entryLe; infer_instance

instance : IsTotal (List Tok × List Tok) entryLe :=
  ⟨fun a b => le_total (entryKey a) (entryKey b)⟩

instance : IsTrans (List Tok × List Tok) entryLe :=
  ⟨fun _ _ _ h1 h2 => le_trans h1 h2⟩

/-- Modelled from the spec: emission of the buffered entries of a map, sorted
by key when canonical mode is on, in iteration order otherwise.  The sort moves
an entry past those with a smaller key only, so that entries whose keys encode
alike stay in iteration order. -/
def emitEntries (canonical : Bool) (es : List (List Tok × List Tok)) : List Tok :=
  ((if canonical then es.insertionSort entryLe else es).map (fun e => e.1 ++ e.2)).flatten

mutual
/-- Modelled from the spec: the recursive encode traversal of §4.3, dispatching
on the shape of the value, without its depth counter (`encodeGuarded` is the
traversal with the counter).  A non-negative integer is written in unsigned
form, so that it reads back as the narrowest unsigned form (§8). -/
def encode (canonical : Bool) : Val → List Tok
  | Val.nil => [Tok.nil]
  | Val.bool b => [Tok.bool b]
  | Val.int i => if 0 ≤ i then [Tok.uint i.toNat] else [Tok.int i]
  | Val.uint u => [Tok.uint u]
  | Val.float x => [Tok.float x]
  | Val.str s => [Tok.str s]
  | Val.bin b => [Tok.bin b]
  | Val.arr l => Tok.arrHdr l.length :: encodeList canonical l
  | Val.map l => Tok.mapHdr l.length :: emitEntries canonical (encodeEntries canonical l)
  | Val.ext tag data => Tok.extHdr tag data.length :: data.map Tok.raw
/-- Modelled from the spec: the encoding of the elements of a sequence, in
order. -/
def encodeList (canonical : Bool) : List Val → List Tok
  | [] => []
  | v :: vs => encode canonical v ++ encodeList canonical vs
/-- Modelled from the spec: the encoding of each entry of a map, buffered as
(key tokens, value tokens). -/
def encodeEntries (canonical : Bool) : List (Val × Val) → List (List Tok × List Tok)
  | [] => []
  | (k, v) :: ps => (encode canonical k, encode canonical v) :: encodeEntries canonical ps
end

mutual
/-- Modelled from the spec: the container nesting depth of a value: 0 for a scalar, one more than the
deepest element for an array or a map. -/
def nest : Val → Nat
  | Val.nil => 0
  | Val.bool _ => 0
  | Val.int _ => 0
  | Val.uint _ => 0
  | Val.float _ => 0
  | Val.str _ => 0
  | Val.bin _ => 0
  | Val.arr l => nestList l + 1
  | Val.map l => nestPairs l + 1
  | Val.ext _ _ => 0
/-- Deepest nesting among the elements of a sequence. -/
def nestList : List Val → Nat
  | [] => 0
  | v :: vs => max (nest v) (nestList vs)
/-- Deepest nesting among the keys and values of the entries of a map. -/
def nestPairs : List (Val × Val) → Nat
  | [] => 0
  | (k, v) :: ps => max (max (nest k) (nest v)) (nestPairs ps)
end

/-- Modelled from the spec: encoding the elements of a sequence in order with
the encoder `enc`; the first error short-circuits (§7). -/
def encodeElems (enc : Val → Except Err (List Tok)) : List Val → Except Err (List Tok)
  | [] => Except.ok []
  | v :: vs =>
    match enc v with
    | Except.error e => Except.error e
    | Except.ok t =>
      match encodeElems enc vs with
      | Except.error e => Except.error e
      | Except.ok ts => Except.ok (t ++ ts)

/-- Modelled from the spec: encoding each entry of a map with the encoder
`enc`, buffered as (key tokens, value tokens); the first error
short-circuits (§7). -/
def encodePairs (enc : Val → Except Err (List Tok)) :
    List (Val × Val) → Except Err (List (List Tok × List Tok))
  | [] => Except.ok []
  | (k, v) :: ps =>
    match enc k with
    | Except.error e => Except.error e
    | Except.ok tk =>
      match enc v with
      | Except.error e => Except.error e
      | Except.ok tv =>
        match encodePairs enc ps with
        | Except.error e => Except.error e
        | Except.ok es => Except.ok ((tk, tv) :: es)

/-- Modelled from the spec: the encode traversal under the depth guard of
§4.3, with `d` further descents allowed: every descent into an array or a map
uses one up, and a descent when none is left aborts with the depth-exceeded
error. -/
def encodeGuarded (canonical : Bool) : Nat → Val → Except Err (List Tok)
  | _, Val.nil => Except.ok [Tok.nil]
  | _, Val.bool b => Except.ok [Tok.bool b]
  | _, Val.int i => Except.ok (if 0 ≤ i then [Tok.uint i.toNat] else [Tok.int i])
  | _, Val.uint u => Except.ok [Tok.uint u]
  | _, Val.float x => Except.ok [Tok.float x]
  | _, Val.str s => Except.ok [Tok.str s]
  | _, Val.bin b => Except.ok [Tok.bin b]
  | 0, Val.arr _ => Except.error Err.depthExceeded
  | d + 1, Val.arr l =>
    match encodeElems (encodeGuarded canonical d) l with
    | Except.error e => Except.error e
    | Except.ok ts => Except.ok (Tok.arrHdr l.length :: ts)
  | 0, Val.map _ => Except.error Err.depthExceeded
  | d + 1, Val.map l =>
    match encodePairs (encodeGuarded canonical d) l with
    | Except.error e => Except.error e
    | Except.ok es => Except.ok (Tok.mapHdr l.length :: emitEntries canonical es)
  | _, Val.ext tag data => Except.ok (Tok.extHdr tag data.length :: data.map Tok.raw)

/-- Modelled from the spec: whether two keys are the same key of a map: they
have the same canonical encoding. -/
def sameKey (k1 k2 : Val) : Bool := decide (encode true k1 = encode true k2)

/-- Modelled from the spec: storing an entry in a map: an entry with the same
key has its value replaced, otherwise the entry is added. -/
def putEntry (acc : List (Val × Val)) (p : Val × Val) : List (Val × Val) :=
  if acc.any (fun q => sameKey q.1 p.1) then
    acc.map (fun q => if sameKey q.1 p.1 then (q.1, p.2) else q)
  else acc ++ [p]

/-- Modelled from the spec: the map that holds the entries read for it, stored
one by one: one entry per key, with the value read last. -/
def toMap (l : List (Val × Val)) : List (Val × Val) := l.foldl putEntry []

mutual
/-- Modelled from the spec: the value a generic target holds after a decode
(§4.4): every map of the decoded tree, nested ones included, holds the entries
read for it, one per key. -/
def materialize : Val → Val
  | Val.nil => Val.nil
  | Val.bool b => Val.bool b
  | Val.int i => Val.int i
  | Val.uint u => Val.uint u
  | Val.float x => Val.float x
  | Val.str s => Val.str s
  | Val.bin b => Val.bin b
  | Val.arr l => Val.arr (materializeList l)
  | Val.map l => Val.map (toMap (materializePairs l))
  | Val.ext tag data => Val.ext tag data
/-- The elements of a sequence, each as the target holds it. -/
def materializeList : List Val → List Val
  | [] => []
  | v :: vs => materialize v :: materializeList vs
/-- The entries read for a map, keys and values each as the target holds
them. -/
def materializePairs : List (Val × Val) → List (Val × Val)
  | [] => []
  | (k, v) :: ps => (materialize k, materialize v) :: materializePairs ps
end

mutual
/-- Whether no map of the value, nested ones included, has two keys with the
same encoding. -/
def keysDistinct (c : Bool) : Val → Bool
  | Val.nil => true
  | Val.bool _ => true
  | Val.int _ => true
  | Val.uint _ => true
  | Val.float _ => true
  | Val.str _ => true
  | Val.bin _ => true
  | Val.arr l => keysDistinctList c l
  | Val.map l => decide ((l.map (fun p => encode c p.1)).Nodup) && keysDistinctPairs c l
  | Val.ext _ _ => true
/-- Whether every element of a sequence has maps with distinct keys only. -/
def keysDistinctList (c : Bool) : List Val → Bool
  | [] => true
  | v :: vs => keysDistinct c v && keysDistinctList c vs
/-- Whether every key and value of the entries of a map has maps with distinct
keys only. -/
def keysDistinctPairs (c : Bool) : List (Val × Val) → Bool
  | [] => true
  | (k, v) :: ps => keysDistinct c k && keysDistinct c v && keysDistinctPairs c ps
end

/-- Modelled from the spec: reading the payload of an extension, byte by byte
up to the declared length (§4.4, declared-length distrust); the input running
out first is an end-of-input error. -/
def readRaw : Nat → List Tok → Except Err (List Nat × List Tok)
  | 0, toks => Except.ok ([], toks)
  | _ + 1, [] => Except.error Err.endOfInput
  | n + 1, Tok.raw b :: rest =>
    match readRaw n rest with
    | Except.ok (bs, r) => Except.ok (b :: bs, r)
    | Except.error e => Except.error e
  | _ + 1, _ :: _ => Except.error Err.malformed

/-- Modelled from the spec: reading the elements of a sequence one by one up
to the declared count (§4.4); nothing is sized from the declared count. -/
def decodeElems (dec : List Tok → Except Err (Val × List Tok)) :
    Nat → List Tok → Except Err (List Val × List Tok)
  | 0, toks => Except.ok ([], toks)
  | n + 1, toks =>
    match dec toks with
    | Except.error e => Except.error e
    | Except.ok (v, r) =>
      match decodeElems dec n r with
      | Except.error e => Except.error e
      | Except.ok (vs, r') => Except.ok (v :: vs, r')

/-- Modelled from the spec: reading the entries of a map one by one up to the
declared count (§4.4), each a key then a value.  The entries are returned as
read, in reading order. -/
def decodePairs (decK decV : List Tok → Except Err (Val × List Tok)) :
    Nat → List Tok → Except Err (List (Val × Val) × List Tok)
  | 0, toks => Except.ok ([], toks)
  | n + 1, toks =>
    match decK toks with
    | Except.error e => Except.error e
    | Except.ok (k, r) =>
      match decV r with
      | Except.error e => Except.error e
      | Except.ok (v, r') =>
        match decodePairs decK decV n r' with
        | Except.error e => Except.error e
        | Except.ok (ps, r'') => Except.ok ((k, v) :: ps, r'')

/-- Modelled from the spec: reading one value for a generic target (§4.4) with
`d` further container levels allowed; descending into a container when none is
left is the depth-exceeded error.  Returns the value as read, a map being the
list of the entries read (`materialize` stores them in the map of the target,
one per key), and the unread input. -/
def decodeVal : Nat → List Tok → Except Err (Val × List Tok)
  | _, [] => Except.error Err.endOfInput
  | _, Tok.nil :: r => Except.ok (Val.nil, r)
  | _, Tok.bool b :: r => Except.ok (Val.bool b, r)
  | _, Tok.int i :: r => Except.ok (Val.int i, r)
  | _, Tok.uint u :: r => Except.ok (Val.uint u, r)
  | _, Tok.float x :: r => Except.ok (Val.float x, r)
  | _, Tok.str s :: r => Except.ok (Val.str s, r)
  | _, Tok.bin b :: r => Except.ok (Val.bin b, r)
  | 0, Tok.arrHdr _ :: _ => Except.error Err.depthExceeded
  | d + 1, Tok.arrHdr n :: r =>
    match decodeElems (decodeVal d) n r with
    | Except.error e => Except.error e
    | Except.ok (l, r') => Except.ok (Val.arr l, r')
  | 0, Tok.mapHdr _ :: _ => Except.error Err.depthExceeded
  | d + 1, Tok.mapHdr n :: r =>
    match decodePairs (decodeVal d) (decodeVal d) n r with
    | Except.error e => Except.error e
    | Except.ok (l, r') => Except.ok (Val.map l, r')
  | _, Tok.extHdr tag n :: r =>
    match readRaw n r with
    | Except.error e => Except.error e
    | Except.ok (data, r') => Except.ok (Val.ext tag data, r')
  | _, Tok.raw _ :: _ => Except.error Err.malformed

/-- Modelled from the spec: skipping `n` encoded values in a row. -/
def skipN (sw : List Tok → Except Err (List Tok)) : Nat → List Tok → Except Err (List Tok)
  | 0, toks => Except.ok toks
  | n + 1, toks =>
    match sw toks with
    | Except.error e => Except.error e
    | Except.ok r => skipN sw n r

/-- Modelled from the spec: swallow (§4.4) consumes one encoded value without
materialising it, with the same depth accounting as a decode.  Returns the
unread input. -/
def swallow : Nat → List Tok → Except Err (List Tok)
  | _, [] => Except.error Err.endOfInput
  | _, Tok.nil :: r => Except.ok r
  | _, Tok.bool _ :: r => Except.ok r
  | _, Tok.int _ :: r => Except.ok r
  | _, Tok.uint _ :: r => Except.ok r
  | _, Tok.float _ :: r => Except.ok r
  | _, Tok.str _ :: r => Except.ok r
  | _, Tok.bin _ :: r => Except.ok r
  | 0, Tok.arrHdr _ :: _ => Except.error Err.depthExceeded
  | d + 1, Tok.arrHdr n :: r => skipN (swallow d) n r
  | 0, Tok.mapHdr _ :: _ => Except.error Err.depthExceeded
  | d + 1, Tok.mapHdr n :: r => skipN (swallow d) (2 * n) r
  | _, Tok.extHdr _ n :: r =>
    match readRaw n r with
    | Except.error e => Except.error e
    | Except.ok (_, r') => Except.ok r'
  | _, Tok.raw _ :: _ => Except.error Err.malformed

/-- Modelled from the spec: the number of container levels a decode may
descend.  With `MaxDepth = 0` the depth is unbounded: one level per input
token is a budget no input can use up. -/
def depthBudget (h : Handle) (toks : List Tok) : Nat :=
  if h.maxDepth = 0 then toks.length else h.maxDepth

/-- Modelled from the spec: the public operation `Encode(value) -> bytes | error`
(§6) on a generic value, under the depth guard of §4.3: with `MaxDepth = M > 0`
the traversal may descend `M` container levels; with `MaxDepth = 0` the depth
is unbounded. -/
def Encode (h : Handle) (v : Val) : Except Err (List Tok) :=
  if h.maxDepth = 0 then Except.ok (encode h.canonical v)
  else encodeGuarded h.canonical h.maxDepth v

/-- Modelled from the spec: the public operation `Decode(bytes, target)` (§6)
into a generic target: the value the target holds after the decode, its maps
holding one entry per key, or the error. -/
def Decode (h : Handle) (toks : List Tok) : Except Err Val :=
  match decodeVal (depthBudget h toks) toks with
  | Except.error e => Except.error e
  | Except.ok (v, _) => Except.ok (materialize v)

/-- Modelled from the spec: swallow on a decoder positioned at the start of
the input: the unread input, or the error. -/
def Swallow (h : Handle) (toks : List Tok) : Except Err (List Tok) :=
  swallow (depthBudget h toks) toks

/-- Tokens of a list of map entries, in list order. -/
def flatPairs (c : Bool) (ps : List (Val × Val)) : List Tok :=
  (ps.map (fun p => encode c p.1 ++ encode c p.2)).flatten

/-- The emission order of encoded entries, read back on the entries. -/
def pairLe (c : Bool) (p q : Val × Val) : Prop :=
  entryLe (encode c p.1, encode c p.2) (encode c q.1, encode c q.2)

instance (c : Bool) : DecidableRel (pairLe c) := fun p q => by unfold pairLe; infer_instance

/-- The order in which the entries of a map are emitted. -/
def emitOrder (c : Bool) (l : List (Val × Val)) : List (Val × Val) :=
  if c then l.insertionSort (pairLe c) else l

/-- Outcome of decoding and of swallowing the encoding of `v` when the depth
budget `d` suffices: the decoded value `w`, exactly the encoding consumed, `w`
encodes like `v`, and the maps of `w` have distinct keys when those of `v`
have. -/
structure Good (c : Bool) (d : Nat) (v w : Val) : Prop where
  dec : ∀ r, decodeVal d (encode c v ++ r) = Except.ok (w, r)
  sw : ∀ r, swallow d (encode c v ++ r) = Except.ok r
  enc : encode c w = encode c v
  kd : keysDistinct c v = true → keysDistinct c w = true

/-- Outcome of decoding and of swallowing the encoding of `v` when the depth
budget `d` is too small. -/
structure Bad (c : Bool) (d : Nat) (v : Val) : Prop where
  dec : ∀ r, decodeVal d (encode c v ++ r) = Except.error Err.depthExceeded
  sw : ∀ r, swallow d (encode c v ++ r) = Except.error Err.depthExceeded

/-- The depth guard on one value: success within the budget, the
depth-exceeded error beyond it. -/
def Inv (c : Bool) (v : Val) : Prop :=
  ∀ d, (nest v ≤ d → ∃ w, Good c d v w) ∧ (d < nest v → Bad c d v)

/-- The value a decode of the encoding of `v` yields under depth budget `d`
(`nil` when the decode fails). -/
def decodedAs (c : Bool) (d : Nat) (v : Val) : Val :=
  match decodeVal d (encode c v) with
  | Except.ok (w, _) => w
  | Except.error _ => Val.nil

mutual
/-- The same value with the entries of every map, nested ones included, put in
another iteration order `σ`. -/
def reorder (σ : List (Val × Val) → List (Val × Val)) : Val → Val
  | Val.nil => Val.nil
  | Val.bool b => Val.bool b
  | Val.int i => Val.int i
  | Val.uint u => Val.uint u
  | Val.float x => Val.float x
  | Val.str s => Val.str s
  | Val.bin b => Val.bin b
  | Val.arr l => Val.arr (reorderList σ l)
  | Val.map l => Val.map (σ (reorderPairs σ l))
  | Val.ext tag data => Val.ext tag data
/-- Reordering inside each element of a sequence. -/
def reorderList (σ : List (Val × Val) → List (Val × Val)) : List Val → List Val
  | [] => []
  | v :: vs => reorder σ v :: reorderList σ vs
/-- Reordering inside each key and value of the entries of a map. -/
def reorderPairs (σ : List (Val × Val) → List (Val × Val)) :
    List (Val × Val) → List (Val × Val)
  | [] => []
  | (k, v) :: ps => (reorder σ k, reorder σ v) :: reorderPairs σ ps
end

/-- Modelled from the spec: decoding into a typed integer target (§4.4,
bidirectional dispatch on the shape of the target). -/
def decodeInt : List Tok → Except Err (Val × List Tok)
  | [] => Except.error Err.endOfInput
  | Tok.int i :: r => Except.ok (Val.int i, r)
  | Tok.uint u :: r => Except.ok (Val.int u, r)
  | _ :: _ => Except.error Err.typeMismatch

/-- Modelled from the spec: decoding into a typed string target (§4.4). -/
def decodeStr : List Tok → Except Err (Val × List Tok)
  | [] => Except.error Err.endOfInput
  | Tok.str s :: r => Except.ok (Val.str s, r)
  | Tok.bin b :: r => Except.ok (Val.str b, r)
  | _ :: _ => Except.error Err.typeMismatch

/-- Modelled from the spec: decoding into a typed byte-string target (§4.4). -/
def decodeBytes : List Tok → Except Err (Val × List Tok)
  | [] => Except.error Err.endOfInput
  | Tok.bin b :: r => Except.ok (Val.bin b, r)
  | Tok.str s :: r => Except.ok (Val.bin s, r)
  | _ :: _ => Except.error Err.typeMismatch

/-- Modelled from the spec: decoding into a typed map target (§4.4) whose keys
are read by `decK` and whose values are read by `decV`, with `d` container
levels allowed. -/
def decodeMap (decK decV : List Tok → Except Err (Val × List Tok)) :
    Nat → List Tok → Except Err (Val × List Tok)
  | _, [] => Except.error Err.endOfInput
  | 0, Tok.mapHdr _ :: _ => Except.error Err.depthExceeded
  | _ + 1, Tok.mapHdr n :: r =>
    match decodePairs decK decV n r with
    | Except.error e => Except.error e
    | Except.ok (l, r') => Except.ok (Val.map l, r')
  | _, _ :: _ => Except.error Err.typeMismatch

/-- Modelled from the spec: `Decode(bytes, target)` (§6) into a typed map
target. -/
def DecodeMap (h : Handle) (decK decV : List Tok → Except Err (Val × List Tok))
    (toks : List Tok) : Except Err Val :=
  match decodeMap decK decV (depthBudget h toks) toks with
  | Except.error e => Except.error e
  | Except.ok (v, _) => Except.ok v

/-! ### Structs -/

/-- Modelled from the spec: the declaration of a field in the flattened struct
(§4.2): encoded name, embedding depth of the declaration (0 for a direct
field), omit-empty flag. -/
structure Decl where
  name : List Nat
  depth : Nat
  omitEmpty : Bool
deriving DecidableEq, Repr

/-- Modelled from the spec: a field of a struct value: its declaration and the
value held, given in generic form. -/
structure Cand where
  decl : Decl
  v : Val

/-- Modelled from the spec: a struct value as the tree of its accessible
declared fields (§4.2): a field with its encoded name, its omit-empty flag and
its value, or an embedded struct contributing its own fields. -/
inductive Field where
  | leaf (name : List Nat) (omitEmpty : Bool) (v : Val) : Field
  | embedded (fields : List Field) : Field

mutual
/-- The fields a declared field contributes at embedding depth `depth`, in
declaration order. -/
def Field.cands (depth : Nat) : Field → List Cand
  | Field.leaf n o v => [⟨⟨n, depth, o⟩, v⟩]
  | Field.embedded fs => candsList (depth + 1) fs
/-- The fields a list of declared fields contributes, in declaration order. -/
def candsList (depth : Nat) : List Field → List Cand
  | [] => []
  | f :: fs => f.cands depth ++ candsList depth fs
end

mutual
/-- The declared field without its omit-empty-flagged fields: none for such a
field, the embedded struct without them otherwise. -/
def Field.dropOmitEmpty : Field → List Field
  | Field.leaf n o v => if o then [] else [Field.leaf n o v]
  | Field.embedded fs => [Field.embedded (dropOmitEmptyList fs)]
/-- The struct that declares only the fields not flagged omit-empty, with the
same names and values. -/
def dropOmitEmptyList : List Field → List Field
  | [] => []
  | f :: fs => f.dropOmitEmpty ++ dropOmitEmptyList fs
end

/-- Modelled from the spec: the collision rule of §4.2, shallowest depth
wins, then first declared wins at equal depth: the declaration `c`, coming
after the declarations `pre` and before the declarations `post`, wins its
encoded name. -/
def wins (pre post : List Decl) (c : Decl) : Bool :=
  pre.all (fun x => decide (x.name ≠ c.name ∨ c.depth < x.depth)) &&
  post.all (fun x => decide (x.name ≠ c.name ∨ c.depth ≤ x.depth))

/-- The winning fields among `post`, declared after `pre`, in declaration
order. -/
def tableFrom (pre : List Decl) : List Cand → List Cand
  | [] => []
  | c :: post =>
    (if wins pre (post.map Cand.decl) c.decl then [c] else []) ++
      tableFrom (pre ++ [c.decl]) post

/-- Modelled from the spec: the field table of a struct (§4.2): one field per
encoded name, in declaration order. -/
def fieldTable (cs : List Cand) : List Cand := tableFrom [] cs

/-- Modelled from the spec: the zero/empty value of each shape (§4.3,
omit-empty): zero number, empty string, nil, zero-length container, false. -/
def isEmptyVal : Val → Bool
  | Val.nil => true
  | Val.bool b => !b
  | Val.int i => decide (i = 0)
  | Val.uint u => decide (u = 0)
  | Val.float x => decide (x = 0)
  | Val.str s => s.isEmpty
  | Val.bin b => b.isEmpty
  | Val.arr l => l.isEmpty
  | Val.map l => l.isEmpty
  | Val.ext _ _ => false

/-- Modelled from the spec: a field is written unless it is flagged omit-empty
and holds the empty value of its shape (§4.3). -/
def Cand.emitted (c : Cand) : Bool := !(c.decl.omitEmpty && isEmptyVal c.v)

/-- Tokens of a list of struct fields written as map entries: the encoded
name, then the value. -/
def flatFields (canonical : Bool) (fs : List Cand) : List Tok :=
  (fs.map (fun c => Tok.str c.decl.name :: encode canonical c.v)).flatten

/-- Modelled from the spec: the encoding of a struct (§4.3): a map from the
encoded names of the field table to the values, omit-empty fields holding the
empty value skipped; in struct-to-array mode a positional array of the values
of the field table. -/
def encodeStruct (h : Handle) (cs : List Cand) : List Tok :=
  if h.structToArray then
    Tok.arrHdr (fieldTable cs).length ::
      ((fieldTable cs).map (fun c => encode h.canonical c.v)).flatten
  else
    Tok.mapHdr ((fieldTable cs).filter Cand.emitted).length ::
      flatFields h.canonical ((fieldTable cs).filter Cand.emitted)

/-- Modelled from the spec: the position, counted from `pre`, of the declared
field that wins the encoded name `key` (§4.4: the same shadowing precedence as
at encode time), if any field has that name. -/
def winnerIdxFrom (pre : List Decl) : List Decl → List Nat → Option Nat
  | [], _ => none
  | c :: post, key =>
    if c.name = key ∧ wins pre post c = true then some pre.length
    else winnerIdxFrom (pre ++ [c]) post key

/-- Position of the field of a struct type that an encoded name denotes. -/
def winnerIdx (ds : List Decl) (key : List Nat) : Option Nat := winnerIdxFrom [] ds key

/-- Modelled from the spec: reading the `n` entries of an encoded struct into
a target of the struct type `ds` holding the values `vals` (§4.4): the value of
a key that denotes a field is decoded into that field, the value of any other
key is swallowed; fields without a key keep their prior value. -/
def decodeFields (d : Nat) (ds : List Decl) :
    Nat → List Tok → List Val → Except Err (List Val × List Tok)
  | 0, toks, vals => Except.ok (vals, toks)
  | _ + 1, [], _ => Except.error Err.endOfInput
  | n + 1, Tok.str key :: r, vals =>
    match winnerIdx ds key with
    | some i =>
      match decodeVal d r with
      | Except.error e => Except.error e
      | Except.ok (w, r') => decodeFields d ds n r' (vals.set i w)
    | none =>
      match swallow d r with
      | Except.error e => Except.error e
      | Except.ok r' => decodeFields d ds n r' vals
  | _ + 1, _ :: _, _ => Except.error Err.typeMismatch

/-- Modelled from the spec: decoding into a struct target (§4.4) of type `ds`
holding `vals`, with `d` container levels allowed. -/
def decodeStruct : Nat → List Decl → List Val → List Tok → Except Err (List Val × List Tok)
  | _, _, _, [] => Except.error Err.endOfInput
  | 0, _, _, Tok.mapHdr _ :: _ => Except.error Err.depthExceeded
  | d + 1, ds, vals, Tok.mapHdr n :: r => decodeFields d ds n r vals
  | _, _, _, _ :: _ => Except.error Err.typeMismatch

/-- Modelled from the spec: `Decode(bytes, target)` (§6) into a struct target
of type `ds` holding `vals`: the values of the target after the decode, or the
error. -/
def DecodeStruct (h : Handle) (ds : List Decl) (vals : List Val) (toks : List Tok) :
    Except Err (List Val) :=
  match decodeStruct (depthBudget h toks) ds vals toks with
  | Except.error e => Except.error e
  | Except.ok (rs, _) => Except.ok rs

/-- The entries of a generic map that a struct type has no field for: every
key is a string that is no encoded name of the struct type. -/
def Unmatched (ds : List Decl) (l : List (Val × Val)) : Prop :=
  ∀ p ∈ l, ∃ k, p.1 = Val.str k ∧ winnerIdx ds k = none

/-- A handle with canonical mode on and the default depth limit. -/
def canonicalHandle : Handle := ⟨true, false, false, 0⟩

/-- A handle with every option at its default. -/
def defaultHandle : Handle := ⟨false, false, false, 0⟩

/-- A map with string keys holding an integer and a nested map with boolean
keys, as in `doTestMapEncodeForCanonical`. -/
def sampleMap : Val :=
  Val.map [(Val.str [99], Val.map [(Val.bool true, Val.int 1), (Val.bool false, Val.int 0)]),
    (Val.str [97], Val.int 1), (Val.str [98], Val.str [104, 105])]


/-- The value of `T1` in `doTestOmitempty`: `A int` named `a`, `B *int` named
`b` and flagged omit-empty, `C int` named `c` and flagged omit-empty, all
zero. -/
def omitemptyT1 : List Field :=
  [Field.leaf [97] false (Val.int 0), Field.leaf [98] true Val.nil,
    Field.leaf [99] true (Val.int 0)]

/-- The value of `T2` in `doTestOmitempty`: `A int` named `a`, zero. -/
def omitemptyT2 : List Field := [Field.leaf [97] false (Val.int 0)]

/-- A struct with a direct field `X`, flagged omit-empty and zero, that also
embeds a struct with an unflagged field `X` holding 5. -/
def omitemptyShadow : List Field :=
  [Field.leaf [88] true (Val.int 0), Field.embedded [Field.leaf [88] false (Val.int 5)]]


/-- The values of a struct target of type `ds` after the fields `fs` have been
read into it, each from its own encoding. -/
def storeAll (c : Bool) (d : Nat) (ds : List Decl) (fs : List Cand) (vals : List Val) :
    List Val :=
  fs.foldl (fun vs f =>
    match winnerIdx ds f.decl.name with
    | some i => vs.set i (decodedAs c d f.v)
    | none => vs) vals


/-- The value `toEncode` of `doTestEmbeddedFieldPrecedence`: the direct field
`Field` holds 1, the embedded struct `Embedded` has a field `Field` holding 2. -/
def precedenceStruct : List Field :=
  [Field.leaf [70, 105, 101, 108, 100] false (Val.uint 1),
    Field.embedded [Field.leaf [70, 105, 101, 108, 100] false (Val.uint 2)]]


/-- The function `sfunc` of `doTestMaxDepth`, with the value later stored in
the innermost array: `n + 1` one-element arrays, each holding the next. -/
def sfunc : Nat → Val → Val
  | 0, x => Val.arr [x]
  | n + 1, x => Val.arr [sfunc n x]

/-- The key `"A" + strconv.FormatInt(i, 10)`. -/
def keyA (i : Nat) : List Nat := 65 :: (Nat.toDigits 10 i).map Char.toNat

/-- A chain of `k` one-entry maps with the keys `A<i>`, `A<i+1>`, ..., the
last one holding the empty map. -/
def mchain : Nat → Nat → Val
  | 0, _ => Val.map []
  | k + 1, i => Val.map [(Val.str (keyA i), mchain k (i + 1))]

/-- The function `mfunc` of `doTestMaxDepth`: the map `m` with `m["A0"] = mlast`
and the chain of `n - 1` further maps hung below `mlast`. -/
def mfunc (n : Nat) : Val := mchain n 0

/-- The value `s` of `doTestMaxDepth` after `s1[0] = m`. -/
def maxDepthS : Val := sfunc 5 (mfunc 5)

/-- The value `m99` of `doTestMaxDepth`. -/
def maxDepthM99 : Val := mfunc 99

/-- A row of the table of `doTestMaxDepth`: value to encode, `MaxDepth`,
whether to decode into the typed struct `T1`, error to find. -/
structure MaxDepthRow where
  I : Val
  M : Nat
  S : Bool
  E : Option Err

/-- The table of `doTestMaxDepth`. -/
def maxDepthTable : List MaxDepthRow :=
  [⟨maxDepthS, 0, false, none⟩, ⟨maxDepthS, 256, false, none⟩,
    ⟨maxDepthS, 7, false, some Err.depthExceeded⟩, ⟨maxDepthS, 15, false, none⟩,
    ⟨maxDepthM99, 15, true, some Err.depthExceeded⟩, ⟨maxDepthM99, 215, true, none⟩]

/-- The operations `doTestMaxDepth` calls on the engine, the handle having
`MaxDepth` set to the first argument: `testMarshal`, `testUnmarshal` into an
`interface{}`, `testUnmarshal` into a `T1`. -/
structure TestEngine where
  marshal : Nat → Val → Except Err (List Tok)
  unmarshalIntf : Nat → List Tok → Except Err Val
  unmarshalT1 : Nat → List Tok → Except Err (List Val)

/-- The error of a result, if any. -/
def errOf {α : Type} : Except Err α → Option Err
  | Except.ok _ => none
  | Except.error e => some e

/-- One round of the loop of `doTestMaxDepth`: `testMarshalErr` fails the test
when the encode returns an error; otherwise the error of the decode is compared
with the expected one. -/
def maxDepthRound (E : TestEngine) (row : MaxDepthRow) : Bool :=
  match E.marshal row.M row.I with
  | Except.error _ => false
  | Except.ok b1 =>
    decide ((if row.S then errOf (E.unmarshalT1 row.M b1)
      else errOf (E.unmarshalIntf row.M b1)) = row.E)

/-- The test `doTestMaxDepth`: whether every round passes. -/
def doTestMaxDepth (E : TestEngine) : Bool := maxDepthTable.all (maxDepthRound E)

/-- The struct type `T1` of `doTestMaxDepth`, with the one field `A1`. -/
def maxDepthT1 : List Decl := [⟨[65, 49], 0, false⟩]

/-- The engine modelled from the specification, under the handle of the test
with `MaxDepth = M`: its encoder has the depth guard of §4.3. -/
def specEngine : TestEngine where
  marshal := fun M v => Encode ⟨false, false, false, M⟩ v
  unmarshalIntf := fun M b => Decode ⟨false, false, false, M⟩ b
  unmarshalT1 := fun M b => DecodeStruct ⟨false, false, false, M⟩ maxDepthT1 [Val.nil] b

/-- An engine with the decoders of the model and an encoder that ignores
`MaxDepth`: the traversal without the depth counter. -/
def unguardedEngine : TestEngine where
  marshal := fun _ v => Except.ok (encode false v)
  unmarshalIntf := fun M b => Decode ⟨false, false, false, M⟩ b
  unmarshalT1 := fun M b => DecodeStruct ⟨false, false, false, M⟩ maxDepthT1 [Val.nil] b

/-- A map with two keys that encode alike: the signed and the unsigned
integer 1. -/
def collidingMap : Val :=
  Val.map [(Val.int 1, Val.str [97]), (Val.uint 1, Val.str [98])]


/-- Modelled from the spec: the value of a field of a struct that is reached
through a pointer: a value without pointers, a nil pointer, or a pointer (or an
interface holding a pointer) to the struct at an address of the heap. -/
inductive Ref where
  | val (v : Val) : Ref
  | nilPtr : Ref
  | ptr (a : Nat) : Ref

/-- A struct on the heap: its fields, each an encoded name and a value. -/
abbrev Node := List (List Nat × Ref)

/-- The heap: the struct at each address. -/
abbrev Heap := List Node

/-- Modelled from the spec: the encoding of the fields of a struct as the
entries of a map, in order, by the encoder `enc` of a field value; `none` when
`enc` does not return. -/
def encFields (canonical : Bool) (enc : Ref → Option (Except Err (List Tok))) :
    Node → Option (Except Err (List Tok))
  | [] => some (Except.ok [])
  | (name, r) :: rest =>
    match enc r with
    | none => none
    | some (Except.error e) => some (Except.error e)
    | some (Except.ok t) =>
      match encFields canonical enc rest with
      | none => none
      | some (Except.error e) => some (Except.error e)
      | some (Except.ok ts) => some (Except.ok (Tok.str name :: (t ++ ts)))

/-- Modelled from the spec: the encode traversal through pointers (§4.3).  With
`CheckCircularRef` the identities of the pointers being descended into are held
in `stack`, pushed at the descent and popped at the return, and meeting one of
them again is the circular-reference error.  `fuel` bounds the descents; `none`
is a traversal that has not returned within the bound. -/
def encRef (heap : Heap) (h : Handle) : Nat → List Nat → Ref → Option (Except Err (List Tok))
  | _, _, Ref.val v => some (Except.ok (encode h.canonical v))
  | _, _, Ref.nilPtr => some (Except.ok [Tok.nil])
  | 0, _, Ref.ptr _ => none
  | fuel + 1, stack, Ref.ptr a =>
    if h.checkCircularRef = true ∧ a ∈ stack then some (Except.error Err.circularReference)
    else
      match heap.get? a with
      | none => some (Except.ok [Tok.nil])
      | some node =>
        match encFields h.canonical (encRef heap h fuel (a :: stack)) node with
        | none => none
        | some (Except.error e) => some (Except.error e)
        | some (Except.ok ts) => some (Except.ok (Tok.mapHdr node.length :: ts))

/-- The struct at address `a` has a field pointing to the struct at `b`. -/
def Edge (heap : Heap) (a b : Nat) : Prop :=
  ∃ node, heap.get? a = some node ∧ ∃ name, (name, Ref.ptr b) ∈ node

/-- The struct at `b` is reached from the struct at `a` through a chain of
pointers. -/
def Reaches (heap : Heap) (a b : Nat) : Prop := Relation.ReflTransGen (Edge heap) a b

/-- The struct at `a` reaches itself through a chain of at least one pointer. -/
def Cyclic (heap : Heap) (a : Nat) : Prop := ∃ b, Edge heap a b ∧ Reaches heap b a

/-- The heap of `doTestEncCircularRef`: `t3` at 0 points to `t2` at 1, which
points to `t1` at 2, whose interface field `T` holds the pointer to `t3`. -/
def circularHeap : Heap :=
  [[([83], Ref.val (Val.str [116, 51])), ([84], Ref.ptr 1)],
    [([83], Ref.val (Val.str [116, 50])), ([84], Ref.ptr 2)],
    [([83], Ref.val (Val.str [116, 49])), ([66], Ref.val (Val.bool true)), ([84], Ref.ptr 0)]]

/-- A handle with `CheckCircularRef` enabled. -/
def checkingHandle : Handle := ⟨false, true, false, 0⟩

end Engine

/-! ## Extension hooks of the tests (`testUnixNanoTimeExt`) -/

/-- The name `fmt` prints for the dynamic type of a value under `%T`. -/
def Iface.typeName : Iface → String
  | Iface.wrapInt64 _ => "codec.wrapInt64"
  | Iface.ptrWrapInt64 _ => "*codec.wrapInt64"
  | Iface.int64 _ => "int64"
  | Iface.uint64 _ => "uint64"
  | Iface.ptrTime _ => "*time.Time"
  | Iface.float64 _ => "float64"
  | Iface.str _ => "string"
  | Iface.nilIntf => "<nil>"

/-- Embedding of `(*testUnixNanoTimeExt).UpdateExt(dest interface{}, v interface{})`:
the time stored through `dest.(*time.Time)`, or the message of the panic, which
is raised before anything is stored. -/
def testUnixNanoTimeExt.UpdateExt (dest : Iface) (v : Iface) : Except String Time :=
  match dest with
  | Iface.ptrTime _ =>
    match v with
    | Iface.int64 v2 => Except.ok (timeUnixUTC 0 v2)
    | Iface.uint64 v2 => Except.ok (timeUnixUTC 0 (int64 v2))
    | _ =>
      Except.error
        ("unsupported format for time conversion: expecting int64/uint64; got " ++ v.typeName)
  | _ =>
    Except.error
      ("interface conversion: interface \x7b\x7d is " ++ dest.typeName ++ ", not *time.Time")

/-! ## The timestamp encoder with its index checks -/

/-- The statement `copy(bs[i:], src)`: `none` when the slice expression
`bs[i:]` is out of range. -/
def copyFrom (bs : List Nat) (i : Nat) (src : List Nat) : Option (List Nat) :=
  if i ≤ bs.length then some (copyRange bs i bs.length src) else none

/-- The assignment `bs[i] = v`: `none` when the index is out of range. -/
def setAt (bs : List Nat) (i v : Nat) : Option (List Nat) :=
  if i < bs.length then some (bs.set i v) else none

/-- The block `if tsecs != 0 { ... }` of `bincEncodeTime` with the run-time
checks of `btmp[f:]` and `bs[i:]`; `none` on a panic. -/
def putSecsChecked (tsecs : Int) (st : EncState) : Option EncState :=
  if tsecs ≠ 0 then
    let bd := st.bd ||| 0x80
    let btmp := bigenPutUint64 (uint64 tsecs)
    let f := pruneSignExt btmp (decide (tsecs ≥ 0))
    let bd := bd ||| byte (byte (7 - f) <<< 2)
    if f ≤ btmp.length then
      match copyFrom st.bs st.i (btmp.drop f) with
      | some bs => some { bd := bd, bs := bs, i := st.i + (8 - f) }
      | none => none
    else none
  else some st

/-- The block `if tnsecs != 0 { ... }` of `bincEncodeTime` with the run-time
checks of `btmp[f:4]` and `bs[i:]`; `none` on a panic. -/
def putNsecsChecked (tnsecs : Nat) (st : EncState) : Option EncState :=
  if tnsecs ≠ 0 then
    let bd := st.bd ||| 0x40
    let btmp := bigenPutUint32 (uint32 tnsecs)
    let f := pruneSignExt btmp true
    let bd := bd ||| byte (3 - f)
    if f ≤ 4 then
      match copyFrom st.bs st.i (btmp.drop f) with
      | some bs => some { bd := bd, bs := bs, i := st.i + (4 - f) }
      | none => none
    else none
  else some st

/-- The block `if l != nil { ... }` of `bincEncodeTime` with the run-time
checks of `bs[i]` and `bs[i+1]`; `none` on a panic. -/
def putZoneChecked (t : Time) (st : EncState) : Option EncState :=
  let l : Option Location := if t.loc = Location.utc then none else some t.loc
  match l with
  | some _ =>
    let bd := st.bd ||| 0x20
    let zoneOffset := t.zoneOffset
    let zoneOffset := zoneOffset.tdiv 60
    let z := uint16 zoneOffset
    let btmp := bigenPutUint16 z
    match setAt st.bs st.i (btmp.getD 0 0 &&& 0x3f) with
    | none => none
    | some bs =>
      match setAt bs (st.i + 1) (btmp.getD 1 0) with
      | none => none
      | some bs => some { bd := bd, bs := bs, i := st.i + 2 }
  | none => some st

/-- Embedding of `bincEncodeTime(t time.Time) []byte` with every index and
slice expression on the scratch buffers checked: `none` on a run-time panic. -/
def bincEncodeTimeChecked (t : Time) : Option (List Nat) :=
  match putSecsChecked t.sec EncState.init with
  | none => none
  | some st =>
    match putNsecsChecked t.nsec st with
    | none => none
    | some st =>
      match putZoneChecked t st with
      | none => none
      | some st =>
        match setAt st.bs 0 st.bd with
        | none => none
        | some bs => slice bs 0 st.i

/-! ## The code generator driver (`codecgen`) -/

namespace Codecgen

/-- The call `strings.LastIndex(s, substr)` on the characters of the strings:
the index of the last instance of `substr` in `s`, if there is one. -/
def lastIndex (substr : List Char) : List Char → Option Nat
  | [] => if substr = [] then some 0 else none
  | c :: cs =>
    match lastIndex substr cs with
    | some i => some (i + 1)
    | none => if substr <+: c :: cs then some 0 else none

/-- The constant `vendorStart` of `stripVendor`. -/
def vendorStart : List Char := "vendor/".toList

/-- The constant `vendorInline` of `stripVendor`. -/
def vendorInline : List Char := "/vendor/".toList

/-- Embedding of `stripVendor(s string) string`, on the characters of `s`. -/
def stripVendorChars (s : List Char) : List Char :=
  match lastIndex vendorInline s with
  | some i => s.drop (i + vendorInline.length)
  | none => if vendorStart <+: s then s.drop vendorStart.length else s

/-- Embedding of `stripVendor(s string) string`. -/
def stripVendor (s : String) : String := String.mk (stripVendorChars s.toList)

/-- Type expressions of the Go syntax tree (`ast.Expr`), as far as `Generate`
tells them apart. -/
inductive Expr where
  | ident (name : String) : Expr
  | starExpr (x : Expr) : Expr
  | structType : Expr
  | mapType : Expr
  | arrayType : Expr
  | chanType : Expr
  | funcType : Expr
  | interfaceType : Expr
  | selectorExpr (x : Expr) (sel : String) : Expr
  | other : Expr
deriving DecidableEq, Repr

/-- The specs of a general declaration (`ast.Spec`): a type spec with its name
and type expression, or an import or value spec. -/
inductive Spec where
  | typeSpec (name : String) (type : Expr) : Spec
  | other : Spec
deriving DecidableEq, Repr

/-- Top-level declarations (`ast.Decl`): a function declaration with the types
of its receiver list (`none` for `Recv == nil`) and its name, a general
declaration with its specs, or a bad declaration. -/
inductive Decl where
  | funcDecl (recv : Option (List Expr)) (name : String) : Decl
  | genDecl (specs : List Spec) : Decl
  | badDecl : Decl
deriving DecidableEq, Repr

/-- A parsed file (`ast.File`): package name and top-level declarations. -/
structure File where
  name : String
  decls : List Decl
deriving DecidableEq, Repr

/-- The struct `tmplT` handed to the templates. -/
structure TmplT where
  CodecPkgName : String
  CodecImportPath : String
  ImportPath : String
  OutFile : String
  PackageName : String
  RandString : String
  BuildTag : String
  StructTags : String
  Types : List String
  AllFilesSize : Int
  CodecPkgFiles : Bool
  NoExtensions : Bool
deriving DecidableEq, Repr

/-- The two template constants of the file; their text is not inspected. -/
inductive Tmpl where
  | genFrunMainTmpl : Tmpl
  | genFrunPkgTmpl : Tmpl
deriving DecidableEq, Repr

/-- The constant `genCodecPkg`. -/
def genCodecPkg : String := "codec1978"

/-- What `Generate` calls outside the file: the standard library, the
operating system, and `pkgPath`, which is declared in another file of the
package.  A failing call gives its error message. -/
structure Env where
  /-- The call `filepath.Dir`. -/
  dir : String → String
  /-- The call `filepath.Abs`. -/
  abs : String → Except String String
  /-- The call `filepath.Join` on two elements. -/
  join : String → String → String
  /-- The call `pkgPath` (declared outside the file). -/
  pkgPath : String → Except String String
  /-- The size reported by `os.Stat`. -/
  stat : String → Except String Int
  /-- The call `parser.ParseFile`. -/
  parseFile : String → Except String File
  /-- The call `Int63n` on a freshly seeded source. -/
  int63n : Int → Int
  /-- The error of `os.Create`, if any. -/
  create : String → Option String
  /-- The error of parsing a template, if any. -/
  tmplParse : Tmpl → Option String
  /-- The error of executing a template, if any. -/
  tmplExecute : Tmpl → TmplT → Option String
  /-- The error of flushing the writer of a file, if any. -/
  flush : String → Option String
  /-- The error, if any, and the console output of `go run` with the given
  tags on the given file in the given directory. -/
  run : String → String → String → Option String × String

/-- The calls with an effect outside the process, in the order made. -/
inductive Op where
  | abs (dir : String) : Op
  | pkgPath (dir : String) : Op
  | stat (file : String) : Op
  | parse (file : String) : Op
  | remove (file : String) : Op
  | create (file : String) : Op
  | execute (file : String) (t : Tmpl) (tv : TmplT) : Op
  | flush (file : String) : Op
  | close (file : String) : Op
  | run (tags file dir : String) : Op
  | stdout (s : String) : Op
deriving DecidableEq, Repr

/-- The call `strconv.FormatInt(i, 10)`: the decimal digits, after a minus
sign for a negative number. -/
def formatInt (i : Int) : String :=
  if i < 0 then "-" ++ toString (-i).toNat else toString i.toNat

/-- The block `if uid < 0 { uid = -uid } else if uid == 0 { ... }` of
`Generate`, in `int64` arithmetic. -/
def normUid (env : Env) (uid : Int) : Int :=
  if uid < 0 then int64 (-uid)
  else if uid = 0 then int64 (101 + env.int63n 9777)
  else uid

/-- Embedding of `gen1(frunName, tmplStr string, tv interface{})`: the returned
error and the calls made. -/
def gen1 (env : Env) (frunName : String) (tmplStr : Tmpl) (tv : TmplT) :
    Option String × List Op :=
  match env.create frunName with
  | some e => (some e, [Op.remove frunName, Op.create frunName])
  | none =>
    match env.tmplParse tmplStr with
    | some e => (some e, [Op.remove frunName, Op.create frunName, Op.close frunName])
    | none =>
      match env.tmplExecute tmplStr tv with
      | some e =>
        (some e, [Op.remove frunName, Op.create frunName, Op.execute frunName tmplStr tv,
          Op.flush frunName, Op.close frunName])
      | none =>
        (env.flush frunName, [Op.remove frunName, Op.create frunName,
          Op.execute frunName tmplStr tv, Op.flush frunName, Op.close frunName])

/-- The variables the input-file loop of `Generate` updates. -/
structure LoopState where
  AllFilesSize : Int
  PackageName : String
  astfiles : List File
deriving DecidableEq, Repr

/-- Outcome of the input-file loop: the error it returned with, if any, the
variables, and the calls made. -/
structure LoopResult where
  err : Option String
  st : LoopState
  ops : List Op
deriving DecidableEq, Repr

/-- The loop `for i, infile := range infiles` of `Generate`, from index `i`
on. -/
def readFiles (env : Env) (lastdir : String) :
    Nat → List String → LoopState → LoopResult
  | _, [], st => ⟨none, st, []⟩
  | i, infile :: rest, st =>
    if env.dir infile ≠ lastdir then
      ⟨some "all input files must all be in same directory as output file", st, []⟩
    else
      match env.stat infile with
      | Except.error e => ⟨some e, st, [Op.stat infile]⟩
      | Except.ok size =>
        match env.parseFile infile with
        | Except.error e =>
          ⟨some e, { st with AllFilesSize := int64 (st.AllFilesSize + size) },
            [Op.stat infile, Op.parse infile]⟩
        | Except.ok f =>
          if i = 0 ∧ f.name = "main" then
            ⟨some "codecgen cannot be run on types in the 'main' package",
              { AllFilesSize := int64 (st.AllFilesSize + size), PackageName := f.name,
                astfiles := st.astfiles ++ [f] },
              [Op.stat infile, Op.parse infile]⟩
          else
            let r := readFiles env lastdir (i + 1) rest
              { AllFilesSize := int64 (st.AllFilesSize + size),
                PackageName := if i = 0 then f.name else st.PackageName,
                astfiles := st.astfiles ++ [f] }
            ⟨r.err, r.st, [Op.stat infile, Op.parse infile] ++ r.ops⟩

/-- The body of the loop that keeps track of types with selfer methods: the
names recorded in `selferEncTyps` and in `selferDecTyps`. -/
def selferStep (acc : List String × List String) (d : Decl) : List String × List String :=
  match d with
  | Decl.funcDecl (some [recvType]) name =>
    let recvType := match recvType with
      | Expr.starExpr x => x
      | e => e
    match recvType with
    | Expr.ident id =>
      if name = "CodecEncodeSelf" then (id :: acc.1, acc.2)
      else if name = "CodecDecodeSelf" then (acc.1, id :: acc.2)
      else acc
    | _ => acc
  | _ => acc

/-- The loops that fill `selferEncTyps` and `selferDecTyps`. -/
def selferTyps (astfiles : List File) : List String × List String :=
  astfiles.foldl (fun acc f => f.decls.foldl selferStep acc) ([], [])

/-- The body of the loop over the specs of a general declaration: `tv.Types`
after the spec `dd`. -/
def typeStep (regexName notRegexName : String → Bool) (selferEncTyps selferDecTyps : List String)
    (types : List String) (dd : Spec) : List String :=
  match dd with
  | Spec.typeSpec name type =>
    if name.length = 0 then types
    else
      match type with
      | Expr.structType | Expr.ident _ | Expr.mapType | Expr.arrayType | Expr.chanType =>
        if regexName name && !notRegexName name && !decide (name ∈ selferEncTyps)
            && !decide (name ∈ selferDecTyps) then
          types ++ [name]
        else types
      | _ => types
  | Spec.other => types

/-- The body of the loop over the declarations of a file in the search for
types. -/
def declStep (regexName notRegexName : String → Bool) (selferEncTyps selferDecTyps : List String)
    (types : List String) (d : Decl) : List String :=
  match d with
  | Decl.genDecl specs =>
    specs.foldl (typeStep regexName notRegexName selferEncTyps selferDecTyps) types
  | _ => types

/-- The part `// now find types` of `Generate`: the final `tv.Types`.  A regex
is given by whether `FindStringIndex` finds a match in a name. -/
def findTypes (regexName notRegexName : String → Bool) (astfiles : List File) : List String :=
  astfiles.foldl (fun types f =>
    f.decls.foldl (declStep regexName notRegexName (selferTyps astfiles).1
      (selferTyps astfiles).2) types) []

/-- The value `tv` of `Generate` before the input-file loop. -/
def initTv (env : Env) (outfile buildTag codecPkgPath : String) (uid : Int) (st : String)
    (noExtensions : Bool) (importPath : String) : TmplT :=
  if importPath = codecPkgPath then
    { CodecPkgName := "codec", CodecImportPath := codecPkgPath, ImportPath := importPath,
      OutFile := outfile, PackageName := "", RandString := formatInt (normUid env uid),
      BuildTag := buildTag, StructTags := st, Types := [], AllFilesSize := 0,
      CodecPkgFiles := true, NoExtensions := noExtensions }
  else
    { CodecPkgName := genCodecPkg, CodecImportPath := codecPkgPath,
      ImportPath := stripVendor importPath,
      OutFile := outfile, PackageName := "", RandString := formatInt (normUid env uid),
      BuildTag := buildTag, StructTags := st, Types := [], AllFilesSize := 0,
      CodecPkgFiles := false, NoExtensions := noExtensions }

/-- The part of `Generate` after `if len(tv.Types) == 0 { return }`: the
temporary files, `go run`, and the deferred removals. -/
def runTemplates (env : Env) (outfile goRunTag lastdir : String) (deleteTempFile : Bool)
    (tv : TmplT) : Option String × List Op :=
  let frunMainName := env.join lastdir ("codecgen-main-" ++ tv.RandString ++ ".generated.go")
  let frunPkgName := env.join lastdir ("codecgen-pkg-" ++ tv.RandString ++ ".generated.go")
  let deferred := if deleteTempFile then [Op.remove frunPkgName, Op.remove frunMainName] else []
  match gen1 env frunMainName Tmpl.genFrunMainTmpl tv with
  | (some e, ops1) => (some e, ops1 ++ deferred)
  | (none, ops1) =>
    match gen1 env frunPkgName Tmpl.genFrunPkgTmpl tv with
    | (some e, ops2) => (some e, ops1 ++ ops2 ++ deferred)
    | (none, ops2) =>
      match env.run ("codecgen.exec safe " ++ goRunTag) frunMainName lastdir with
      | (some e, console) =>
        (some ("error running 'go run " ++ frunMainName ++ "': " ++ e ++ ", console: " ++ console),
          ops1 ++ ops2 ++ [Op.remove outfile,
            Op.run ("codecgen.exec safe " ++ goRunTag) frunMainName lastdir] ++ deferred)
      | (none, console) =>
        (none, ops1 ++ ops2 ++ [Op.remove outfile,
          Op.run ("codecgen.exec safe " ++ goRunTag) frunMainName lastdir,
          Op.stdout console] ++ deferred)

/-- Embedding of `Generate`: the returned error (`none` for `nil`) and the
calls made, in order. -/
def Generate (env : Env) (outfile buildTag codecPkgPath : String) (uid : Int)
    (goRunTag st : String) (regexName notRegexName : String → Bool)
    (deleteTempFile noExtensions : Bool) (infiles : List String) : Option String × List Op :=
  if infiles.length = 0 then (none, [])
  else if codecPkgPath = "" then (some "codec package path cannot be blank", [])
  else if outfile = "" then (some "outfile cannot be blank", [])
  else
    let lastdir := env.dir outfile
    match env.abs lastdir with
    | Except.error e => (some e, [Op.abs lastdir])
    | Except.ok absdir =>
      match env.pkgPath absdir with
      | Except.error e => (some e, [Op.abs lastdir, Op.pkgPath absdir])
      | Except.ok importPath =>
        let tv := initTv env outfile buildTag codecPkgPath uid st noExtensions importPath
        let r := readFiles env lastdir 0 infiles ⟨0, "", []⟩
        match r.err with
        | some e => (some e, [Op.abs lastdir, Op.pkgPath absdir] ++ r.ops)
        | none =>
          let types := findTypes regexName notRegexName r.st.astfiles
          if types.length = 0 then (none, [Op.abs lastdir, Op.pkgPath absdir] ++ r.ops)
          else
            let g := runTemplates env outfile goRunTag lastdir deleteTempFile
              { tv with AllFilesSize := r.st.AllFilesSize, PackageName := r.st.PackageName,
                        Types := types }
            (g.1, [Op.abs lastdir, Op.pkgPath absdir] ++ r.ops ++ g.2)

/-- An environment in which every call succeeds: all files are in the
directory `.`, the file `b.go` declares package `main`, every other file
declares package `p` with the types `T` (a struct) and `F` (a func type). -/
def sampleEnv : Env where
  dir := fun _ => "."
  abs := fun d => Except.ok ("/w/" ++ d)
  join := fun d f => d ++ "/" ++ f
  pkgPath := fun _ => Except.ok "example.com/p"
  stat := fun _ => Except.ok 10
  parseFile := fun f =>
    if f = "b.go" then Except.ok ⟨"main", []⟩
    else Except.ok ⟨"p", [Decl.genDecl [Spec.typeSpec "T" Expr.structType,
      Spec.typeSpec "F" Expr.funcType]]⟩
  int63n := fun _ => 5
  create := fun _ => none
  tmplParse := fun _ => none
  tmplExecute := fun _ _ => none
  flush := fun _ => none
  run := fun _ _ _ => (none, "")

/-- The declared type expression is a struct, an identifier, a map, an array
or slice, or a chan. -/
def isSelectable : Expr → Bool
  | Expr.structType => true
  | Expr.ident _ => true
  | Expr.mapType => true
  | Expr.arrayType => true
  | Expr.chanType => true
  | _ => false

/-- The declaration is a method named `CodecEncodeSelf` or `CodecDecodeSelf`
with the receiver `N` or `*N`. -/
def isSelferDecl (N : String) (d : Decl) : Bool :=
  decide (d = Decl.funcDecl (some [Expr.ident N]) "CodecEncodeSelf") ||
  decide (d = Decl.funcDecl (some [Expr.starExpr (Expr.ident N)]) "CodecEncodeSelf") ||
  decide (d = Decl.funcDecl (some [Expr.ident N]) "CodecDecodeSelf") ||
  decide (d = Decl.funcDecl (some [Expr.starExpr (Expr.ident N)]) "CodecDecodeSelf")

/-- The type specs of a declaration, with name and type expression. -/
def declTypeSpecs (d : Decl) : List (String × Expr) :=
  match d with
  | Decl.genDecl specs => specs.filterMap (fun s =>
      match s with
      | Spec.typeSpec n t => some (n, t)
      | Spec.other => none)
  | _ => []

/-- The type specs at the top level of the files, with name and type
expression, in input-file order and, within a file, declaration order. -/
def typeSpecs (files : List File) : List (String × Expr) :=
  files.flatMap (fun f => f.decls.flatMap declTypeSpecs)

/-- Some file declares a method named `CodecEncodeSelf` or `CodecDecodeSelf`
with the receiver `N` or `*N`. -/
def declaresSelfer (files : List File) (N : String) : Bool :=
  files.any (fun f => f.decls.any (isSelferDecl N))

/-- The test `Generate` applies to a type spec, given the recorded selfer
names. -/
def keepSpec (regexName notRegexName : String → Bool) (enc dec : List String)
    (p : String × Expr) : Bool :=
  !decide (p.1.length = 0) && isSelectable p.2 && regexName p.1 && !notRegexName p.1 &&
    !decide (p.1 ∈ enc) && !decide (p.1 ∈ dec)


/-- A file of package `p` that declares the struct `T`, the func type `F`, the
integer type `S`, and the method `CodecEncodeSelf` with the receiver `*S`. -/
def sampleFile : File :=
  ⟨"p", [Decl.genDecl [Spec.typeSpec "T" Expr.structType, Spec.typeSpec "F" Expr.funcType,
      Spec.typeSpec "S" (Expr.ident "int")],
    Decl.funcDecl (some [Expr.starExpr (Expr.ident "S")]) "CodecEncodeSelf"]⟩

end Codecgen

/-! ## Encoder: layout of the output -/

/-- Sample runs of the two embedded functions. -/
theorem bincTime_samples :
    bincEncodeTime ⟨1, 0, Location.utc⟩ = [0x80, 1]
    ∧ bincEncodeTime ⟨-1, 0, Location.utc⟩ = [0x80, 255]
    ∧ bincEncodeTime ⟨128, 200, Location.fixed "X" (-300)⟩ = [0xE5, 0, 128, 0, 200, 0x3f, 0xfb]
    ∧ bincDecodeTime [0xE5, 0, 128, 0, 200, 0x3f, 0xfb]
        = some (⟨128, 200, Location.fixed "" (-300)⟩, none) := by
  decide

theorem pruneSignExt_lt (pos : Bool) :
    ∀ l : List Nat, l ≠ [] → pruneSignExt l pos < l.length := by
  intro l
  induction l with
  | nil => intro h; exact absurd rfl h
  | cons a l ih =>
    intro _
    cases l with
    | nil => simp [pruneSignExt]
    | cons b r =>
      have h := ih (by simp)
      unfold pruneSignExt
      split_ifs
      · simp only [List.length_cons] at h ⊢; omega
      · simp

theorem copyRange_zeros (pre src : List Nat) (m : Nat) (h : src.length ≤ m) :
    copyRange (pre ++ List.replicate m 0) pre.length (pre ++ List.replicate m 0).length src
      = (pre ++ src) ++ List.replicate (m - src.length) 0 := by
  unfold copyRange
  simp [List.take_of_length_le, h, Nat.min_eq_right h]

theorem secsField_length (t : Time) (h : t.sec ≠ 0) :
    (secsField t).length = 8 - pruneSignExt (bigenPutUint64 (uint64 t.sec)) (decide (t.sec ≥ 0)) := by
  simp [secsField, h, bigenPutUint64]

theorem nsecsField_length (t : Time) (h : t.nsec ≠ 0) :
    (nsecsField t).length = 4 - pruneSignExt (bigenPutUint32 (uint32 t.nsec)) true := by
  simp [nsecsField, h, bigenPutUint32]

theorem secsField_length_le (t : Time) : (secsField t).length ≤ 8 := by
  unfold secsField; split <;> simp [bigenPutUint64]

theorem nsecsField_length_le (t : Time) : (nsecsField t).length ≤ 4 := by
  unfold nsecsField; split <;> simp [bigenPutUint32]

theorem tzField_length_le (t : Time) : (tzField t).length ≤ 2 := by
  unfold tzField; split <;> simp

theorem holds_init : EncState.init.Holds [] := by
  constructor <;> rfl

theorem copyRange_holds (st : EncState) (P src : List Nat) (h : st.Holds P)
    (hl : P.length + src.length ≤ 15) :
    copyRange st.bs st.i st.bs.length src
      = (0 :: (P ++ src)) ++ List.replicate (15 - (P ++ src).length) 0 := by
  obtain ⟨h1, h2⟩ := h
  have := copyRange_zeros (0 :: P) src (15 - P.length) (by omega)
  rw [h1, h2]
  have e : 1 + P.length = (0 :: P).length := by simp; omega
  rw [e, this]
  simp
  omega

theorem putSecs_holds (t : Time) (st : EncState) (P : List Nat) (h : st.Holds P)
    (hl : P.length ≤ 7) : (putSecs t.sec st).Holds (P ++ secsField t) := by
  unfold putSecs secsField
  by_cases hs : t.sec = 0
  · simpa [hs] using h
  · simp only [ne_eq, hs, not_false_eq_true, if_true]
    have hlen := secsField_length_le t
    simp only [secsField, ne_eq, hs, not_false_eq_true, if_true] at hlen
    refine ⟨copyRange_holds st P _ h (by omega), ?_⟩
    have h2 := h.2
    simp only [h2, List.length_append, List.length_drop, bigenPutUint64, List.length_cons,
      List.length_nil]
    omega

theorem putNsecs_holds (t : Time) (st : EncState) (P : List Nat) (h : st.Holds P)
    (hl : P.length ≤ 11) : (putNsecs t.nsec st).Holds (P ++ nsecsField t) := by
  unfold putNsecs nsecsField
  by_cases hs : t.nsec = 0
  · simpa [hs] using h
  · simp only [ne_eq, hs, not_false_eq_true, if_true]
    have hlen := nsecsField_length_le t
    simp only [nsecsField, ne_eq, hs, not_false_eq_true, if_true] at hlen
    refine ⟨copyRange_holds st P _ h (by omega), ?_⟩
    have h2 := h.2
    simp only [h2, List.length_append, List.length_drop, bigenPutUint32, List.length_cons,
      List.length_nil]
    omega

theorem set_two_zeros (Q : List Nat) (m x y : Nat) :
    ((Q ++ List.replicate (m + 2) 0).set Q.length x).set (Q.length + 1) y
      = (Q ++ [x, y]) ++ List.replicate m 0 := by
  induction Q with
  | nil => simp [List.replicate_succ]
  | cons a Q ih => simpa using ih

theorem putZone_holds (t : Time) (st : EncState) (P : List Nat) (h : st.Holds P)
    (hl : P.length ≤ 13) : (putZone t st).Holds (P ++ tzField t) := by
  unfold putZone tzField Time.offsetMinutes
  by_cases hs : t.loc = Location.utc
  · simpa [hs] using h
  · simp only [hs, if_false]
    obtain ⟨h1, h2⟩ := h
    constructor
    · have e := set_two_zeros (0 :: P) (13 - P.length)
        (byte (uint16 (t.zoneOffset.tdiv 60) >>> 8) &&& 0x3f) (byte (uint16 (t.zoneOffset.tdiv 60)))
      have e2 : 13 - P.length + 2 = 15 - P.length := by omega
      rw [e2] at e
      simp only [h1, h2, bigenPutUint16]
      have e3 : 1 + P.length = (0 :: P).length := by simp; omega
      rw [e3]
      simp only [List.getD_cons_zero, List.getD_cons_succ]
      rw [e]
      simp
    · simp [h2]; omega

theorem take_holds (st : EncState) (P : List Nat) (h : st.Holds P) :
    (st.bs.set 0 st.bd).take st.i = st.bd :: P := by
  obtain ⟨h1, h2⟩ := h
  rw [h1, h2]
  simp [Nat.add_comm]

theorem bincEncodeTime_holds (t : Time) :
    (putZone t (putNsecs t.nsec (putSecs t.sec EncState.init))).Holds
      (secsField t ++ nsecsField t ++ tzField t) := by
  have h1 := putSecs_holds t _ _ holds_init (by simp)
  have l1 := secsField_length_le t
  have h2 := putNsecs_holds t _ _ h1 (by simp; omega)
  have l2 := nsecsField_length_le t
  have h3 := putZone_holds t _ _ h2 (by simp; omega)
  simpa using h3

theorem bd_table : ∀ f < 8, ∀ g < 4,
    (0 ||| 0x80 ||| byte (byte (7 - f) <<< 2) = 0x80 + 4 * (7 - f)) ∧
    (0 ||| 0x80 ||| byte (byte (7 - f) <<< 2) ||| 0x40 ||| byte (3 - g)
      = 0x80 + 4 * (7 - f) + (0x40 + (3 - g))) ∧
    (0 ||| 0x40 ||| byte (3 - g) = 0x40 + (3 - g)) ∧
    (0 ||| 0x80 ||| byte (byte (7 - f) <<< 2) ||| 0x20 = 0x80 + 4 * (7 - f) + 0x20) ∧
    (0 ||| 0x80 ||| byte (byte (7 - f) <<< 2) ||| 0x40 ||| byte (3 - g) ||| 0x20
      = 0x80 + 4 * (7 - f) + (0x40 + (3 - g)) + 0x20) ∧
    (0 ||| 0x40 ||| byte (3 - g) ||| 0x20 = 0x40 + (3 - g) + 0x20) := by
  decide

theorem bincEncodeTime_bd (t : Time) :
    (putZone t (putNsecs t.nsec (putSecs t.sec EncState.init))).bd = descriptor t := by
  have hf : pruneSignExt (bigenPutUint64 (uint64 t.sec)) (decide (t.sec ≥ 0)) < 8 :=
    pruneSignExt_lt _ _ (by simp [bigenPutUint64])
  have hg : pruneSignExt (bigenPutUint32 (uint32 t.nsec)) true < 4 :=
    pruneSignExt_lt _ _ (by simp [bigenPutUint32])
  obtain ⟨b1, b2, b3, b4, b5, b6⟩ := bd_table _ hf _ hg
  have e1 : 8 - pruneSignExt (bigenPutUint64 (uint64 t.sec)) (decide (t.sec ≥ 0)) - 1
      = 7 - pruneSignExt (bigenPutUint64 (uint64 t.sec)) (decide (t.sec ≥ 0)) := by omega
  have e2 : 4 - pruneSignExt (bigenPutUint32 (uint32 t.nsec)) true - 1
      = 3 - pruneSignExt (bigenPutUint32 (uint32 t.nsec)) true := by omega
  unfold descriptor putZone putNsecs putSecs
  by_cases hs : t.sec = 0 <;> by_cases hn : t.nsec = 0 <;> by_cases hl : t.loc = Location.utc <;>
    simp only [hs, hn, hl, ne_eq, not_true_eq_false, not_false_eq_true, if_true, if_false,
      secsField_length, nsecsField_length, e1, e2, EncState.init] <;>
    first
      | rfl
      | (first | rw [b5] | rw [b2] | rw [b4] | rw [b6] | rw [b1] | rw [b3]) <;> omega

theorem bincEncodeTime_eq (t : Time) :
    bincEncodeTime t = descriptor t :: (secsField t ++ nsecsField t ++ tzField t) := by
  have h := take_holds _ _ (bincEncodeTime_holds t)
  rw [bincEncodeTime_bd] at h
  unfold bincEncodeTime
  dsimp only
  rw [bincEncodeTime_bd]
  exact h

/-! ## Big-endian values -/

theorem foldl_bigen (l : List Nat) (acc : Nat) :
    l.foldl (fun a b => a * 256 + b) acc = acc * 256 ^ l.length + bigenUint l := by
  unfold bigenUint
  induction l generalizing acc with
  | nil => simp
  | cons b l ih =>
    simp only [List.foldl_cons, List.length_cons]
    rw [ih (acc * 256 + b), ih (0 * 256 + b)]
    ring

theorem bigenUint_cons (b : Nat) (l : List Nat) :
    bigenUint (b :: l) = b * 256 ^ l.length + bigenUint l := by
  have := foldl_bigen l (0 * 256 + b)
  simpa [bigenUint] using this

theorem bigenUint_nil : bigenUint [] = 0 := rfl

theorem IsBytes.tail {b : Nat} {l : List Nat} (h : IsBytes (b :: l)) : IsBytes l :=
  fun x hx => h x (List.mem_cons_of_mem _ hx)

theorem IsBytes.head {b : Nat} {l : List Nat} (h : IsBytes (b :: l)) : b < 256 :=
  h b (List.mem_cons_self _ _)

theorem bigenUint_lt (l : List Nat) (h : IsBytes l) : bigenUint l < 256 ^ l.length := by
  induction l with
  | nil => simp [bigenUint]
  | cons b l ih =>
    have h1 := ih h.tail
    have h2 := h.head
    rw [bigenUint_cons, List.length_cons, pow_succ]
    nlinarith

theorem bigenUint_append (l r : List Nat) :
    bigenUint (l ++ r) = bigenUint l * 256 ^ r.length + bigenUint r := by
  unfold bigenUint
  rw [List.foldl_append, foldl_bigen]
  rfl

theorem bigenUint_replicate_zero (m : Nat) : bigenUint (List.replicate m 0) = 0 := by
  induction m with
  | zero => rfl
  | succ m ih => rw [List.replicate_succ, bigenUint_cons, ih]; simp

theorem bigenUint_replicate_ff (m : Nat) :
    bigenUint (List.replicate m 255) + 1 = 256 ^ m := by
  induction m with
  | zero => rfl
  | succ m ih =>
    rw [List.replicate_succ, bigenUint_cons, List.length_replicate, pow_succ]
    omega

/-! ## Two's-complement values and sign-extension pruning -/

theorem two_pow_eight_mul (k : Nat) : (2 : Int) ^ (8 * k) = 256 ^ k := by
  rw [pow_mul]; norm_num

theorem two_pow_pred (k : Nat) : (2 : Int) ^ (8 * (k + 1) - 1) = 128 * 256 ^ k := by
  have : 8 * (k + 1) - 1 = 8 * k + 7 := by omega
  rw [this, pow_add, two_pow_eight_mul]; ring

theorem sbigen_cons (b : Nat) (l : List Nat) :
    sbigen (b :: l) =
      if 128 ≤ b then (b : Int) * 256 ^ l.length + bigenUint l - 256 * 256 ^ l.length
      else (b : Int) * 256 ^ l.length + bigenUint l := by
  unfold sbigen
  simp only [List.headD_cons, bigenUint_cons, List.length_cons, two_pow_eight_mul, pow_succ]
  split <;> push_cast <;> ring

theorem fitsSigned_succ (k : Nat) (s : Int) :
    FitsSigned (k + 1) s ↔ -(128 * 256 ^ k) ≤ s ∧ s < 128 * 256 ^ k := by
  unfold FitsSigned; rw [two_pow_pred]

theorem sbigen_fits (b : Nat) (l : List Nat) (h : IsBytes (b :: l)) :
    FitsSigned (l.length + 1) (sbigen (b :: l)) := by
  have hb := h.head
  have ht : (bigenUint l : Int) < 256 ^ l.length := by exact_mod_cast bigenUint_lt l h.tail
  have h0 : (0 : Int) ≤ bigenUint l := Int.natCast_nonneg _
  have hX : (0 : Int) < 256 ^ l.length := by positivity
  rw [fitsSigned_succ, sbigen_cons]
  generalize (256 : Int) ^ l.length = X at *
  generalize (bigenUint l : Int) = T at *
  have hb' : (b : Int) < 256 := by exact_mod_cast hb
  have hb0 : (0 : Int) ≤ b := Int.natCast_nonneg _
  split
  · rename_i h128
    have : (128 : Int) ≤ b := by exact_mod_cast h128
    constructor <;> nlinarith
  · rename_i h128
    have : (b : Int) ≤ 127 := by have : b ≤ 127 := by omega
                                 exact_mod_cast this
    constructor <;> nlinarith

theorem fitsSigned_mono {j k : Nat} (hjk : j ≤ k) {s : Int} (h : FitsSigned j s) :
    FitsSigned k s := by
  unfold FitsSigned at *
  have : (2 : Int) ^ (8 * j - 1) ≤ 2 ^ (8 * k - 1) :=
    pow_le_pow_right₀ (by norm_num) (by omega)
  constructor <;> omega

theorem pruneSignExt_sbigen (pos : Bool) (l : List Nat) :
    sbigen (l.drop (pruneSignExt l pos)) = sbigen l := by
  induction l with
  | nil => simp [pruneSignExt]
  | cons a l ih =>
    cases l with
    | nil => simp [pruneSignExt]
    | cons b r =>
      unfold pruneSignExt
      split_ifs with hc
      · rw [List.drop_succ_cons, ih]
        rw [sbigen_cons a, sbigen_cons b, bigenUint_cons, List.length_cons, pow_succ]
        simp only [Bool.or_eq_true, Bool.and_eq_true, beq_iff_eq, decide_eq_true_eq,
          Bool.not_eq_true'] at hc
        rcases hc with ⟨⟨_, ha⟩, hb⟩ | ⟨⟨_, ha⟩, hb⟩
        · subst ha
          have : ¬ 128 ≤ b := by omega
          simp [this]
        · subst ha
          simp only [hb, if_true]
          norm_num
          ring
      · simp

theorem pruneSignExt_minimal (pos : Bool) (l : List Nat) (h : IsBytes l)
    (hpos : pos = true ↔ l.headD 0 < 128) (j : Nat)
    (hj : j + 1 < l.length - pruneSignExt l pos) : ¬ FitsSigned (j + 1) (sbigen l) := by
  induction l with
  | nil => simp at hj
  | cons a l ih =>
    cases l with
    | nil => simp [pruneSignExt] at hj
    | cons b r =>
      have ha := h.head
      have hb := h.tail.head
      have ht : (bigenUint r : Int) < 256 ^ r.length := by
        exact_mod_cast bigenUint_lt r h.tail.tail
      have h0 : (0 : Int) ≤ bigenUint r := Int.natCast_nonneg _
      have hX : (0 : Int) < 256 ^ r.length := by positivity
      simp only [List.headD_cons] at hpos
      unfold pruneSignExt at hj
      split_ifs at hj with hc
      · simp only [Bool.or_eq_true, Bool.and_eq_true, beq_iff_eq, decide_eq_true_eq,
          Bool.not_eq_true'] at hc
        have e : sbigen (a :: b :: r) = sbigen (b :: r) := by
          have := pruneSignExt_sbigen pos (a :: b :: r)
          have h2 := pruneSignExt_sbigen pos (b :: r)
          unfold pruneSignExt at this
          rw [if_pos (by simpa using hc), List.drop_succ_cons, h2] at this
          exact this.symm
        rw [e]
        apply ih h.tail
        · simp only [List.headD_cons]
          rcases hc with ⟨⟨hp, _⟩, hb'⟩ | ⟨⟨hp, _⟩, hb'⟩
          · simp [hp, hb']
          · simp [hp]; omega
        · simp only [List.length_cons] at hj ⊢; omega
      · simp only [Bool.or_eq_true, Bool.and_eq_true, beq_iff_eq, decide_eq_true_eq,
          Bool.not_eq_true', not_or, not_and] at hc
        simp only [List.length_cons] at hj
        intro hfit
        have hfit' : FitsSigned (r.length + 1) (sbigen (a :: b :: r)) :=
          fitsSigned_mono (by omega) hfit
        rw [fitsSigned_succ, sbigen_cons, bigenUint_cons, List.length_cons, pow_succ] at hfit'
        push_cast at hfit'
        generalize (256 : Int) ^ r.length = X at *
        generalize (bigenUint r : Int) = T at *
        have ha' : (a : Int) < 256 := by exact_mod_cast ha
        have hb' : (b : Int) < 256 := by exact_mod_cast hb
        have ha0 : (0 : Int) ≤ a := Int.natCast_nonneg _
        have hb0 : (0 : Int) ≤ b := Int.natCast_nonneg _
        by_cases hp : pos = true
        · have ha128 : a < 128 := hpos.mp hp
          have hn : ¬ 128 ≤ a := by omega
          rw [if_neg hn] at hfit'
          by_cases ha1 : a = 0
          · have hb128 : ¬ b < 128 := hc.1 ⟨hp, ha1⟩
            have : (128 : Int) ≤ b := by have : 128 ≤ b := by omega
                                         exact_mod_cast this
            subst ha1
            simp only [Nat.cast_zero, zero_mul, zero_add] at hfit'
            nlinarith [hfit'.2]
          · have : (1 : Int) ≤ a := by have : 1 ≤ a := by omega
                                       exact_mod_cast this
            nlinarith [hfit'.2, mul_nonneg hb0 (le_of_lt hX)]
        · have ha128 : 128 ≤ a := by
            by_contra hlt
            exact hp (hpos.mpr (by omega))
          rw [if_pos ha128] at hfit'
          have hpf : pos = false := by simpa using hp
          by_cases ha1 : a = 255
          · have hb128 : b < 128 := by have := hc.2 ⟨hpf, ha1⟩; omega
            have : (b : Int) ≤ 127 := by have : b ≤ 127 := by omega
                                         exact_mod_cast this
            subst ha1
            push_cast at hfit'
            nlinarith [hfit'.1]
          · have : (a : Int) ≤ 254 := by have : a ≤ 254 := by omega
                                         exact_mod_cast this
            nlinarith [hfit'.1, mul_le_mul_of_nonneg_right (le_of_lt hb') (le_of_lt hX)]

theorem bigenUint_put64 (v : Nat) (h : v < 2 ^ 64) : bigenUint (bigenPutUint64 v) = v := by
  simp only [bigenUint, bigenPutUint64, byte, List.foldl_cons, List.foldl_nil,
    Nat.shiftRight_eq_div_pow]
  omega

theorem bigenUint_put32 (v : Nat) (h : v < 2 ^ 32) : bigenUint (bigenPutUint32 v) = v := by
  simp only [bigenUint, bigenPutUint32, byte, List.foldl_cons, List.foldl_nil,
    Nat.shiftRight_eq_div_pow]
  omega

theorem isBytes_put64 (v : Nat) : IsBytes (bigenPutUint64 v) := by
  intro b hb
  simp only [bigenPutUint64, byte, List.mem_cons, List.mem_singleton, List.not_mem_nil,
    or_false] at hb
  omega

theorem isBytes_put32 (v : Nat) : IsBytes (bigenPutUint32 v) := by
  intro b hb
  simp only [bigenPutUint32, byte, List.mem_cons, List.mem_singleton, List.not_mem_nil,
    or_false] at hb
  omega

/-! ## Bit tests -/

theorem and_one_shiftLeft_ne_zero (x i : Nat) : x &&& (1 <<< i) ≠ 0 ↔ x.testBit i = true := by
  rw [Nat.one_shiftLeft, Nat.and_two_pow]
  cases x.testBit i <;> simp

theorem and_one_shiftLeft_eq_zero (x i : Nat) : x &&& (1 <<< i) = 0 ↔ x.testBit i = false := by
  rw [Nat.one_shiftLeft, Nat.and_two_pow]
  cases x.testBit i <;> simp

theorem testBit_seven_byte (b : Nat) (h : b < 256) : b.testBit 7 = true ↔ 128 ≤ b := by
  rw [Nat.testBit_to_div_mod]
  simp only [decide_eq_true_eq]
  omega

theorem and_seven (x : Nat) : x &&& 0x7 = x % 8 := Nat.and_pow_two_sub_one_eq_mod x 3

theorem and_three (x : Nat) : x &&& 0x3 = x % 4 := Nat.and_pow_two_sub_one_eq_mod x 2

theorem and_3fff (x : Nat) : x &&& 0x3fff = x % 16384 := Nat.and_pow_two_sub_one_eq_mod x 14

theorem and_3f (x : Nat) : x &&& 0x3f = x % 64 := Nat.and_pow_two_sub_one_eq_mod x 6

theorem or_c000 (x : Nat) (h : x < 65536) : x ||| 0xc000 = x % 16384 + 0xc000 := by
  have h1 : x = 2 ^ 14 * (x / 16384) ||| x % 16384 := by
    rw [← Nat.mul_add_lt_is_or (by omega)]
    omega
  have h2 : 2 ^ 14 * (x / 16384) ||| 0xc000 = 0xc000 := by
    have : x / 16384 < 4 := by omega
    generalize x / 16384 = q at this
    interval_cases q <;> rfl
  have h3 : 2 ^ 14 * 3 ||| x % 16384 = 2 ^ 14 * 3 + x % 16384 :=
    (Nat.mul_add_lt_is_or (by omega) 3).symm
  conv_lhs => rw [h1]
  rw [Nat.or_assoc, Nat.or_comm (x % 16384), ← Nat.or_assoc, h2]
  norm_num at h3 ⊢
  omega

theorem testBit_thirteen (x : Nat) : x.testBit 13 = true ↔ 8192 ≤ x % 16384 := by
  rw [Nat.testBit_to_div_mod]
  simp only [decide_eq_true_eq]
  omega

/-! ## Slices and copies on the decoder side -/

theorem slice_mid (pre S rest : List Nat) :
    slice (pre ++ S ++ rest) pre.length (pre.length + S.length) = some S := by
  unfold slice
  simp

theorem getElem?_mid (pre S rest : List Nat) :
    (pre ++ S ++ rest)[pre.length]? = S.head? ∨ S = [] := by
  cases S with
  | nil => right; rfl
  | cons a S =>
    left
    rw [List.append_assoc, List.getElem?_append_right (Nat.le_refl _)]
    simp

theorem copyRange_tail (S : List Nat) (w : Nat) (h : S.length ≤ w) :
    copyRange (List.replicate w 0) (w - S.length) (List.replicate w 0).length S
      = List.replicate (w - S.length) 0 ++ S := by
  unfold copyRange
  have e1 : w - (w - S.length) = S.length := by omega
  have e2 : w - (w - S.length + min S.length S.length) = 0 := by simp; omega
  simp only [List.length_replicate, List.take_replicate, List.drop_replicate, e1, e2,
    List.take_length, Nat.min_eq_left (Nat.sub_le _ _), List.replicate_zero, List.append_nil]

theorem copyRange_fill (S : List Nat) (m : Nat) (h : m ≤ 8) :
    copyRange (List.replicate m 0 ++ S) 0 m bsAll0xff = List.replicate m 255 ++ S := by
  unfold copyRange bsAll0xff
  simp only [List.take_zero, List.nil_append, Nat.sub_zero, List.take_replicate,
    Nat.min_eq_left h, List.length_replicate, Nat.zero_add, List.drop_left']

/-! ## Decoder blocks -/

theorem int64_of_range (x : Int) (h1 : -2 ^ 63 ≤ x) (h2 : x < 2 ^ 63) : int64 x = x := by
  unfold int64
  norm_num at h1 h2 ⊢
  omega

theorem int64_add_pow (x : Int) : int64 (x + 2 ^ 64) = int64 x := by
  unfold int64
  norm_num
  omega

theorem fitsSigned_eight (x : Int) : FitsSigned 8 x ↔ -2 ^ 63 ≤ x ∧ x < 2 ^ 63 := by
  unfold FitsSigned; norm_num

theorem int64_signfill (b : Nat) (l : List Nat) (h : IsBytes (b :: l)) (m : Nat)
    (hm : m + (l.length + 1) = 8) :
    int64 (bigenUint (List.replicate m (if 128 ≤ b then 255 else 0) ++ b :: l))
      = sbigen (b :: l) := by
  have hf := (fitsSigned_eight _).mp
    (fitsSigned_mono (show l.length + 1 ≤ 8 by omega) (sbigen_fits b l h))
  have hpow : (256 : Int) ^ m * 256 ^ (l.length + 1) = 2 ^ 64 := by
    rw [← pow_add, hm]; norm_num
  rw [bigenUint_append]
  split
  · rename_i hb
    have hff := bigenUint_replicate_ff m
    have hff' : (bigenUint (List.replicate m 255) : Int) = 256 ^ m - 1 := by
      have : ((bigenUint (List.replicate m 255) + 1 : Nat) : Int) = ((256 ^ m : Nat) : Int) := by
        rw [hff]
      push_cast at this
      linarith
    have e : ((bigenUint (List.replicate m 255) * 256 ^ (b :: l).length
        + bigenUint (b :: l) : Nat) : Int) = sbigen (b :: l) + 2 ^ 64 := by
      push_cast
      rw [hff', List.length_cons, sub_mul, hpow]
      unfold sbigen
      simp only [List.headD_cons, hb, if_true, List.length_cons, two_pow_eight_mul]
      ring
    rw [e, int64_add_pow, int64_of_range _ hf.1 hf.2]
  · rename_i hb
    rw [bigenUint_replicate_zero]
    have e : ((0 * 256 ^ (b :: l).length + bigenUint (b :: l) : Nat) : Int) = sbigen (b :: l) := by
      unfold sbigen
      simp [hb]
    rw [e, int64_of_range _ hf.1 hf.2]

theorem getSecs_skip (bs : List Nat) (bd i : Nat) (h : bitA bd = false) :
    getSecs bs bd i = some (0, i) := by
  unfold getSecs
  have : ¬ (bd &&& (1 <<< 7) ≠ 0) := by
    rw [and_one_shiftLeft_ne_zero]; simpa [bitA] using h
  rw [if_neg this]; rfl

theorem getSecs_eq (pre S rest : List Nat) (bd : Nat) (h : bitA bd = true)
    (hi : pre.length ≤ 16) (hS : S.length = fieldDDD bd + 1) (hb : IsBytes S) :
    getSecs (pre ++ S ++ rest) bd pre.length = some (sbigen S, pre.length + S.length) := by
  unfold getSecs
  have hA : bd &&& (1 <<< 7) ≠ 0 := by
    rw [and_one_shiftLeft_ne_zero]; simpa [bitA] using h
  have hD : fieldDDD bd < 8 := by unfold fieldDDD; omega
  have hn : byte (((bd >>> 2) &&& 0x7) + 1) = S.length := by
    rw [and_seven, Nat.shiftRight_eq_div_pow, hS]
    unfold byte fieldDDD
    norm_num
    omega
  have hi2 : byte (pre.length + S.length) = pre.length + S.length := by
    unfold byte; omega
  cases S with
  | nil => simp at hS
  | cons b l =>
    have hget : (pre ++ b :: l ++ rest)[pre.length]? = some b := by
      rw [List.append_assoc, List.getElem?_append_right (Nat.le_refl _)]
      simp
    have hlen : l.length + 1 ≤ 8 := by simp only [List.length_cons] at hS; omega
    rw [if_pos hA]
    simp only [hn, hi2, slice_mid, Option.bind_eq_bind, Option.some_bind, hget, Option.pure_def]
    rw [copyRange_tail _ 8 (by simpa using hlen)]
    have hbit : (b &&& (1 <<< 7) ≠ 0) ↔ 128 ≤ b := by
      rw [and_one_shiftLeft_ne_zero, testBit_seven_byte b hb.head]
    have := int64_signfill b l hb (8 - (b :: l).length) (by simp only [List.length_cons]; omega)
    by_cases h128 : 128 ≤ b
    · rw [if_pos (hbit.mpr h128), copyRange_fill _ _ (by omega)]
      rw [if_pos h128] at this
      rw [this]
    · rw [if_neg (fun hc => h128 (hbit.mp hc))]
      rw [if_neg h128] at this
      rw [this]

theorem getNsecs_skip (bs : List Nat) (bd i : Nat) (h : bitB bd = false) :
    getNsecs bs bd i = some (0, i) := by
  unfold getNsecs
  have : ¬ (bd &&& (1 <<< 6) ≠ 0) := by
    rw [and_one_shiftLeft_ne_zero]; simpa [bitB] using h
  rw [if_neg this]; rfl

theorem getNsecs_eq (pre N rest : List Nat) (bd : Nat) (h : bitB bd = true)
    (hi : pre.length ≤ 16) (hN : N.length = fieldEE bd + 1) :
    getNsecs (pre ++ N ++ rest) bd pre.length = some (bigenUint N, pre.length + N.length) := by
  unfold getNsecs
  have hB : bd &&& (1 <<< 6) ≠ 0 := by
    rw [and_one_shiftLeft_ne_zero]; simpa [bitB] using h
  have hD : fieldEE bd < 4 := by unfold fieldEE; omega
  have hn : byte ((bd &&& 0x3) + 1) = N.length := by
    rw [and_three, hN]
    unfold byte fieldEE
    omega
  have hi2 : byte (pre.length + N.length) = pre.length + N.length := by
    unfold byte; omega
  rw [if_pos hB]
  simp only [hn, hi2, slice_mid, Option.bind_eq_bind, Option.some_bind, Option.pure_def]
  rw [copyRange_tail _ 4 (by omega), bigenUint_append, bigenUint_replicate_zero]
  simp

theorem int16_signext (tz : Nat) (h : tz < 65536) :
    int16 (if tz &&& (1 <<< 13) = 0 then tz &&& 0x3fff else tz ||| 0xc000) = sext14 tz := by
  unfold sext14 int16
  by_cases hb : tz.testBit 13 = true
  · have h1 : ¬ (tz &&& (1 <<< 13) = 0) := by
      rw [and_one_shiftLeft_eq_zero]; simp [hb]
    have h2 := (testBit_thirteen tz).mp hb
    rw [if_neg h1, or_c000 tz h, if_neg (by omega)]
    push_cast
    omega
  · have hb' : tz.testBit 13 = false := by simpa using hb
    have h1 : tz &&& (1 <<< 13) = 0 := (and_one_shiftLeft_eq_zero tz 13).mpr hb'
    have h2 : ¬ 8192 ≤ tz % 16384 := fun hc => hb ((testBit_thirteen tz).mpr hc)
    rw [if_pos h1, and_3fff, if_pos (by omega)]
    push_cast
    omega

theorem getZone_skip (bs : List Nat) (bd i : Nat) (tsec : Int) (tnsec : Nat)
    (h : bitC bd = false) : getZone bs bd i tsec tnsec = some (timeUnixUTC tsec tnsec) := by
  unfold getZone
  rw [if_pos ((and_one_shiftLeft_eq_zero bd 5).mpr (by simpa [bitC] using h))]
  rfl

theorem getZone_eq (pre Z rest : List Nat) (bd : Nat) (tsec : Int) (tnsec : Nat)
    (h : bitC bd = true) (hi : pre.length ≤ 16) (hZ : Z.length = 2) (hb : IsBytes Z) :
    getZone (pre ++ Z ++ rest) bd pre.length tsec tnsec =
      some (if sext14 (bigenUint Z) = 0 then timeUnixUTC tsec tnsec
            else timeUnixIn tsec tnsec "" (sext14 (bigenUint Z) * 60)) := by
  unfold getZone
  have hC : ¬ (bd &&& (1 <<< 5) = 0) := by
    rw [and_one_shiftLeft_eq_zero]; simp [bitC] at h; simp [h]
  have hi2 : byte (pre.length + 2) = pre.length + Z.length := by
    unfold byte; omega
  have hlt : bigenUint Z < 65536 := by
    have := bigenUint_lt Z hb
    rw [hZ] at this
    norm_num at this
    exact this
  rw [if_neg hC]
  simp only [hi2, slice_mid, Option.bind_eq_bind, Option.some_bind, Option.pure_def,
    int16_signext _ hlt]
  split <;> rfl

theorem bincDecodeTime_eq (bd : Nat) (S N Z rest : List Nat)
    (hS : S.length = secsLen bd) (hN : N.length = nsecsLen bd) (hZ : Z.length = tzLen bd)
    (hb : IsBytes S) (hbz : IsBytes Z) :
    bincDecodeTime (bd :: (S ++ N ++ Z ++ rest)) = some (decodedTime bd S N Z, none) := by
  have hD : fieldDDD bd < 8 := by unfold fieldDDD; omega
  have hE : fieldEE bd < 4 := by unfold fieldEE; omega
  have hSl : S.length ≤ 8 := by rw [hS]; unfold secsLen; split <;> omega
  have hNl : N.length ≤ 4 := by rw [hN]; unfold nsecsLen; split <;> omega
  -- seconds
  have e1 : getSecs (bd :: (S ++ N ++ Z ++ rest)) bd 1
      = some (if bitA bd then sbigen S else 0, 1 + S.length) := by
    cases hA : bitA bd
    · have : S = [] := by simpa [secsLen, hA] using hS
      subst this
      simpa using getSecs_skip _ bd 1 hA
    · have := getSecs_eq [bd] S (N ++ Z ++ rest) bd hA (by simp)
        (by simpa [secsLen, hA] using hS) hb
      simpa [List.append_assoc] using this
  -- nanoseconds
  have e2 : getNsecs (bd :: (S ++ N ++ Z ++ rest)) bd (1 + S.length)
      = some (if bitB bd then bigenUint N else 0, 1 + S.length + N.length) := by
    cases hB : bitB bd
    · have : N = [] := by simpa [nsecsLen, hB] using hN
      subst this
      simpa using getNsecs_skip _ bd (1 + S.length) hB
    · have := getNsecs_eq (bd :: S) N (Z ++ rest) bd hB (by simp; omega)
        (by simpa [nsecsLen, hB] using hN)
      simpa [List.append_assoc, Nat.add_comm] using this
  -- zone
  have e3 : ∀ (tsec : Int) (tnsec : Nat),
      getZone (bd :: (S ++ N ++ Z ++ rest)) bd (1 + S.length + N.length) tsec tnsec
      = some (if bitC bd = true ∧ sext14 (bigenUint Z) ≠ 0 then
          timeUnixIn tsec tnsec "" (sext14 (bigenUint Z) * 60) else timeUnixUTC tsec tnsec) := by
    intro tsec tnsec
    cases hC : bitC bd
    · simpa using getZone_skip _ bd _ tsec tnsec hC
    · have := getZone_eq (bd :: (S ++ N)) Z rest bd tsec tnsec hC (by simp; omega)
        (by simpa [tzLen, hC] using hZ) hbz
      simp only [List.length_cons, List.length_append] at this
      have e : S.length + N.length + 1 = 1 + S.length + N.length := by omega
      rw [e] at this
      simp only [List.cons_append, List.append_assoc] at this ⊢
      rw [this]
      by_cases hz : sext14 (bigenUint Z) = 0 <;> simp [hz]
  unfold bincDecodeTime decodedTime
  simp only [List.getElem?_cons_zero, Option.bind_eq_bind, Option.some_bind, e1, e2, e3,
    Option.pure_def]

/-! ## Descriptor bits of an encoded time -/

theorem secsField_eq_nil (t : Time) : secsField t = [] ↔ t.sec = 0 := by
  constructor
  · intro h
    by_contra hs
    have := secsField_length t hs
    have hf : pruneSignExt (bigenPutUint64 (uint64 t.sec)) (decide (t.sec ≥ 0)) < 8 :=
      pruneSignExt_lt _ _ (by simp [bigenPutUint64])
    rw [h, List.length_nil] at this
    omega
  · intro h; simp [secsField, h]

theorem nsecsField_eq_nil (t : Time) : nsecsField t = [] ↔ t.nsec = 0 := by
  constructor
  · intro h
    by_contra hs
    have := nsecsField_length t hs
    have hf : pruneSignExt (bigenPutUint32 (uint32 t.nsec)) true < 4 :=
      pruneSignExt_lt _ _ (by simp [bigenPutUint32])
    rw [h, List.length_nil] at this
    omega
  · intro h; simp [nsecsField, h]

theorem tzField_length (t : Time) :
    (tzField t).length = if t.loc = Location.utc then 0 else 2 := by
  unfold tzField; split <;> rfl

theorem descriptor_bits (t : Time) :
    (bitA (descriptor t) = true ↔ t.sec ≠ 0) ∧
    (bitB (descriptor t) = true ↔ t.nsec ≠ 0) ∧
    (bitC (descriptor t) = true ↔ t.loc ≠ Location.utc) ∧
    fieldDDD (descriptor t) = (secsField t).length - 1 ∧
    fieldEE (descriptor t) = (nsecsField t).length - 1 := by
  have l1 := secsField_length_le t
  have l2 := nsecsField_length_le t
  have n1 := secsField_eq_nil t
  have n2 := nsecsField_eq_nil t
  rw [← List.length_eq_zero] at n1 n2
  unfold bitA bitB bitC fieldDDD fieldEE descriptor
  simp only [Nat.testBit_to_div_mod, decide_eq_true_eq]
  generalize (secsField t).length = a at *
  generalize (nsecsField t).length = b at *
  by_cases hs : t.sec = 0 <;> by_cases hn : t.nsec = 0 <;> by_cases hl : t.loc = Location.utc <;>
    simp only [hs, hn, hl, ne_eq, not_true_eq_false, not_false_eq_true, if_true, if_false] <;>
    norm_num <;> omega

theorem descriptor_lens (t : Time) :
    secsLen (descriptor t) = (secsField t).length ∧
    nsecsLen (descriptor t) = (nsecsField t).length ∧
    tzLen (descriptor t) = (tzField t).length := by
  obtain ⟨hA, hB, hC, hD, hE⟩ := descriptor_bits t
  have n1 := secsField_eq_nil t
  have n2 := nsecsField_eq_nil t
  rw [← List.length_eq_zero] at n1 n2
  unfold secsLen nsecsLen tzLen
  rw [hD, hE, tzField_length]
  refine ⟨?_, ?_, ?_⟩
  · by_cases hs : t.sec = 0
    · have : bitA (descriptor t) = false := by
        cases h : bitA (descriptor t)
        · rfl
        · exact absurd hs (hA.mp h)
      simp [this, n1.mpr hs]
    · have h0 : (secsField t).length ≠ 0 := fun h => hs (n1.mp h)
      simp only [hA.mpr hs, if_true]; omega
  · by_cases hs : t.nsec = 0
    · have : bitB (descriptor t) = false := by
        cases h : bitB (descriptor t)
        · rfl
        · exact absurd hs (hB.mp h)
      simp [this, n2.mpr hs]
    · have h0 : (nsecsField t).length ≠ 0 := fun h => hs (n2.mp h)
      simp only [hB.mpr hs, if_true]; omega
  · by_cases hl : t.loc = Location.utc
    · have : bitC (descriptor t) = false := by
        cases h : bitC (descriptor t)
        · rfl
        · exact absurd hl (hC.mp h)
      simp [this, hl]
    · simp [hC.mpr hl, hl]

/-! ## Values carried by the fields of an encoded time -/

theorem IsBytes.drop {l : List Nat} (h : IsBytes l) (k : Nat) : IsBytes (l.drop k) :=
  fun x hx => h x (List.mem_of_mem_drop hx)

theorem isBytes_secsField (t : Time) : IsBytes (secsField t) := by
  unfold secsField
  split
  · exact (isBytes_put64 _).drop _
  · intro x hx; simp at hx

theorem isBytes_nsecsField (t : Time) : IsBytes (nsecsField t) := by
  unfold nsecsField
  split
  · exact (isBytes_put32 _).drop _
  · intro x hx; simp at hx

theorem isBytes_tzField (t : Time) : IsBytes (tzField t) := by
  unfold tzField
  split
  · intro x hx; simp at hx
  · intro x hx
    simp only [List.mem_cons, List.mem_singleton, List.not_mem_nil, or_false, byte, and_3f] at hx
    omega

theorem sbigen_put64 (s : Int) (h1 : -2 ^ 63 ≤ s) (h2 : s < 2 ^ 63) :
    sbigen (bigenPutUint64 (uint64 s)) = s := by
  have hv : uint64 s < 2 ^ 64 := by unfold uint64; omega
  have hu := bigenUint_put64 _ hv
  unfold sbigen
  rw [hu]
  simp only [bigenPutUint64, List.headD_cons, List.length_cons, List.length_nil, byte,
    Nat.shiftRight_eq_div_pow]
  unfold uint64 at *
  norm_num at h1 h2 ⊢
  split <;> omega

theorem head_put64 (s : Int) (h1 : -2 ^ 63 ≤ s) (h2 : s < 2 ^ 63) :
    decide (s ≥ 0) = true ↔ (bigenPutUint64 (uint64 s)).headD 0 < 128 := by
  simp only [bigenPutUint64, List.headD_cons, byte, Nat.shiftRight_eq_div_pow, uint64,
    decide_eq_true_eq]
  norm_num at h1 h2 ⊢
  omega

theorem secsField_value (t : Time) (h : t.WF) : sbigen (secsField t) = t.sec := by
  unfold secsField
  split
  · rw [pruneSignExt_sbigen, sbigen_put64 _ h.1 h.2.1]
  · rename_i hs
    have : t.sec = 0 := by simpa using hs
    rw [this]; rfl

theorem pruneSignExt_bigenUint (l : List Nat) :
    bigenUint (l.drop (pruneSignExt l true)) = bigenUint l := by
  induction l with
  | nil => simp [pruneSignExt]
  | cons a l ih =>
    cases l with
    | nil => simp [pruneSignExt]
    | cons b r =>
      unfold pruneSignExt
      split_ifs with hc
      · simp only [Bool.true_and, Bool.not_true, Bool.false_and, Bool.or_false, Bool.and_eq_true,
          beq_iff_eq, decide_eq_true_eq] at hc
        rw [List.drop_succ_cons, ih, hc.1, bigenUint_cons 0]
        simp
      · simp

theorem nsecsField_value (t : Time) (h : t.nsec < 2 ^ 32) :
    bigenUint (nsecsField t) = t.nsec := by
  unfold nsecsField
  split
  · rw [pruneSignExt_bigenUint, bigenUint_put32]
    · unfold uint32; omega
    · unfold uint32; omega
  · rename_i hs
    have : t.nsec = 0 := by simpa using hs
    rw [this]; rfl

theorem tzField_value (t : Time) (h : t.loc ≠ Location.utc) :
    bigenUint (tzField t) = uint16 t.offsetMinutes % 16384 := by
  unfold tzField
  rw [if_neg h]
  simp only [bigenUint, List.foldl_cons, List.foldl_nil, byte, and_3f, Nat.shiftRight_eq_div_pow]
  omega

theorem sext14_uint16 (m : Int) (h1 : -8192 ≤ m) (h2 : m ≤ 8191) :
    sext14 (uint16 m % 16384) = m := by
  unfold sext14 uint16
  norm_num
  split <;> omega

theorem timeUnix_id (s : Int) (n : Nat) (h : n < 1000000000) : timeUnix s n = (s, n) := by
  unfold timeUnix
  rw [if_neg (by omega)]
  simp

/-! ## Decoding an input that holds every declared field -/

theorem IsBytes.take {l : List Nat} (h : IsBytes l) (k : Nat) : IsBytes (l.take k) :=
  fun x hx => h x (List.mem_of_mem_take hx)

theorem input_split (bs : List Nat) (hl : declaredLen (bs.headD 0) ≤ bs.length) :
    bs = bs.headD 0 :: (inSecs bs ++ inNsecs bs ++ inTz bs ++ bs.drop (declaredLen (bs.headD 0)))
    ∧ (inSecs bs).length = secsLen (bs.headD 0)
    ∧ (inNsecs bs).length = nsecsLen (bs.headD 0)
    ∧ (inTz bs).length = tzLen (bs.headD 0) := by
  cases bs with
  | nil => simp [declaredLen] at hl
  | cons bd r =>
    simp only [List.headD_cons, declaredLen, List.length_cons] at hl ⊢
    unfold inSecs inNsecs inTz
    simp only [List.headD_cons, List.drop_succ_cons, List.drop_zero]
    generalize secsLen bd = a at *
    generalize nsecsLen bd = b at *
    generalize tzLen bd = c at *
    have e1 : 1 + a = a + 1 := by omega
    have e2 : 1 + a + b = (a + b) + 1 := by omega
    have e3 : 1 + a + b + c = (a + b + c) + 1 := by omega
    rw [e3, e2, e1]
    simp only [List.drop_succ_cons, List.length_take, List.length_drop]
    refine ⟨?_, by omega, by omega, by omega⟩
    congr 1
    have h1 : List.take a r ++ List.take b (List.drop a r) = List.take (a + b) r :=
      (List.take_add _ _ _).symm
    have h2 : List.take (a + b) r ++ List.take c (List.drop (a + b) r) = List.take (a + b + c) r :=
      (List.take_add _ _ _).symm
    rw [h1, h2, List.take_append_drop]

theorem bincDecodeTime_of_len (bs : List Nat) (hb : IsBytes bs)
    (hl : declaredLen (bs.headD 0) ≤ bs.length) :
    bincDecodeTime bs
      = some (decodedTime (bs.headD 0) (inSecs bs) (inNsecs bs) (inTz bs), none) := by
  obtain ⟨h0, h1, h2, h3⟩ := input_split bs hl
  have := bincDecodeTime_eq (bs.headD 0) (inSecs bs) (inNsecs bs) (inTz bs)
    (bs.drop (declaredLen (bs.headD 0))) h1 h2 h3
    ((hb.drop 1).take _) ((hb.drop _).take _)
  rw [← h0] at this
  exact this

/-! ## Claims on the timestamp codec -/

theorem bincDecodeTime_encode (t : Time) :
    bincDecodeTime (bincEncodeTime t)
      = some (decodedTime (descriptor t) (secsField t) (nsecsField t) (tzField t), none) := by
  obtain ⟨h1, h2, h3⟩ := descriptor_lens t
  have := bincDecodeTime_eq (descriptor t) (secsField t) (nsecsField t) (tzField t) []
    h1.symm h2.symm h3.symm (isBytes_secsField t) (isBytes_tzField t)
  rw [bincEncodeTime_eq]
  simpa using this

/-- C1. Timestamp round trip: for every time whose seconds fit an `int64`,
whose nanoseconds are below `10^9` and whose location is UTC or a fixed zone
of `m` whole minutes with `-8192 ≤ m ≤ 8191`, decoding the encoding returns a
nil error and a time with the same seconds, the same nanoseconds and the
same offset in minutes (in UTC when `m = 0`, else in an unnamed fixed zone). -/
theorem bincTime_roundtrip (t : Time) (hwf : t.WF) (m : Int) (hm : t.zoneOffset = 60 * m)
    (hlo : -8192 ≤ m) (hhi : m ≤ 8191) :
    ∃ tt : Time, bincDecodeTime (bincEncodeTime t) = some (tt, none)
      ∧ tt.sec = t.sec ∧ tt.nsec = t.nsec
      ∧ tt.offsetMinutes = t.offsetMinutes ∧ tt.zoneOffset = t.zoneOffset
      ∧ tt.loc = (if m = 0 then Location.utc else Location.fixed "" (m * 60)) := by
  obtain ⟨hA, hB, hC, -, -⟩ := descriptor_bits t
  have hmin : t.offsetMinutes = m := by
    unfold Time.offsetMinutes; rw [hm]; exact Int.mul_tdiv_cancel_left m (by decide)
  have hsec : (if bitA (descriptor t) = true then sbigen (secsField t) else 0) = t.sec := by
    rw [secsField_value t hwf]
    by_cases hs : t.sec = 0
    · simp [hs]
    · simp [hA.mpr hs]
  have hnsec : (if bitB (descriptor t) = true then bigenUint (nsecsField t) else 0) = t.nsec := by
    rw [nsecsField_value t (by have := hwf.2.2; omega)]
    by_cases hs : t.nsec = 0
    · simp [hs]
    · simp [hB.mpr hs]
  have htu := timeUnix_id t.sec t.nsec hwf.2.2
  refine ⟨_, bincDecodeTime_encode t, ?_⟩
  unfold decodedTime
  simp only [hsec, hnsec]
  by_cases hl : t.loc = Location.utc
  · have hc : ¬ (bitC (descriptor t) = true) := fun h => hC.mp h hl
    have hm0 : m = 0 := by
      have : t.zoneOffset = 0 := by unfold Time.zoneOffset; rw [hl]
      omega
    rw [if_neg (fun h => hc h.1)]
    simp [timeUnixUTC, htu, Time.offsetMinutes, Time.zoneOffset, hl, hm0]
  · have hc : bitC (descriptor t) = true := hC.mpr hl
    have hz : sext14 (bigenUint (tzField t)) = m := by
      rw [tzField_value t hl, hmin, sext14_uint16 m hlo hhi]
    rw [hz]
    by_cases hm0 : m = 0
    · rw [if_neg (fun h => h.2 hm0)]
      have hz0 : t.zoneOffset = 0 := by omega
      have hm1 : t.offsetMinutes = 0 := by omega
      simp only [timeUnixUTC, htu, hm0, if_true, hz0, hm1]
      exact ⟨trivial, trivial, rfl, rfl, trivial⟩
    · rw [if_pos ⟨hc, hm0⟩]
      simp only [timeUnixIn, htu, hm0, if_false, hmin, hm]
      refine ⟨trivial, trivial, ?_, ?_, trivial⟩
      · exact Int.mul_tdiv_cancel m (by decide)
      · show m * 60 = 60 * m
        omega

/-- Witness for C1: one second before the epoch, five nanoseconds, in a zone
five hours west of UTC. -/
theorem bincTime_roundtrip_witness :
    sampleTime.WF ∧ sampleTime.zoneOffset = 60 * (-300) ∧
    ∃ tt : Time, bincDecodeTime (bincEncodeTime sampleTime) = some (tt, none)
      ∧ tt.sec = sampleTime.sec ∧ tt.nsec = sampleTime.nsec
      ∧ tt.offsetMinutes = sampleTime.offsetMinutes ∧ tt.zoneOffset = sampleTime.zoneOffset
      ∧ tt.loc = (if (-300 : Int) = 0 then Location.utc else Location.fixed "" (-300 * 60)) :=
  ⟨by decide, by decide, bincTime_roundtrip sampleTime (by decide) (-300)
    (by decide) (by decide) (by decide)⟩

/-- C2. Descriptor layout: the output of `bincEncodeTime` is one descriptor
byte followed by the seconds, nanoseconds and zone bytes in that order and
nothing else; bit 7 is set exactly when seconds bytes follow, bit 6 exactly
when nanoseconds bytes follow, bit 5 exactly when the two zone bytes follow;
bits 4..2 hold the number of seconds bytes minus one and bits 1..0 the number
of nanoseconds bytes minus one (zero when the field is absent). -/
theorem bincEncodeTime_descriptor_layout (t : Time) :
    ∃ bd : Nat, bd < 256
      ∧ bincEncodeTime t = bd :: (secsField t ++ nsecsField t ++ tzField t)
      ∧ (bitA bd = true ↔ secsField t ≠ [])
      ∧ (bitB bd = true ↔ nsecsField t ≠ [])
      ∧ (bitC bd = true ↔ tzField t ≠ [])
      ∧ (bitC bd = true ↔ (tzField t).length = 2)
      ∧ fieldDDD bd = (secsField t).length - 1
      ∧ fieldEE bd = (nsecsField t).length - 1
      ∧ (secsField t).length ≤ 8 ∧ (nsecsField t).length ≤ 4 := by
  obtain ⟨hA, hB, hC, hD, hE⟩ := descriptor_bits t
  have l1 := secsField_length_le t
  have l2 := nsecsField_length_le t
  have hlt : descriptor t < 256 := by
    unfold descriptor
    split <;> split <;> split <;> omega
  refine ⟨descriptor t, hlt, bincEncodeTime_eq t, ?_, ?_, ?_, ?_, hD, hE, l1, l2⟩
  · rw [hA, ne_eq, ne_eq, secsField_eq_nil]
  · rw [hB, ne_eq, ne_eq, nsecsField_eq_nil]
  · rw [hC]; unfold tzField; split <;> simp_all
  · rw [hC, tzField_length]; split <;> simp_all

theorem sbigen_fits_length (l : List Nat) (h : IsBytes l) (hne : l ≠ []) :
    FitsSigned l.length (sbigen l) := by
  cases l with
  | nil => exact absurd rfl hne
  | cons b l => exact sbigen_fits b l h

theorem secsField_minimal (t : Time) (hwf : t.WF) (hs : t.sec ≠ 0) (j : Nat) (hj : 1 ≤ j)
    (hfit : FitsSigned j t.sec) : (secsField t).length ≤ j := by
  by_contra hlt
  have hlen := secsField_length t hs
  obtain ⟨k, rfl⟩ : ∃ k, j = k + 1 := ⟨j - 1, by omega⟩
  have := pruneSignExt_minimal (decide (t.sec ≥ 0)) (bigenPutUint64 (uint64 t.sec))
    (isBytes_put64 _) (head_put64 t.sec hwf.1 hwf.2.1) k
    (by simp only [bigenPutUint64, List.length_cons, List.length_nil] at hlen ⊢; omega)
  rw [sbigen_put64 _ hwf.1 hwf.2.1] at this
  exact this hfit

theorem sbigen_put32 (n : Nat) (h : n < 2 ^ 31) :
    sbigen (bigenPutUint32 (uint32 n)) = n ∧ (bigenPutUint32 (uint32 n)).headD 0 < 128 := by
  have hv : uint32 (n : Int) = n := by unfold uint32; omega
  have hu := bigenUint_put32 n (by omega)
  rw [hv]
  have hh : (bigenPutUint32 n).headD 0 < 128 := by
    simp only [bigenPutUint32, List.headD_cons, byte, Nat.shiftRight_eq_div_pow]
    omega
  refine ⟨?_, hh⟩
  unfold sbigen
  rw [if_neg (by omega), hu]

theorem nsecsField_minimal (t : Time) (hwf : t.WF) (hs : t.nsec ≠ 0) (j : Nat) (hj : 1 ≤ j)
    (hfit : (t.nsec : Int) < 2 ^ (8 * j - 1)) : (nsecsField t).length ≤ j := by
  by_contra hlt
  have hlen := nsecsField_length t hs
  have h31 : t.nsec < 2 ^ 31 := by have := hwf.2.2; omega
  obtain ⟨hval, hhead⟩ := sbigen_put32 t.nsec h31
  obtain ⟨k, rfl⟩ : ∃ k, j = k + 1 := ⟨j - 1, by omega⟩
  have := pruneSignExt_minimal true (bigenPutUint32 (uint32 t.nsec))
    (isBytes_put32 _) (iff_of_true rfl hhead) k
    (by simp only [bigenPutUint32, List.length_cons, List.length_nil] at hlen ⊢; omega)
  rw [hval] at this
  apply this
  refine ⟨?_, hfit⟩
  have : (0 : Int) < 2 ^ (8 * (k + 1) - 1) := by positivity
  omega

/-- C3. Minimal width: a non-zero seconds value `s` is written as big-endian
two's complement in exactly `k` bytes, `k` the least number in `1..8` with
`-2^(8k-1) ≤ s < 2^(8k-1)`; a non-zero nanoseconds value `n < 10^9` is
written big-endian in exactly `k` bytes, `k` the least number in `1..4` with
`n < 2^(8k-1)`.  Both fields sit in the output right after the descriptor. -/
theorem bincEncodeTime_minimal_width (t : Time) (hwf : t.WF) :
    (∃ bd : Nat, bincEncodeTime t = bd :: (secsField t ++ nsecsField t ++ tzField t))
    ∧ (t.sec ≠ 0 →
        1 ≤ (secsField t).length ∧ (secsField t).length ≤ 8
        ∧ IsBytes (secsField t) ∧ sbigen (secsField t) = t.sec
        ∧ FitsSigned (secsField t).length t.sec
        ∧ ∀ j : Nat, 1 ≤ j → FitsSigned j t.sec → (secsField t).length ≤ j)
    ∧ (t.nsec ≠ 0 →
        1 ≤ (nsecsField t).length ∧ (nsecsField t).length ≤ 4
        ∧ IsBytes (nsecsField t) ∧ bigenUint (nsecsField t) = t.nsec
        ∧ (t.nsec : Int) < 2 ^ (8 * (nsecsField t).length - 1)
        ∧ ∀ j : Nat, 1 ≤ j → (t.nsec : Int) < 2 ^ (8 * j - 1) → (nsecsField t).length ≤ j) := by
  refine ⟨⟨descriptor t, bincEncodeTime_eq t⟩, ?_, ?_⟩
  · intro hs
    have hne : secsField t ≠ [] := fun h => hs ((secsField_eq_nil t).mp h)
    have hpos : 1 ≤ (secsField t).length := by
      rcases h : secsField t with _ | ⟨b, l⟩
      · exact absurd h hne
      · simp
    have hfit := sbigen_fits_length _ (isBytes_secsField t) hne
    rw [secsField_value t hwf] at hfit
    exact ⟨hpos, secsField_length_le t, isBytes_secsField t, secsField_value t hwf, hfit,
      fun j hj hf => secsField_minimal t hwf hs j hj hf⟩
  · intro hs
    have hne : nsecsField t ≠ [] := fun h => hs ((nsecsField_eq_nil t).mp h)
    have hpos : 1 ≤ (nsecsField t).length := by
      rcases h : nsecsField t with _ | ⟨b, l⟩
      · exact absurd h hne
      · simp
    have h31 : t.nsec < 2 ^ 31 := by have := hwf.2.2; omega
    have hval : sbigen (nsecsField t) = t.nsec := by
      unfold nsecsField
      rw [if_pos hs, pruneSignExt_sbigen, (sbigen_put32 t.nsec h31).1]
    have hfit := sbigen_fits_length _ (isBytes_nsecsField t) hne
    rw [hval] at hfit
    exact ⟨hpos, nsecsField_length_le t, isBytes_nsecsField t,
      nsecsField_value t (by omega), hfit.2,
      fun j hj hf => nsecsField_minimal t hwf hs j hj hf⟩

/-- Witness for C3: the sample time has non-zero seconds and nanoseconds. -/
theorem bincEncodeTime_minimal_width_witness :
    sampleTime.WF ∧ sampleTime.sec ≠ 0 ∧ sampleTime.nsec ≠ 0
    ∧ (secsField sampleTime).length = 1 ∧ (nsecsField sampleTime).length = 1
    ∧ ∀ j : Nat, 1 ≤ j → FitsSigned j sampleTime.sec → (secsField sampleTime).length ≤ j :=
  ⟨by decide, by decide, by decide, by decide, by decide,
    ((bincEncodeTime_minimal_width sampleTime (by decide)).2.1 (by decide)).2.2.2.2.2⟩

/-- C4. Zero components are omitted: seconds bytes are written exactly when
the Unix seconds are non-zero and nanoseconds bytes exactly when the
nanoseconds are non-zero, the descriptor bits saying the same; the Unix epoch
in UTC encodes to the single byte `0x00`. -/
theorem bincEncodeTime_zero_omitted (t : Time) :
    (∃ bd : Nat, bincEncodeTime t = bd :: (secsField t ++ nsecsField t ++ tzField t)
      ∧ (bitA bd = true ↔ t.sec ≠ 0) ∧ (bitB bd = true ↔ t.nsec ≠ 0))
    ∧ (secsField t ≠ [] ↔ t.sec ≠ 0)
    ∧ (nsecsField t ≠ [] ↔ t.nsec ≠ 0)
    ∧ bincEncodeTime { sec := 0, nsec := 0, loc := Location.utc } = [0x00] := by
  obtain ⟨hA, hB, -, -, -⟩ := descriptor_bits t
  refine ⟨⟨descriptor t, bincEncodeTime_eq t, hA, hB⟩, ?_, ?_, by decide⟩
  · rw [ne_eq, ne_eq, secsField_eq_nil]
  · rw [ne_eq, ne_eq, nsecsField_eq_nil]

/-- C5, as stated, fails: a time in a fixed zone of offset zero has a UTC
offset of zero minutes, yet it is encoded with bit `C` set and two (zero)
zone bytes. -/
theorem bincEncodeTime_zero_offset_zone_counterexample :
    (⟨0, 0, Location.fixed "UTC" 0⟩ : Time).offsetMinutes = 0
    ∧ bincEncodeTime ⟨0, 0, Location.fixed "UTC" 0⟩ = [0x20, 0, 0]
    ∧ bitC 0x20 = true := by
  decide

/-- C5, amended. The zone field is written (bit `C` set and two zone bytes)
exactly when the location of the time is not `time.UTC`; this is the case for
every time whose offset in minutes is non-zero, and a time in `time.UTC` is
encoded with `C` clear and no zone bytes.  A time in another location whose
offset is zero minutes gets `C` set and two zero bytes. -/
theorem bincEncodeTime_zone_written (t : Time) :
    ∃ bd : Nat, bincEncodeTime t = bd :: (secsField t ++ nsecsField t ++ tzField t)
      ∧ (bitC bd = true ↔ t.loc ≠ Location.utc)
      ∧ (tzField t).length = (if t.loc = Location.utc then 0 else 2)
      ∧ (t.offsetMinutes ≠ 0 → bitC bd = true ∧ (tzField t).length = 2)
      ∧ (t.loc ≠ Location.utc → t.offsetMinutes = 0 → tzField t = [0, 0]) := by
  obtain ⟨-, -, hC, -, -⟩ := descriptor_bits t
  have hne : t.offsetMinutes ≠ 0 → t.loc ≠ Location.utc := by
    intro h hl
    apply h
    unfold Time.offsetMinutes Time.zoneOffset
    rw [hl]; rfl
  refine ⟨descriptor t, bincEncodeTime_eq t, hC, tzField_length t, ?_, ?_⟩
  · intro h
    refine ⟨hC.mpr (hne h), ?_⟩
    rw [tzField_length, if_neg (hne h)]
  · intro hl h0
    unfold tzField
    rw [if_neg hl, h0]
    rfl

/-- C6. Offset bytes: when `bincEncodeTime` writes the zone field (bit `C` of
the descriptor set) it is exactly the last two bytes of the output; the two
most significant bits of the first of them are zero and the remaining 14 bits
are the offset in minutes east of UTC in 14-bit two's complement, big-endian,
that is the low 14 bits of the 16-bit two's-complement form of the minutes. -/
theorem bincEncodeTime_offset_bytes (t : Time)
    (hC : bitC ((bincEncodeTime t).headD 0) = true) :
    ∃ (front : List Nat) (b0 b1 : Nat),
      bincEncodeTime t = front ++ [b0, b1]
      ∧ front.length = 1 + (secsField t).length + (nsecsField t).length
      ∧ b0 < 64 ∧ b1 < 256
      ∧ b0 * 256 + b1 = uint16 t.offsetMinutes % 2 ^ 14
      ∧ ((b0 * 256 + b1 : Nat) : Int) = t.offsetMinutes % 2 ^ 14 := by
  obtain ⟨-, -, hC', -, -⟩ := descriptor_bits t
  rw [bincEncodeTime_eq, List.headD_cons] at hC
  have hl : t.loc ≠ Location.utc := hC'.mp hC
  have hz : tzField t = [byte (uint16 t.offsetMinutes >>> 8) &&& 0x3f,
      byte (uint16 t.offsetMinutes)] := by
    unfold tzField; rw [if_neg hl]
  refine ⟨descriptor t :: (secsField t ++ nsecsField t),
    byte (uint16 t.offsetMinutes >>> 8) &&& 0x3f, byte (uint16 t.offsetMinutes),
    ?_, ?_, ?_, ?_, ?_, ?_⟩
  · rw [bincEncodeTime_eq, hz]; simp
  · simp; omega
  · rw [and_3f]; omega
  · unfold byte; omega
  · simp only [byte, and_3f, Nat.shiftRight_eq_div_pow]; omega
  · simp only [byte, and_3f, Nat.shiftRight_eq_div_pow, uint16]
    norm_num
    omega

/-- Witness for C6: the sample time is five hours west of UTC. -/
theorem bincEncodeTime_offset_bytes_witness :
    bitC ((bincEncodeTime sampleTime).headD 0) = true ∧
    ∃ (front : List Nat) (b0 b1 : Nat),
      bincEncodeTime sampleTime = front ++ [b0, b1]
      ∧ front.length = 1 + (secsField sampleTime).length + (nsecsField sampleTime).length
      ∧ b0 < 64 ∧ b1 < 256
      ∧ b0 * 256 + b1 = uint16 sampleTime.offsetMinutes % 2 ^ 14
      ∧ ((b0 * 256 + b1 : Nat) : Int) = sampleTime.offsetMinutes % 2 ^ 14 :=
  ⟨by decide, bincEncodeTime_offset_bytes sampleTime (by decide)⟩

theorem timeUnix_nat (s : Int) (n : Nat) (h1 : -2 ^ 63 ≤ s) (h2 : s < 2 ^ 63) :
    (timeUnix s n).1 = int64 (s + (n / 1000000000 : Nat)) ∧ (timeUnix s n).2 = n % 1000000000 := by
  unfold timeUnix
  have ht : (n : Int).tdiv 1000000000 = (n : Int) / 1000000000 :=
    Int.tdiv_eq_ediv (Int.natCast_nonneg _) (by decide)
  split
  · rename_i hc
    simp only [ht]
    rw [if_neg (by omega)]
    refine ⟨?_, ?_⟩
    · push_cast; rfl
    · simp only []
      omega
  · rename_i hc
    have hlt : n < 1000000000 := by omega
    have e : n / 1000000000 = 0 := by omega
    rw [e]
    refine ⟨?_, ?_⟩
    · simp only [Nat.cast_zero, add_zero]
      exact (int64_of_range s h1 h2).symm
    · simp only [Int.toNat_ofNat]; omega

theorem decodedTime_sec_nsec (bd : Nat) (S N Z : List Nat) :
    (decodedTime bd S N Z).sec
      = (timeUnix (if bitA bd then sbigen S else 0) (if bitB bd then bigenUint N else 0 : Nat)).1
    ∧ (decodedTime bd S N Z).nsec
      = (timeUnix (if bitA bd then sbigen S else 0) (if bitB bd then bigenUint N else 0 : Nat)).2 := by
  unfold decodedTime
  dsimp only
  by_cases h : bitC bd = true ∧ sext14 (bigenUint Z) ≠ 0
  · rw [if_pos h]; exact ⟨rfl, rfl⟩
  · rw [if_neg h]; exact ⟨rfl, rfl⟩

theorem rawSecs_range (bs : List Nat) (hb : IsBytes bs)
    (hl : declaredLen (bs.headD 0) ≤ bs.length) :
    -2 ^ 63 ≤ rawSecs bs ∧ rawSecs bs < 2 ^ 63 := by
  obtain ⟨-, h1, -, -⟩ := input_split bs hl
  unfold rawSecs
  split
  · rename_i hA
    have hne : inSecs bs ≠ [] := by
      intro h
      rw [h, List.length_nil] at h1
      unfold secsLen at h1
      rw [if_pos hA] at h1
      omega
    have hfit := sbigen_fits_length _ ((hb.drop 1).take _ : IsBytes (inSecs bs)) hne
    have h8 : (inSecs bs).length ≤ 8 := by
      rw [h1]; unfold secsLen fieldDDD; split <;> omega
    exact (fitsSigned_eight _).mp (fitsSigned_mono h8 hfit)
  · norm_num

/-- C7, as stated, fails: with bit `A` set and the single declared seconds
byte `0x01` present, a nanoseconds field of `0xffffffff` carries four seconds
into the result, whose seconds are 5 and not 1; with bit `A` clear the same
nanoseconds field gives seconds 4 and not 0; and an input holding the
declared seconds byte but not the declared nanoseconds byte is not decoded
at all. -/
theorem bincDecodeTime_seconds_counterexample :
    bitA 0xC3 = true ∧ fieldDDD 0xC3 + 1 = 1 ∧ sbigen [1] = 1
    ∧ bincDecodeTime [0xC3, 1, 0xFF, 0xFF, 0xFF, 0xFF]
        = some (⟨5, 294967295, Location.utc⟩, none)
    ∧ bitA 0x43 = false
    ∧ bincDecodeTime [0x43, 0xFF, 0xFF, 0xFF, 0xFF] = some (⟨4, 294967295, Location.utc⟩, none)
    ∧ bincDecodeTime [0xC0, 1] = none := by
  decide

/-- C7, amended. For every input that holds all the fields its descriptor
declares, `bincDecodeTime` returns a nil error, and the seconds it hands to
`time.Unix` are, when bit `A` is set, the `k = DDD+1` seconds bytes read as a
big-endian two's-complement signed value (sign-extended exactly when the top
bit of the first seconds byte is set), and 0 when `A` is clear.  The seconds
of the returned time are that value plus the whole seconds contained in the
nanoseconds field (`int64` arithmetic): the value itself whenever the
nanoseconds field is absent or below `10^9`. -/
theorem bincDecodeTime_seconds (bs : List Nat) (hb : IsBytes bs)
    (hl : declaredLen (bs.headD 0) ≤ bs.length) :
    ∃ tt : Time, bincDecodeTime bs = some (tt, none)
      ∧ tt.sec = int64 (rawSecs bs + (rawNsecs bs / 1000000000 : Nat))
      ∧ (rawNsecs bs < 1000000000 → tt.sec = rawSecs bs)
      ∧ (bitA (bs.headD 0) = true →
          (inSecs bs).length = fieldDDD (bs.headD 0) + 1
          ∧ inSecs bs = (bs.drop 1).take (fieldDDD (bs.headD 0) + 1)
          ∧ rawSecs bs = sbigen (inSecs bs)
          ∧ rawSecs bs = (if 128 ≤ (inSecs bs).headD 0
              then (bigenUint (inSecs bs) : Int) - 2 ^ (8 * (inSecs bs).length)
              else (bigenUint (inSecs bs) : Int)))
      ∧ (bitA (bs.headD 0) = false → rawSecs bs = 0) := by
  obtain ⟨-, h1, -, -⟩ := input_split bs hl
  obtain ⟨r1, r2⟩ := rawSecs_range bs hb hl
  have hsec := (decodedTime_sec_nsec (bs.headD 0) (inSecs bs) (inNsecs bs) (inTz bs)).1
  have htu := (timeUnix_nat (rawSecs bs) (rawNsecs bs) r1 r2).1
  refine ⟨_, bincDecodeTime_of_len bs hb hl, ?_, ?_, ?_, ?_⟩
  · rw [hsec]; exact htu
  · intro hlt
    rw [hsec]
    have e : rawNsecs bs / 1000000000 = 0 := by omega
    have := htu
    rw [e] at this
    simp only [Nat.cast_zero, add_zero] at this
    rw [int64_of_range _ r1 r2] at this
    exact this
  · intro hA
    have e : secsLen (bs.headD 0) = fieldDDD (bs.headD 0) + 1 := by
      unfold secsLen; rw [if_pos hA]
    have e2 : rawSecs bs = sbigen (inSecs bs) := by unfold rawSecs; rw [if_pos hA]
    refine ⟨by rw [h1, e], by unfold inSecs; rw [e], e2, ?_⟩
    rw [e2]; rfl
  · intro hA
    unfold rawSecs
    rw [hA]; rfl

/-- Witness for C7: seconds `0xff` (that is -1) and nanoseconds 5. -/
theorem bincDecodeTime_seconds_witness :
    IsBytes [0xC0, 0xFF, 5] ∧ declaredLen (([0xC0, 0xFF, 5] : List Nat).headD 0) ≤ 3 ∧
    ∃ tt : Time, bincDecodeTime [0xC0, 0xFF, 5] = some (tt, none) ∧ tt.sec = -1 :=
  ⟨by decide, by decide,
    (bincDecodeTime_seconds [0xC0, 0xFF, 5] (by decide) (by decide)).elim
      (fun tt h => ⟨tt, h.1, by rw [h.2.2.1 (by decide)]; decide⟩)⟩

/-- C8, as stated, fails: with bit `B` set and the single declared
nanoseconds byte `0xff`, whose two's-complement value is -1, the decoded
nanoseconds are 255: the nanoseconds are never sign-extended. -/
theorem bincDecodeTime_nanoseconds_counterexample :
    bitB 0x40 = true ∧ fieldEE 0x40 + 1 = 1 ∧ sbigen [0xFF] = -1
    ∧ bincDecodeTime [0x40, 0xFF] = some (⟨0, 255, Location.utc⟩, none) := by
  decide

/-- C8, amended. For every input that holds all the fields its descriptor
declares and has bit `B` set, `bincDecodeTime` reads the `k = EE+1`
nanoseconds bytes as an unsigned big-endian value `u`, without sign
extension; the returned time has nanoseconds `u mod 10^9`, that is `u` itself
when `u < 10^9`.  When the top bit of the first nanoseconds byte is clear, `u`
is also the two's-complement signed value of those bytes. -/
theorem bincDecodeTime_nanoseconds (bs : List Nat) (hb : IsBytes bs)
    (hl : declaredLen (bs.headD 0) ≤ bs.length) (hB : bitB (bs.headD 0) = true) :
    ∃ tt : Time, bincDecodeTime bs = some (tt, none)
      ∧ (inNsecs bs).length = fieldEE (bs.headD 0) + 1
      ∧ rawNsecs bs = bigenUint (inNsecs bs)
      ∧ tt.nsec = bigenUint (inNsecs bs) % 1000000000
      ∧ (bigenUint (inNsecs bs) < 1000000000 → tt.nsec = bigenUint (inNsecs bs))
      ∧ ((inNsecs bs).headD 0 < 128 → sbigen (inNsecs bs) = (bigenUint (inNsecs bs) : Int)) := by
  obtain ⟨-, -, h2, -⟩ := input_split bs hl
  obtain ⟨r1, r2⟩ := rawSecs_range bs hb hl
  have hnsec := (decodedTime_sec_nsec (bs.headD 0) (inSecs bs) (inNsecs bs) (inTz bs)).2
  have htu := (timeUnix_nat (rawSecs bs) (rawNsecs bs) r1 r2).2
  have e : rawNsecs bs = bigenUint (inNsecs bs) := by unfold rawNsecs; rw [if_pos hB]
  have hlen : (inNsecs bs).length = fieldEE (bs.headD 0) + 1 := by
    rw [h2]; unfold nsecsLen; rw [if_pos hB]
  have hn : (decodedTime (bs.headD 0) (inSecs bs) (inNsecs bs) (inTz bs)).nsec
      = bigenUint (inNsecs bs) % 1000000000 := by
    rw [hnsec]
    rw [e] at htu
    unfold rawSecs at htu
    rw [if_pos hB]
    exact htu
  refine ⟨_, bincDecodeTime_of_len bs hb hl, hlen, e, hn, ?_, ?_⟩
  · intro hlt
    rw [hn]; omega
  · intro hh
    unfold sbigen
    rw [if_neg (by omega)]

/-- Witness for C8: the two nanoseconds bytes `0x01 0x00`. -/
theorem bincDecodeTime_nanoseconds_witness :
    IsBytes [0x41, 1, 0] ∧ declaredLen (([0x41, 1, 0] : List Nat).headD 0) ≤ 3
    ∧ bitB (([0x41, 1, 0] : List Nat).headD 0) = true ∧
    ∃ tt : Time, bincDecodeTime [0x41, 1, 0] = some (tt, none) ∧ tt.nsec = 256 :=
  ⟨by decide, by decide, by decide,
    (bincDecodeTime_nanoseconds [0x41, 1, 0] (by decide) (by decide) (by decide)).elim
      (fun tt h => ⟨tt, h.1, by rw [h.2.2.2.1]; decide⟩)⟩

theorem sext14_range (x : Nat) : -8192 ≤ sext14 x ∧ sext14 x ≤ 8191 := by
  unfold sext14; split <;> omega

theorem sext14_eq_zero (x : Nat) : sext14 x = 0 ↔ x % 16384 = 0 := by
  unfold sext14; split <;> omega

theorem sext14_congr (x y : Nat) (h : x % 16384 = y % 16384) : sext14 x = sext14 y := by
  unfold sext14; rw [h]

theorem decodedTime_loc (bd : Nat) (S N Z : List Nat) :
    (decodedTime bd S N Z).loc =
      if bitC bd = true ∧ sext14 (bigenUint Z) ≠ 0 then
        Location.fixed "" (sext14 (bigenUint Z) * 60)
      else Location.utc := by
  unfold decodedTime
  dsimp only
  by_cases h : bitC bd = true ∧ sext14 (bigenUint Z) ≠ 0
  · rw [if_pos h, if_pos h]; rfl
  · rw [if_neg h, if_neg h]; rfl

theorem decodedTime_congr (bd : Nat) (S N Z Z' : List Nat)
    (h : bigenUint Z % 16384 = bigenUint Z' % 16384) :
    decodedTime bd S N Z = decodedTime bd S N Z' := by
  unfold decodedTime
  rw [sext14_congr _ _ h]

theorem set_zone_byte (bd : Nat) (S N rest : List Nat) (z0 z1 x : Nat) :
    (bd :: (S ++ N ++ [z0, z1] ++ rest)).set (1 + S.length + N.length) x
      = bd :: (S ++ N ++ [x, z1] ++ rest) := by
  have e : 1 + S.length + N.length = (S ++ N).length + 1 := by simp; omega
  rw [e, List.set_cons_succ, List.append_assoc (S ++ N), List.append_assoc (S ++ N),
    List.set_append_right _ _ (Nat.le_refl _)]
  simp

/-- C9. Decoding the zone: for every input that holds all the fields its
descriptor declares, `bincDecodeTime` returns a nil error and a time in UTC
when bit `C` is clear or the 14-bit zone field is zero, and otherwise a time
in a fixed zone with empty name whose offset is 60 seconds times the
sign-extended 14-bit field, which lies in `-8192..8191` minutes; replacing the
two most significant bits of the first zone byte never changes the result. -/
theorem bincDecodeTime_zone (bs : List Nat) (hb : IsBytes bs)
    (hl : declaredLen (bs.headD 0) ≤ bs.length) :
    ∃ tt : Time, bincDecodeTime bs = some (tt, none)
      ∧ (bitC (bs.headD 0) = false → tt.loc = Location.utc)
      ∧ (bitC (bs.headD 0) = true →
          (inTz bs).length = 2
          ∧ inTz bs = (bs.drop (1 + secsLen (bs.headD 0) + nsecsLen (bs.headD 0))).take 2
          ∧ (bigenUint (inTz bs) % 2 ^ 14 = 0 → tt.loc = Location.utc)
          ∧ (bigenUint (inTz bs) % 2 ^ 14 ≠ 0 →
              tt.loc = Location.fixed "" (sext14 (bigenUint (inTz bs)) * 60))
          ∧ -8192 ≤ sext14 (bigenUint (inTz bs)) ∧ sext14 (bigenUint (inTz bs)) ≤ 8191
          ∧ ∀ x : Nat, x < 256 → x % 64 = (inTz bs).headD 0 % 64 →
              bincDecodeTime (bs.set (1 + secsLen (bs.headD 0) + nsecsLen (bs.headD 0)) x)
                = bincDecodeTime bs) := by
  obtain ⟨h0, h1, h2, h3⟩ := input_split bs hl
  have hdec := bincDecodeTime_of_len bs hb hl
  have hloc := decodedTime_loc (bs.headD 0) (inSecs bs) (inNsecs bs) (inTz bs)
  refine ⟨_, hdec, ?_, ?_⟩
  · intro hC
    rw [hloc, if_neg (fun h => by rw [hC] at h; exact Bool.noConfusion h.1)]
  · intro hC
    have e : tzLen (bs.headD 0) = 2 := by unfold tzLen; rw [if_pos hC]
    have hr := sext14_range (bigenUint (inTz bs))
    refine ⟨by rw [h3, e], by unfold inTz; rw [e], ?_, ?_, hr.1, hr.2, ?_⟩
    · intro hz
      have : sext14 (bigenUint (inTz bs)) = 0 := (sext14_eq_zero _).mpr (by norm_num at hz ⊢; exact hz)
      rw [hloc, if_neg (fun h => h.2 this)]
    · intro hz
      have : sext14 (bigenUint (inTz bs)) ≠ 0 :=
        fun h => hz (by have := (sext14_eq_zero _).mp h; norm_num; exact this)
      rw [hloc, if_pos ⟨hC, this⟩]
    · intro x hx hmod
      rw [e] at h3
      obtain ⟨z0, z1, hZ⟩ : ∃ z0 z1, inTz bs = [z0, z1] := by
        rcases hcase : inTz bs with _ | ⟨a, _ | ⟨b, _ | ⟨c, r⟩⟩⟩
        · rw [hcase] at h3; simp at h3
        · rw [hcase] at h3; simp at h3
        · exact ⟨a, b, rfl⟩
        · rw [hcase] at h3; simp at h3
      rw [hZ, List.headD_cons] at hmod
      have hbz : IsBytes (inTz bs) := (hb.drop _).take _
      rw [hZ] at hbz
      have hz1 : z1 < 256 := hbz.tail.head
      have hset : bs.set (1 + secsLen (bs.headD 0) + nsecsLen (bs.headD 0)) x
          = bs.headD 0 :: (inSecs bs ++ inNsecs bs ++ [x, z1]
              ++ bs.drop (declaredLen (bs.headD 0))) := by
        have := set_zone_byte (bs.headD 0) (inSecs bs) (inNsecs bs)
          (bs.drop (declaredLen (bs.headD 0))) z0 z1 x
        rw [← hZ, ← h0, h1, h2] at this
        exact this
      have hbx : IsBytes [x, z1] := by
        intro b hb'
        simp only [List.mem_cons, List.mem_singleton, List.not_mem_nil, or_false] at hb'
        rcases hb' with rfl | rfl
        · exact hx
        · exact hz1
      have hd' := bincDecodeTime_eq (bs.headD 0) (inSecs bs) (inNsecs bs) [x, z1]
        (bs.drop (declaredLen (bs.headD 0))) h1 h2 (by rw [e]; rfl)
        ((hb.drop 1).take _) hbx
      have hcongr : bigenUint [x, z1] % 16384 = bigenUint (inTz bs) % 16384 := by
        rw [hZ]
        simp only [bigenUint, List.foldl_cons, List.foldl_nil]
        omega
      rw [hset, hd', hdec, decodedTime_congr _ _ _ _ _ hcongr]

/-- Witness for C9: a zone field with both dst bits set and the 14-bit value
`0x3ffb`, that is -5 minutes. -/
theorem bincDecodeTime_zone_witness :
    IsBytes [0x20, 0xFF, 0xFB] ∧ declaredLen (([0x20, 0xFF, 0xFB] : List Nat).headD 0) ≤ 3 ∧
    ∃ tt : Time, bincDecodeTime [0x20, 0xFF, 0xFB] = some (tt, none)
      ∧ tt.loc = Location.fixed "" (-300) :=
  ⟨by decide, by decide,
    (bincDecodeTime_zone [0x20, 0xFF, 0xFB] (by decide) (by decide)).elim
      (fun tt h => ⟨tt, h.1, by rw [(h.2.2 (by decide)).2.2.2.1 (by decide)]; decide⟩)⟩

/-! ## Claims on the test oracle and the extension hooks -/

theorem int64_id (x : Int) (h1 : -2 ^ 63 ≤ x) (h2 : x < 2 ^ 63) : int64 x = x :=
  int64_of_range x h1 h2

theorem uint64_of_nonneg (x : Int) (h0 : 0 ≤ x) (h2 : x < 2 ^ 63) : (uint64 x : Int) = x := by
  unfold uint64
  norm_num at h2 ⊢
  omega

/-- C11, as stated, fails: for a msgpack handle the expected generic-decode
value of the non-negative `int16` 128 is the signed `int64(128)`, not the
unsigned `uint64(128)`. -/
theorem testVerifyVal_msgpack_counterexample :
    testVerifyValInt 128 true = TestVal.int64 128
    ∧ testVerifyVal (TestVal.int16 128) testVerifyMapTypeSame true = TestVal.int64 128
    ∧ testVerifyVal (TestVal.int16 128) testVerifyMapTypeSame true ≠ TestVal.uint64 128 := by
  have e : testVerifyVal (TestVal.int16 128) testVerifyMapTypeSame true = TestVal.int64 128 := by
    rfl
  refine ⟨rfl, e, ?_⟩
  rw [e]
  intro h
  cases h

/-- C11, amended. For every signed integer `v` (an `int8`, `int16`, `int32`
or `int64`) the expected generic-decode value computed by `testVerifyVal` is
that of `testVerifyValInt`: for a handle that is not msgpack, the unsigned
`uint64(v)` when `v ≥ 0` and the signed `int64(v)` when `v < 0`; for a msgpack
handle, the unsigned `uint64(v)` only when `0 ≤ v ≤ 127`, and the signed
`int64(v)` otherwise (negative or above 127). -/
theorem testVerifyVal_signed (v : Int) (h1 : -2 ^ 63 ≤ v) (h2 : v < 2 ^ 63) (f : Nat)
    (isMsgp : Bool) :
    testVerifyVal (TestVal.int8 v) f isMsgp = testVerifyValInt v isMsgp
    ∧ testVerifyVal (TestVal.int16 v) f isMsgp = testVerifyValInt v isMsgp
    ∧ testVerifyVal (TestVal.int32 v) f isMsgp = testVerifyValInt v isMsgp
    ∧ testVerifyVal (TestVal.int64 v) f isMsgp = testVerifyValInt v isMsgp
    ∧ (0 ≤ v → testVerifyValInt v false = TestVal.uint64 v.toNat)
    ∧ (v < 0 → testVerifyValInt v false = TestVal.int64 v)
    ∧ (0 ≤ v → v ≤ 127 → testVerifyValInt v true = TestVal.uint64 v.toNat)
    ∧ (127 < v → testVerifyValInt v true = TestVal.int64 v)
    ∧ (v < 0 → testVerifyValInt v true = TestVal.int64 v) := by
  have hid := int64_id v h1 h2
  have hu : 0 ≤ v → uint64 v = v.toNat := by
    intro h0
    have := uint64_of_nonneg v h0 h2
    omega
  refine ⟨?_, ?_, ?_, ?_, ?_, ?_, ?_, ?_, ?_⟩
  · rw [testVerifyVal, hid]
  · rw [testVerifyVal, hid]
  · rw [testVerifyVal, hid]
  · rw [testVerifyVal, hid]
  · intro h0
    simp only [testVerifyValInt, Bool.false_eq_true, if_false, ge_iff_le, h0, if_true, hu h0]
  · intro hneg
    have : ¬ (0 ≤ v) := by omega
    simp only [testVerifyValInt, Bool.false_eq_true, if_false, ge_iff_le, this, hid]
  · intro h0 h127
    simp only [testVerifyValInt, if_true, ge_iff_le, h0, h127, and_self, hu h0]
  · intro h127
    have : ¬ (v ≥ 0 ∧ v ≤ 127) := by omega
    simp only [testVerifyValInt, if_true, this, if_false, hid]
  · intro hneg
    have : ¬ (v ≥ 0 ∧ v ≤ 127) := by omega
    simp only [testVerifyValInt, if_true, this, if_false, hid]

/-- Witness for C11: the value 1616 of the test table. -/
theorem testVerifyVal_signed_witness :
    testVerifyVal (TestVal.int16 1616) testVerifyMapTypeSame true = TestVal.int64 1616
    ∧ testVerifyVal (TestVal.int16 1616) testVerifyMapTypeSame false = TestVal.uint64 1616 :=
  ⟨((testVerifyVal_signed 1616 (by decide) (by decide) testVerifyMapTypeSame true).2.1).trans
      ((testVerifyVal_signed 1616 (by decide) (by decide) testVerifyMapTypeSame true).2.2.2.2.2.2.2.1
        (by decide)),
   ((testVerifyVal_signed 1616 (by decide) (by decide) testVerifyMapTypeSame false).2.1).trans
      ((testVerifyVal_signed 1616 (by decide) (by decide) testVerifyMapTypeSame false).2.2.2.2.1
        (by decide))⟩

/-- C20. Extension symmetry of the byte hooks: for every `int64` `x`,
`WriteExt(wrapInt64(x))` returns exactly 8 bytes, the big-endian
two's-complement form of `x`; `ReadExt` applied to those bytes stores
`wrapInt64(x)` in the target; and `ConvertExt` followed by `UpdateExt` stores
the original value. -/
theorem wrapInt64Ext_symmetry (x : Int) (h1 : -2 ^ 63 ≤ x) (h2 : x < 2 ^ 63) (old : Int) :
    ∃ bs : List Nat, wrapInt64Ext.WriteExt (Iface.wrapInt64 x) = some bs
      ∧ bs.length = 8 ∧ IsBytes bs ∧ sbigen bs = x
      ∧ bs = bigenPutUint64 (uint64 x)
      ∧ wrapInt64Ext.ReadExt (Iface.ptrWrapInt64 old) bs = some x
      ∧ (wrapInt64Ext.ConvertExt (Iface.wrapInt64 x)).bind
          (wrapInt64Ext.UpdateExt (Iface.ptrWrapInt64 old)) = some x := by
  have hid := int64_id x h1 h2
  have hv : uint64 x < 2 ^ 64 := by unfold uint64; omega
  refine ⟨bigenPutUint64 (uint64 x), ?_, rfl, isBytes_put64 _, sbigen_put64 x h1 h2, rfl, ?_, ?_⟩
  · simp only [wrapInt64Ext.WriteExt, hid]
  · have hlen : (bigenPutUint64 (uint64 x)).length = 8 := rfl
    have htake : (bigenPutUint64 (uint64 x)).take 8 = bigenPutUint64 (uint64 x) :=
      List.take_of_length_le (by rw [hlen])
    have hval : int64 (bigenUint (bigenPutUint64 (uint64 x))) = x := by
      have hs := sbigen_put64 x h1 h2
      have hu := bigenUint_put64 _ hv
      rw [hu]
      unfold uint64 int64
      norm_num at h1 h2 ⊢
      omega
    simp only [wrapInt64Ext.ReadExt, bigenUint64, hlen, le_refl, if_true, htake,
      Option.bind_eq_bind, Option.some_bind, Option.pure_def, hval]
  · simp only [wrapInt64Ext.ConvertExt, Option.some_bind, wrapInt64Ext.UpdateExt, hid]

/-- Witness for C20: the value -6464646464646464 of the test table. -/
theorem wrapInt64Ext_symmetry_witness :
    ∃ bs : List Nat, wrapInt64Ext.WriteExt (Iface.wrapInt64 (-6464646464646464)) = some bs
      ∧ bs.length = 8 ∧ IsBytes bs ∧ sbigen bs = -6464646464646464
      ∧ bs = bigenPutUint64 (uint64 (-6464646464646464))
      ∧ wrapInt64Ext.ReadExt (Iface.ptrWrapInt64 0) bs = some (-6464646464646464)
      ∧ (wrapInt64Ext.ConvertExt (Iface.wrapInt64 (-6464646464646464))).bind
          (wrapInt64Ext.UpdateExt (Iface.ptrWrapInt64 0)) = some (-6464646464646464) :=
  wrapInt64Ext_symmetry (-6464646464646464) (by decide) (by decide) 0

/-! ## The modelled engine: decoding, swallowing and the depth guard -/

namespace Engine

theorem Val.induct (P : Val → Prop)
    (hnil : P Val.nil) (hbool : ∀ b, P (Val.bool b)) (hint : ∀ i, P (Val.int i))
    (huint : ∀ u, P (Val.uint u)) (hfloat : ∀ x, P (Val.float x)) (hstr : ∀ s, P (Val.str s))
    (hbin : ∀ b, P (Val.bin b)) (hext : ∀ t d, P (Val.ext t d))
    (harr : ∀ l, (∀ v ∈ l, P v) → P (Val.arr l))
    (hmap : ∀ l, (∀ p ∈ l, P p.1 ∧ P p.2) → P (Val.map l)) : ∀ v, P v := by
  intro v
  exact @Val.rec P (fun l => ∀ v ∈ l, P v)
    (fun l => ∀ p ∈ l, P p.1 ∧ P p.2) (fun p => P p.1 ∧ P p.2)
    hnil hbool hint huint hfloat hstr hbin (fun l ih => harr l ih) (fun l ih => hmap l ih) hext
    (by intro v hv; cases hv)
    (by intro h t ih1 ih2 v hv
        rcases List.mem_cons.mp hv with rfl | hv
        · exact ih1
        · exact ih2 v hv)
    (by intro p hp; cases hp)
    (by intro h t ih1 ih2 p hp
        rcases List.mem_cons.mp hp with rfl | hp
        · exact ih1
        · exact ih2 p hp)
    (by intro a b iha ihb; exact ⟨iha, ihb⟩) v

theorem encodeList_eq (c : Bool) (l : List Val) :
    encodeList c l = (l.map (encode c)).flatten := by
  induction l with
  | nil => simp [encodeList]
  | cons v vs ih => simp [encodeList, ih]

theorem encodeEntries_eq (c : Bool) (l : List (Val × Val)) :
    encodeEntries c l = l.map (fun p => (encode c p.1, encode c p.2)) := by
  induction l with
  | nil => simp [encodeEntries]
  | cons p ps ih => obtain ⟨k, v⟩ := p; simp [encodeEntries, ih]


theorem emitEntries_eq (c : Bool) (l : List (Val × Val)) :
    emitEntries c (encodeEntries c l) = flatPairs c (emitOrder c l) := by
  unfold emitEntries flatPairs emitOrder
  rw [encodeEntries_eq]
  cases c
  · simp only [Bool.false_eq_true, if_false, List.map_map]
    rfl
  · simp only [if_true]
    rw [← List.map_insertionSort (pairLe true) entryLe (fun p => (encode true p.1, encode true p.2)) l
      (fun a _ b _ => Iff.rfl)]
    simp only [List.map_map]
    rfl

theorem emitOrder_perm (c : Bool) (l : List (Val × Val)) : List.Perm (emitOrder c l) l := by
  unfold emitOrder
  split
  · exact List.perm_insertionSort _ _
  · exact List.Perm.refl _

theorem flatPairs_nil (c : Bool) : flatPairs c [] = [] := rfl

theorem flatPairs_cons (c : Bool) (p : Val × Val) (ps : List (Val × Val)) :
    flatPairs c (p :: ps) = encode c p.1 ++ (encode c p.2 ++ flatPairs c ps) := by
  simp [flatPairs]

theorem nestList_le (l : List Val) (d : Nat) : nestList l ≤ d ↔ ∀ v ∈ l, nest v ≤ d := by
  induction l with
  | nil => simp [nestList]
  | cons v vs ih => simp [nestList, ih]

theorem nestPairs_le (l : List (Val × Val)) (d : Nat) :
    nestPairs l ≤ d ↔ ∀ p ∈ l, nest p.1 ≤ d ∧ nest p.2 ≤ d := by
  induction l with
  | nil => simp [nestPairs]
  | cons p ps ih => obtain ⟨k, v⟩ := p; simp [nestPairs, ih, and_assoc]

theorem nestPairs_perm {l l' : List (Val × Val)} (h : List.Perm l l') :
    nestPairs l = nestPairs l' := by
  apply Nat.le_antisymm
  · rw [nestPairs_le]; intro p hp
    exact (nestPairs_le l' _).mp (Nat.le_refl _) p (h.mem_iff.mp hp)
  · rw [nestPairs_le]; intro p hp
    exact (nestPairs_le l _).mp (Nat.le_refl _) p (h.mem_iff.mpr hp)

theorem keysDistinctList_iff (c : Bool) (l : List Val) :
    keysDistinctList c l = true ↔ ∀ v ∈ l, keysDistinct c v = true := by
  induction l with
  | nil => simp [keysDistinctList]
  | cons v vs ih => simp [keysDistinctList, ih]

theorem keysDistinctPairs_iff (c : Bool) (l : List (Val × Val)) :
    keysDistinctPairs c l = true ↔
      ∀ p ∈ l, keysDistinct c p.1 = true ∧ keysDistinct c p.2 = true := by
  induction l with
  | nil => simp [keysDistinctPairs]
  | cons p ps ih => obtain ⟨k, v⟩ := p; simp [keysDistinctPairs, ih, and_assoc]

theorem keysDistinctPairs_perm (c : Bool) {l l' : List (Val × Val)} (h : List.Perm l l') :
    keysDistinctPairs c l = keysDistinctPairs c l' := by
  rw [Bool.eq_iff_iff, keysDistinctPairs_iff, keysDistinctPairs_iff]
  exact ⟨fun hp p hm => hp p (h.mem_iff.mpr hm), fun hp p hm => hp p (h.mem_iff.mp hm)⟩

theorem readRaw_map (data : List Nat) (r : List Tok) :
    readRaw data.length (data.map Tok.raw ++ r) = Except.ok (data, r) := by
  induction data with
  | nil => simp [readRaw]
  | cons b bs ih => simp [readRaw, ih]

theorem inv_scalar (c : Bool) (v : Val) (t : Tok) (henc : encode c v = [t])
    (hn : nest v = 0)
    (hdec : ∀ d r, decodeVal d (t :: r) = Except.ok (v, r))
    (hsw : ∀ d r, swallow d (t :: r) = Except.ok r) : Inv c v := by
  intro d
  refine ⟨fun _ => ⟨v, ?_, ?_, rfl, fun h => h⟩, fun h => by omega⟩
  · intro r; rw [henc]; exact hdec d r
  · intro r; rw [henc]; exact hsw d r


theorem inv_elems (c : Bool) (l : List Val) (h : ∀ v ∈ l, Inv c v) (d : Nat) :
    (nestList l ≤ d → ∃ ws : List Val,
        (∀ r, decodeElems (decodeVal d) l.length (encodeList c l ++ r) = Except.ok (ws, r))
        ∧ (∀ r, skipN (swallow d) l.length (encodeList c l ++ r) = Except.ok r)
        ∧ encodeList c ws = encodeList c l ∧ ws.length = l.length
        ∧ (keysDistinctList c l = true → keysDistinctList c ws = true))
    ∧ (d < nestList l →
        (∀ r, decodeElems (decodeVal d) l.length (encodeList c l ++ r)
            = Except.error Err.depthExceeded)
        ∧ (∀ r, skipN (swallow d) l.length (encodeList c l ++ r)
            = Except.error Err.depthExceeded)) := by
  induction l with
  | nil =>
    refine ⟨fun _ => ⟨[], ?_, ?_, rfl, rfl, fun h => h⟩, fun hlt => ?_⟩
    · intro r; simp [decodeElems, encodeList]
    · intro r; simp [skipN, encodeList]
    · simp [nestList] at hlt
  | cons v vs ih =>
    have hv := h v (List.mem_cons_self _ _) d
    have ih' := ih (fun x hx => h x (List.mem_cons_of_mem _ hx))
    simp only [nestList, List.length_cons, encodeList, List.append_assoc]
    by_cases hvd : nest v ≤ d
    · obtain ⟨w, hw⟩ := hv.1 hvd
      constructor
      · intro hle
        obtain ⟨ws, h1, h2, h3, h4, h5⟩ := ih'.1 (le_trans (le_max_right _ _) hle)
        refine ⟨w :: ws, ?_, ?_, ?_, ?_, ?_⟩
        · intro r; simp only [decodeElems, hw.dec, h1]
        · intro r; simp only [skipN, hw.sw, h2]
        · simp only [encodeList, hw.enc, h3]
        · simp [h4]
        · simp only [keysDistinctList, Bool.and_eq_true]
          exact fun hk => ⟨hw.kd hk.1, h5 hk.2⟩
      · intro hlt
        have hlt' : d < nestList vs := by
          rcases lt_max_iff.mp hlt with h1 | h1
          · omega
          · exact h1
        obtain ⟨h1, h2⟩ := ih'.2 hlt'
        constructor
        · intro r; simp only [decodeElems, hw.dec, h1]
        · intro r; simp only [skipN, hw.sw, h2]
    · have hb := hv.2 (by omega)
      constructor
      · intro hle
        exact absurd (le_trans (le_max_left _ _) hle) hvd
      · intro _
        constructor
        · intro r; simp only [decodeElems, hb.dec]
        · intro r; simp only [skipN, hb.sw]

theorem inv_pairs (c : Bool) (l : List (Val × Val)) (h : ∀ p ∈ l, Inv c p.1 ∧ Inv c p.2)
    (d : Nat) :
    (nestPairs l ≤ d → ∃ ws : List (Val × Val),
        (∀ r, decodePairs (decodeVal d) (decodeVal d) l.length (flatPairs c l ++ r) = Except.ok (ws, r))
        ∧ (∀ r, skipN (swallow d) (2 * l.length) (flatPairs c l ++ r) = Except.ok r)
        ∧ encodeEntries c ws = encodeEntries c l ∧ ws.length = l.length
        ∧ (keysDistinctPairs c l = true → keysDistinctPairs c ws = true))
    ∧ (d < nestPairs l →
        (∀ r, decodePairs (decodeVal d) (decodeVal d) l.length (flatPairs c l ++ r)
            = Except.error Err.depthExceeded)
        ∧ (∀ r, skipN (swallow d) (2 * l.length) (flatPairs c l ++ r)
            = Except.error Err.depthExceeded)) := by
  induction l with
  | nil =>
    refine ⟨fun _ => ⟨[], ?_, ?_, rfl, rfl, fun h => h⟩, fun hlt => ?_⟩
    · intro r; simp [decodePairs, flatPairs]
    · intro r; simp [skipN, flatPairs]
    · simp [nestPairs] at hlt
  | cons p ps ih =>
    obtain ⟨k, v⟩ := p
    have hk := (h (k, v) (List.mem_cons_self _ _)).1 d
    have hv := (h (k, v) (List.mem_cons_self _ _)).2 d
    have ih' := ih (fun x hx => h x (List.mem_cons_of_mem _ hx))
    have e2 : 2 * (ps.length + 1) = 2 * ps.length + 1 + 1 := by omega
    simp only [nestPairs, List.length_cons, flatPairs_cons, List.append_assoc, e2]
    by_cases hkd : nest k ≤ d
    · obtain ⟨wk, hwk⟩ := hk.1 hkd
      by_cases hvd : nest v ≤ d
      · obtain ⟨wv, hwv⟩ := hv.1 hvd
        constructor
        · intro hle
          obtain ⟨ws, h1, h2, h3, h4, h5⟩ := ih'.1 (le_trans (le_max_right _ _) hle)
          refine ⟨(wk, wv) :: ws, ?_, ?_, ?_, ?_, ?_⟩
          · intro r; simp only [decodePairs, hwk.dec, hwv.dec, h1]
          · intro r; simp only [skipN, hwk.sw, hwv.sw, h2]
          · simp only [encodeEntries, hwk.enc, hwv.enc, h3]
          · simp [h4]
          · simp only [keysDistinctPairs, Bool.and_eq_true]
            exact fun hk => ⟨⟨hwk.kd hk.1.1, hwv.kd hk.1.2⟩, h5 hk.2⟩
        · intro hlt
          have hlt' : d < nestPairs ps := by
            rcases lt_max_iff.mp hlt with h1 | h1
            · rcases lt_max_iff.mp h1 with h2 | h2 <;> omega
            · exact h1
          obtain ⟨h1, h2⟩ := ih'.2 hlt'
          constructor
          · intro r; simp only [decodePairs, hwk.dec, hwv.dec, h1]
          · intro r; simp only [skipN, hwk.sw, hwv.sw, h2]
      · have hb := hv.2 (show d < nest v by omega)
        constructor
        · intro hle
          exact absurd (le_trans (le_trans (le_max_right _ _) (le_max_left _ _)) hle) hvd
        · intro _
          constructor
          · intro r; simp only [decodePairs, hwk.dec, hb.dec]
          · intro r; simp only [skipN, hwk.sw, hb.sw]
    · have hb := hk.2 (show d < nest k by omega)
      constructor
      · intro hle
        exact absurd (le_trans (le_trans (le_max_left _ _) (le_max_left _ _)) hle) hkd
      · intro _
        constructor
        · intro r; simp only [decodePairs, hb.dec]
        · intro r; simp only [skipN, hb.sw]


theorem emitOrder_idem (c : Bool) (l ws : List (Val × Val))
    (h : encodeEntries c ws = encodeEntries c (emitOrder c l)) :
    emitEntries c (encodeEntries c ws) = emitEntries c (encodeEntries c l) := by
  rw [h, emitEntries_eq c l]
  unfold emitEntries
  cases c
  · simp only [Bool.false_eq_true, if_false, emitOrder, encodeEntries_eq, flatPairs, List.map_map]
    rfl
  · simp only [if_true]
    have hs : List.Sorted entryLe (encodeEntries true (emitOrder true l)) := by
      rw [encodeEntries_eq]
      simp only [emitOrder, if_true]
      rw [List.map_insertionSort (pairLe true) entryLe
        (fun p => (encode true p.1, encode true p.2)) l (fun a _ b _ => Iff.rfl)]
      exact List.sorted_insertionSort _ _
    rw [hs.insertionSort_eq]
    simp only [encodeEntries_eq, flatPairs, List.map_map]
    rfl

theorem inv_all (c : Bool) : ∀ v, Inv c v := by
  intro v
  induction v using Val.induct with
  | hnil =>
    exact inv_scalar c Val.nil Tok.nil (by rw [encode]) (by rw [nest])
      (fun d r => by cases d <;> simp [decodeVal]) (fun d r => by cases d <;> simp [swallow])
  | hbool b =>
    exact inv_scalar c (Val.bool b) (Tok.bool b) (by rw [encode]) (by rw [nest])
      (fun d r => by cases d <;> simp [decodeVal]) (fun d r => by cases d <;> simp [swallow])
  | hint i =>
    intro d
    refine ⟨fun _ => ?_, fun h => by simp [nest] at h⟩
    by_cases hi : 0 ≤ i
    · refine ⟨Val.uint i.toNat, ?_, ?_, ?_, fun _ => rfl⟩
      · intro r; cases d <;> simp [encode, hi, decodeVal]
      · intro r; cases d <;> simp [encode, hi, swallow]
      · simp [encode, hi]
    · refine ⟨Val.int i, ?_, ?_, rfl, fun h => h⟩
      · intro r; cases d <;> simp [encode, hi, decodeVal]
      · intro r; cases d <;> simp [encode, hi, swallow]
  | huint u =>
    exact inv_scalar c (Val.uint u) (Tok.uint u) (by rw [encode]) (by rw [nest])
      (fun d r => by cases d <;> simp [decodeVal]) (fun d r => by cases d <;> simp [swallow])
  | hfloat x =>
    exact inv_scalar c (Val.float x) (Tok.float x) (by rw [encode]) (by rw [nest])
      (fun d r => by cases d <;> simp [decodeVal]) (fun d r => by cases d <;> simp [swallow])
  | hstr s =>
    exact inv_scalar c (Val.str s) (Tok.str s) (by rw [encode]) (by rw [nest])
      (fun d r => by cases d <;> simp [decodeVal]) (fun d r => by cases d <;> simp [swallow])
  | hbin b =>
    exact inv_scalar c (Val.bin b) (Tok.bin b) (by rw [encode]) (by rw [nest])
      (fun d r => by cases d <;> simp [decodeVal]) (fun d r => by cases d <;> simp [swallow])
  | hext t data =>
    intro d
    refine ⟨fun _ => ⟨Val.ext t data, ?_, ?_, rfl, fun h => h⟩, fun h => by simp [nest] at h⟩
    · intro r; cases d <;> simp [encode, decodeVal, readRaw_map]
    · intro r; cases d <;> simp [encode, swallow, readRaw_map]
  | harr l ih =>
    intro d
    cases d with
    | zero =>
      refine ⟨fun h => by simp [nest] at h, fun _ => ⟨?_, ?_⟩⟩
      · intro r; simp [encode, decodeVal]
      · intro r; simp [encode, swallow]
    | succ d =>
      have hl := inv_elems c l ih d
      constructor
      · intro hle
        obtain ⟨ws, h1, h2, h3, h4, h5⟩ := hl.1 (by simp [nest] at hle; exact hle)
        refine ⟨Val.arr ws, ?_, ?_, ?_, ?_⟩
        · intro r; simp only [encode, List.cons_append, List.append_eq, decodeVal, h1]
        · intro r; simp only [encode, List.cons_append, List.append_eq, swallow, h2]
        · simp only [encode, h3, h4]
        · simp only [keysDistinct]; exact h5
      · intro hlt
        obtain ⟨h1, h2⟩ := hl.2 (by simp [nest] at hlt; exact hlt)
        constructor
        · intro r; simp only [encode, List.cons_append, List.append_eq, decodeVal, h1]
        · intro r; simp only [encode, List.cons_append, List.append_eq, swallow, h2]
  | hmap l ih =>
    intro d
    cases d with
    | zero =>
      refine ⟨fun h => by simp [nest] at h, fun _ => ⟨?_, ?_⟩⟩
      · intro r; simp [encode, decodeVal]
      · intro r; simp [encode, swallow]
    | succ d =>
      have hperm := emitOrder_perm c l
      have hl := inv_pairs c (emitOrder c l)
        (fun p hp => ih p (hperm.mem_iff.mp hp)) d
      rw [nestPairs_perm hperm, hperm.length_eq] at hl
      constructor
      · intro hle
        obtain ⟨ws, h1, h2, h3, h4, h5⟩ := hl.1 (by simp [nest] at hle; exact hle)
        refine ⟨Val.map ws, ?_, ?_, ?_, ?_⟩
        · intro r; simp only [encode, List.cons_append, List.append_eq, decodeVal, emitEntries_eq, h1]
        · intro r; simp only [encode, List.cons_append, List.append_eq, swallow, emitEntries_eq, h2]
        · simp only [encode, h4, emitOrder_idem c l ws h3]
        · simp only [keysDistinct, Bool.and_eq_true, decide_eq_true_eq]
          intro hk
          refine ⟨?_, h5 ((keysDistinctPairs_perm c hperm).trans hk.2)⟩
          have e : ws.map (fun p => encode c p.1) = (emitOrder c l).map (fun p => encode c p.1) := by
            have := congrArg (List.map Prod.fst) h3
            simpa only [encodeEntries_eq, List.map_map] using this
          rw [e]
          exact (hperm.map _).nodup_iff.mpr hk.1
      · intro hlt
        obtain ⟨h1, h2⟩ := hl.2 (by simp [nest] at hlt; exact hlt)
        constructor
        · intro r; simp only [encode, List.cons_append, List.append_eq, decodeVal, emitEntries_eq, h1]
        · intro r; simp only [encode, List.cons_append, List.append_eq, swallow, emitEntries_eq, h2]

theorem encodeList_length_ge (c : Bool) (l : List Val)
    (h : ∀ v ∈ l, nest v ≤ (encode c v).length) : nestList l ≤ (encodeList c l).length := by
  induction l with
  | nil => simp [nestList]
  | cons v vs ih =>
    have h1 := h v (List.mem_cons_self _ _)
    have h2 := ih (fun w hw => h w (List.mem_cons_of_mem _ hw))
    simp only [nestList, encodeList, List.length_append]
    omega

theorem flatPairs_length_ge (c : Bool) (l : List (Val × Val))
    (h : ∀ p ∈ l, nest p.1 ≤ (encode c p.1).length ∧ nest p.2 ≤ (encode c p.2).length) :
    nestPairs l ≤ (flatPairs c l).length := by
  induction l with
  | nil => simp [nestPairs]
  | cons p ps ih =>
    obtain ⟨k, v⟩ := p
    have h1 := h (k, v) (List.mem_cons_self _ _)
    have h2 := ih (fun w hw => h w (List.mem_cons_of_mem _ hw))
    rw [flatPairs_cons]
    simp only [nestPairs, List.length_append]
    simp only at h1
    omega

theorem nest_le_length (c : Bool) : ∀ v, nest v ≤ (encode c v).length := by
  apply Val.induct
  · simp [nest, encode]
  · intro b; simp [nest, encode]
  · intro i; simp only [nest, encode]; split <;> simp
  · intro u; simp [nest, encode]
  · intro x; simp [nest, encode]
  · intro s; simp [nest, encode]
  · intro b; simp [nest, encode]
  · intro t d; simp [nest, encode]
  · intro l ih
    have := encodeList_length_ge c l ih
    simp only [nest, encode, List.length_cons]
    omega
  · intro l ih
    have h1 : nestPairs (emitOrder c l) ≤ (flatPairs c (emitOrder c l)).length :=
      flatPairs_length_ge c _ (fun p hp => ih p ((emitOrder_perm c l).mem_iff.mp hp))
    rw [nestPairs_perm (emitOrder_perm c l)] at h1
    simp only [nest, encode, List.length_cons, emitEntries_eq]
    omega

/-- The depth budget of a handle admits every value within `MaxDepth`, and
every value when `MaxDepth` is 0. -/
theorem depthBudget_ge (h : Handle) (c : Bool) (v : Val) (r : List Tok)
    (hd : h.maxDepth = 0 ∨ nest v ≤ h.maxDepth) :
    nest v ≤ depthBudget h (encode c v ++ r) := by
  unfold depthBudget
  split
  · have := nest_le_length c v
    simp only [List.length_append]
    omega
  · rcases hd with hd | hd
    · contradiction
    · exact hd

theorem depthBudget_lt (h : Handle) (toks : List Tok) (n : Nat)
    (h0 : 0 < h.maxDepth) (hn : h.maxDepth < n) : depthBudget h toks < n := by
  unfold depthBudget
  rw [if_neg (by omega)]
  exact hn

theorem decodedAs_of_good {c : Bool} {d : Nat} {v w : Val} (g : Good c d v w) :
    decodedAs c d v = w := by
  have := g.dec []
  simp only [List.append_nil] at this
  simp [decodedAs, this]

theorem good_of_le (c : Bool) (d : Nat) (v : Val) (hd : nest v ≤ d) :
    Good c d v (decodedAs c d v) := by
  obtain ⟨w, g⟩ := (inv_all c v d).1 hd
  rw [decodedAs_of_good g]
  exact g

theorem swallow_eq_of_decode (c : Bool) (v : Val) (d : Nat) (r : List Tok) :
    (nest v ≤ d → swallow d (encode c v ++ r) = Except.ok r ∧
      decodeVal d (encode c v ++ r) = Except.ok (decodedAs c d v, r)) ∧
    (d < nest v → swallow d (encode c v ++ r) = Except.error Err.depthExceeded ∧
      decodeVal d (encode c v ++ r) = Except.error Err.depthExceeded) := by
  constructor
  · intro hd
    have g := good_of_le c d v hd
    exact ⟨g.sw r, g.dec r⟩
  · intro hd
    have g := (inv_all c v d).2 hd
    exact ⟨g.sw r, g.dec r⟩

theorem decodeFields_unmatched (c : Bool) (d : Nat) (ds : List Decl) (vals : List Val) (l : List (Val × Val))
    (r : List Tok) (hu : Unmatched ds l) :
    decodeFields d ds l.length (flatPairs c l ++ r) vals =
      match skipN (swallow d) (2 * l.length) (flatPairs c l ++ r) with
      | Except.ok r' => Except.ok (vals, r')
      | Except.error e => Except.error e := by
  induction l with
  | nil => simp [decodeFields, skipN, flatPairs]
  | cons p ps ih =>
    obtain ⟨k, v⟩ := p
    obtain ⟨key, hk, hf⟩ := hu (k, v) (List.mem_cons_self _ _)
    simp only at hk
    subst hk
    have ih' := ih (fun q hq => hu q (List.mem_cons_of_mem _ hq))
    have e2 : 2 * ((Val.str key, v) :: ps).length = 2 * ps.length + 1 + 1 := by
      simp only [List.length_cons]; omega
    rw [e2, flatPairs_cons]
    simp only [encode, List.length_cons, List.cons_append, List.append_eq, List.nil_append,
      List.append_assoc, decodeFields, skipN, swallow, hf]
    rcases Nat.lt_or_ge d (nest v) with hd | hd
    · simp only [((swallow_eq_of_decode c v d _).2 hd).1]
    · simp only [((swallow_eq_of_decode c v d _).1 hd).1]
      exact ih'

theorem unmatched_perm {ds : List Decl} {l l' : List (Val × Val)} (hp : List.Perm l' l)
    (hu : Unmatched ds l) : Unmatched ds l' :=
  fun p hp' => hu p (hp.mem_iff.mp hp')

theorem decodeStruct_unmatched (c : Bool) (d : Nat) (ds : List Decl) (vals : List Val) (l : List (Val × Val))
    (r : List Tok) (hu : Unmatched ds l) :
    decodeStruct d ds vals (encode c (Val.map l) ++ r) =
      match swallow d (encode c (Val.map l) ++ r) with
      | Except.ok r' => Except.ok (vals, r')
      | Except.error e => Except.error e := by
  have hlen : (emitOrder c l).length = l.length := (emitOrder_perm c l).length_eq
  cases d with
  | zero => simp [encode, decodeStruct, swallow]
  | succ d =>
    have := decodeFields_unmatched c d ds vals (emitOrder c l) r (unmatched_perm (emitOrder_perm c l) hu)
    rw [hlen] at this
    simp only [encode, emitEntries_eq, List.cons_append, decodeStruct, swallow]
    exact this

theorem Decode_ok (h : Handle) (c : Bool) (v : Val)
    (hd : h.maxDepth = 0 ∨ nest v ≤ h.maxDepth) :
    Decode h (encode c v)
      = Except.ok (materialize (decodedAs c (depthBudget h (encode c v)) v)) := by
  have hb := depthBudget_ge h c v [] hd
  simp only [List.append_nil] at hb
  have := ((swallow_eq_of_decode c v _ []).1 hb).2
  simp only [List.append_nil] at this
  simp only [Decode, this]

theorem Decode_deep (h : Handle) (c : Bool) (v : Val)
    (h0 : 0 < h.maxDepth) (hd : h.maxDepth < nest v) :
    Decode h (encode c v) = Except.error Err.depthExceeded := by
  have hb := depthBudget_lt h (encode c v) (nest v) h0 hd
  have := ((swallow_eq_of_decode c v _ []).2 hb).2
  simp only [List.append_nil] at this
  simp only [Decode, this]

theorem DecodeStruct_deep (h : Handle) (c : Bool) (ds : List Decl) (vals : List Val)
    (l : List (Val × Val)) (hu : Unmatched ds l)
    (h0 : 0 < h.maxDepth) (hd : h.maxDepth < nest (Val.map l)) :
    DecodeStruct h ds vals (encode c (Val.map l)) = Except.error Err.depthExceeded := by
  have hb := depthBudget_lt h (encode c (Val.map l)) _ h0 hd
  have h1 := decodeStruct_unmatched c (depthBudget h (encode c (Val.map l))) ds vals l [] hu
  have h2 := ((swallow_eq_of_decode c (Val.map l) _ []).2 hb).1
  simp only [List.append_nil] at h1 h2
  simp only [DecodeStruct, h1, h2]

theorem DecodeStruct_ok (h : Handle) (c : Bool) (ds : List Decl) (vals : List Val)
    (l : List (Val × Val)) (hu : Unmatched ds l)
    (hd : h.maxDepth = 0 ∨ nest (Val.map l) ≤ h.maxDepth) :
    DecodeStruct h ds vals (encode c (Val.map l)) = Except.ok vals := by
  have hb := depthBudget_ge h c (Val.map l) [] hd
  have h1 := decodeStruct_unmatched c (depthBudget h (encode c (Val.map l))) ds vals l [] hu
  simp only [List.append_nil] at hb
  have h2 := ((swallow_eq_of_decode c (Val.map l) _ []).1 hb).1
  simp only [List.append_nil] at h1 h2
  simp only [DecodeStruct, h1, h2]

theorem Tok.code_injective : Function.Injective Tok.code := by
  intro a b h
  cases a <;> cases b <;> simp [Tok.code] at h <;> try rfl
  case bool.bool b1 b2 => cases b1 <;> cases b2 <;> simp at h ⊢
  case str.str s1 s2 =>
    have := List.map_injective_iff.mpr Int.ofNat_injective h
    rw [this]
  case bin.bin s1 s2 =>
    have := List.map_injective_iff.mpr Int.ofNat_injective h
    rw [this]
  case extHdr.extHdr => rw [h.1, h.2]
  all_goals rw [h]

/-- Two lists with the same image under a function that tells the elements of
the first from those of the second are equal. -/
theorem eq_of_map_eq {α β : Type} (f : α → β) :
    ∀ (s s' : List α), (∀ a ∈ s, ∀ b ∈ s', f a = f b → a = b) → s.map f = s'.map f → s = s' := by
  intro s
  induction s with
  | nil => intro s' _ h; cases s' with
    | nil => rfl
    | cons b t => simp at h
  | cons a t ih =>
    intro s' hinj h
    cases s' with
    | nil => simp at h
    | cons b t' =>
      simp only [List.map_cons, List.cons.injEq] at h
      have hab := hinj a (List.mem_cons_self _ _) b (List.mem_cons_self _ _) h.1
      rw [hab, ih t' (fun x hx y hy => hinj x (List.mem_cons_of_mem _ hx) y
        (List.mem_cons_of_mem _ hy)) h.2]

/-- Sorting by key gives one result for every iteration order of entries with
pairwise distinct keys. -/
theorem insertionSort_perm_eq {l l' : List (List Tok × List Tok)} (h : List.Perm l l')
    (hn : (l.map entryKey).Nodup) :
    l.insertionSort entryLe = l'.insertionSort entryLe := by
  have hp : List.Perm (l.insertionSort entryLe) (l'.insertionSort entryLe) :=
    ((List.perm_insertionSort entryLe l).trans h).trans (List.perm_insertionSort entryLe l').symm
  have hs : List.Sorted (· ≤ ·) ((l.insertionSort entryLe).map entryKey) :=
    List.pairwise_map.mpr (List.sorted_insertionSort entryLe l)
  have hs' : List.Sorted (· ≤ ·) ((l'.insertionSort entryLe).map entryKey) :=
    List.pairwise_map.mpr (List.sorted_insertionSort entryLe l')
  have hk : (l.insertionSort entryLe).map entryKey = (l'.insertionSort entryLe).map entryKey :=
    List.eq_of_perm_of_sorted (hp.map entryKey) hs hs'
  have hn' : ((l.insertionSort entryLe).map entryKey).Nodup :=
    ((List.perm_insertionSort entryLe l).map entryKey).nodup_iff.mpr hn
  apply eq_of_map_eq entryKey _ _ _ hk
  intro a ha b hb hab
  exact List.inj_on_of_nodup_map hn' ha (hp.mem_iff.mpr hb) hab

theorem reorderList_length (σ : List (Val × Val) → List (Val × Val)) (l : List Val) :
    (reorderList σ l).length = l.length := by
  induction l with
  | nil => simp [reorderList]
  | cons v vs ih => simp [reorderList, ih]

theorem reorderPairs_length (σ : List (Val × Val) → List (Val × Val)) (l : List (Val × Val)) :
    (reorderPairs σ l).length = l.length := by
  induction l with
  | nil => simp [reorderPairs]
  | cons p ps ih => obtain ⟨k, v⟩ := p; simp [reorderPairs, ih]

/-- In canonical mode the encoding of a value whose maps have distinct keys
does not depend on the iteration order of any of its maps. -/
theorem encode_reorder (σ : List (Val × Val) → List (Val × Val))
    (hσ : ∀ l, List.Perm (σ l) l) :
    ∀ v, keysDistinct true v = true → encode true (reorder σ v) = encode true v := by
  apply Val.induct
  · simp [reorder]
  · intro b; simp [reorder]
  · intro i; simp [reorder]
  · intro u; simp [reorder]
  · intro x; simp [reorder]
  · intro s; simp [reorder]
  · intro b; simp [reorder]
  · intro t d; simp [reorder]
  · intro l ih hk
    simp only [keysDistinct] at hk
    have hl : encodeList true (reorderList σ l) = encodeList true l := by
      induction l with
      | nil => simp [reorderList]
      | cons v vs ihl =>
        simp only [keysDistinctList, Bool.and_eq_true] at hk
        simp only [reorderList, encodeList]
        rw [ih v (List.mem_cons_self _ _) hk.1,
          ihl (fun w hw => ih w (List.mem_cons_of_mem _ hw)) hk.2]
    simp only [reorder, encode, hl, reorderList_length]
  · intro l ih hk
    simp only [keysDistinct, Bool.and_eq_true, decide_eq_true_eq] at hk
    obtain ⟨hnd, hkp⟩ := hk
    have hl : encodeEntries true (reorderPairs σ l) = encodeEntries true l := by
      clear hnd
      induction l with
      | nil => simp [reorderPairs]
      | cons p ps ihl =>
        obtain ⟨k, v⟩ := p
        simp only [keysDistinctPairs, Bool.and_eq_true] at hkp
        have h1 := ih (k, v) (List.mem_cons_self _ _)
        simp only [reorderPairs, encodeEntries]
        rw [h1.1 hkp.1.1, h1.2 hkp.1.2,
          ihl (fun w hw => ih w (List.mem_cons_of_mem _ hw)) hkp.2]
    have hp : List.Perm (encodeEntries true (σ (reorderPairs σ l))) (encodeEntries true l) := by
      rw [← hl, encodeEntries_eq, encodeEntries_eq]
      exact (hσ _).map _
    have hn : ((encodeEntries true l).map entryKey).Nodup := by
      rw [encodeEntries_eq, List.map_map]
      have e : (entryKey ∘ fun p : Val × Val => (encode true p.1, encode true p.2))
          = (List.map Tok.code) ∘ (fun p : Val × Val => encode true p.1) := rfl
      rw [e, ← List.map_map]
      exact hnd.map (List.map_injective_iff.mpr Tok.code_injective)
    have hlen : (σ (reorderPairs σ l)).length = l.length := by
      rw [(hσ _).length_eq, reorderPairs_length]
    simp only [reorder, encode, hlen, emitEntries, if_true,
      insertionSort_perm_eq hp.symm hn]

theorem encodeElems_guard (c : Bool) (enc : Val → Except Err (List Tok)) (d : Nat) (l : List Val)
    (h : ∀ v ∈ l, (nest v ≤ d → enc v = Except.ok (encode c v)) ∧
      (d < nest v → enc v = Except.error Err.depthExceeded)) :
    (nestList l ≤ d → encodeElems enc l = Except.ok (encodeList c l)) ∧
    (d < nestList l → encodeElems enc l = Except.error Err.depthExceeded) := by
  induction l with
  | nil => exact ⟨fun _ => rfl, fun hlt => by simp [nestList] at hlt⟩
  | cons v vs ih =>
    have hv := h v (List.mem_cons_self _ _)
    have ih' := ih (fun x hx => h x (List.mem_cons_of_mem _ hx))
    simp only [nestList, encodeElems, encodeList]
    by_cases hvd : nest v ≤ d
    · rw [hv.1 hvd]
      constructor
      · intro hle
        rw [ih'.1 (le_trans (le_max_right _ _) hle)]
      · intro hlt
        have hlt' : d < nestList vs := by
          rcases lt_max_iff.mp hlt with h1 | h1
          · omega
          · exact h1
        rw [ih'.2 hlt']
    · rw [hv.2 (by omega)]
      exact ⟨fun hle => absurd (le_trans (le_max_left _ _) hle) hvd, fun _ => rfl⟩

theorem encodePairs_guard (c : Bool) (enc : Val → Except Err (List Tok)) (d : Nat)
    (l : List (Val × Val))
    (h : ∀ p ∈ l, ((nest p.1 ≤ d → enc p.1 = Except.ok (encode c p.1)) ∧
        (d < nest p.1 → enc p.1 = Except.error Err.depthExceeded)) ∧
      ((nest p.2 ≤ d → enc p.2 = Except.ok (encode c p.2)) ∧
        (d < nest p.2 → enc p.2 = Except.error Err.depthExceeded))) :
    (nestPairs l ≤ d → encodePairs enc l = Except.ok (encodeEntries c l)) ∧
    (d < nestPairs l → encodePairs enc l = Except.error Err.depthExceeded) := by
  induction l with
  | nil => exact ⟨fun _ => rfl, fun hlt => by simp [nestPairs] at hlt⟩
  | cons p ps ih =>
    obtain ⟨k, v⟩ := p
    have hk := (h (k, v) (List.mem_cons_self _ _)).1
    have hv := (h (k, v) (List.mem_cons_self _ _)).2
    have ih' := ih (fun x hx => h x (List.mem_cons_of_mem _ hx))
    simp only at hk hv
    simp only [nestPairs, encodePairs, encodeEntries]
    by_cases hkd : nest k ≤ d
    · rw [hk.1 hkd]
      by_cases hvd : nest v ≤ d
      · rw [hv.1 hvd]
        constructor
        · intro hle
          rw [ih'.1 (le_trans (le_max_right _ _) hle)]
        · intro hlt
          have hlt' : d < nestPairs ps := by
            rcases lt_max_iff.mp hlt with h1 | h1
            · rcases lt_max_iff.mp h1 with h2 | h2 <;> omega
            · exact h1
          rw [ih'.2 hlt']
      · rw [hv.2 (by omega)]
        exact ⟨fun hle => absurd
          (le_trans (le_trans (le_max_right _ _) (le_max_left _ _)) hle) hvd, fun _ => rfl⟩
    · rw [hk.2 (by omega)]
      exact ⟨fun hle => absurd
        (le_trans (le_trans (le_max_left _ _) (le_max_left _ _)) hle) hkd, fun _ => rfl⟩

/-- The depth guard of the encode traversal: with `d` descents allowed, a value
nested at most `d` deep is encoded as by the traversal without the counter, and
a deeper one gives the depth-exceeded error. -/
theorem encodeGuarded_guard (c : Bool) : ∀ (v : Val) (d : Nat),
    (nest v ≤ d → encodeGuarded c d v = Except.ok (encode c v)) ∧
    (d < nest v → encodeGuarded c d v = Except.error Err.depthExceeded) := by
  apply Val.induct
  · intro d; exact ⟨fun _ => by cases d <;> rfl, fun h => by simp [nest] at h⟩
  · intro b d; exact ⟨fun _ => by cases d <;> rfl, fun h => by simp [nest] at h⟩
  · intro i d; exact ⟨fun _ => by cases d <;> simp [encodeGuarded, encode],
      fun h => by simp [nest] at h⟩
  · intro u d; exact ⟨fun _ => by cases d <;> rfl, fun h => by simp [nest] at h⟩
  · intro x d; exact ⟨fun _ => by cases d <;> rfl, fun h => by simp [nest] at h⟩
  · intro s d; exact ⟨fun _ => by cases d <;> rfl, fun h => by simp [nest] at h⟩
  · intro b d; exact ⟨fun _ => by cases d <;> rfl, fun h => by simp [nest] at h⟩
  · intro t data d
    exact ⟨fun _ => by cases d <;> simp [encodeGuarded, encode], fun h => by simp [nest] at h⟩
  · intro l ih d
    cases d with
    | zero => exact ⟨fun h => by simp [nest] at h, fun _ => by simp [encodeGuarded]⟩
    | succ d =>
      have hl := encodeElems_guard c (encodeGuarded c d) d l (fun v hv => ih v hv d)
      simp only [nest, Nat.add_le_add_iff_right, Nat.add_lt_add_iff_right]
      constructor
      · intro hle; simp only [encodeGuarded, hl.1 hle, encode]
      · intro hlt; simp only [encodeGuarded, hl.2 hlt]
  · intro l ih d
    cases d with
    | zero => exact ⟨fun h => by simp [nest] at h, fun _ => by simp [encodeGuarded]⟩
    | succ d =>
      have hl := encodePairs_guard c (encodeGuarded c d) d l
        (fun p hp => ⟨(ih p hp).1 d, (ih p hp).2 d⟩)
      simp only [nest, Nat.add_le_add_iff_right, Nat.add_lt_add_iff_right]
      constructor
      · intro hle; simp only [encodeGuarded, hl.1 hle, encode]
      · intro hlt; simp only [encodeGuarded, hl.2 hlt]

theorem Encode_ok (h : Handle) (v : Val) (hd : h.maxDepth = 0 ∨ nest v ≤ h.maxDepth) :
    Encode h v = Except.ok (encode h.canonical v) := by
  unfold Encode
  split
  · rfl
  · rcases hd with hd | hd
    · contradiction
    · exact (encodeGuarded_guard h.canonical v h.maxDepth).1 hd

theorem Encode_deep (h : Handle) (v : Val) (h0 : 0 < h.maxDepth) (hd : h.maxDepth < nest v) :
    Encode h v = Except.error Err.depthExceeded := by
  unfold Encode
  rw [if_neg (by omega)]
  exact (encodeGuarded_guard h.canonical v h.maxDepth).2 hd

theorem Encode_eq_ok (h : Handle) (v : Val) (b : List Tok) (hb : Encode h v = Except.ok b) :
    b = encode h.canonical v ∧ (h.maxDepth = 0 ∨ nest v ≤ h.maxDepth) := by
  by_cases hd : h.maxDepth = 0 ∨ nest v ≤ h.maxDepth
  · rw [Encode_ok h v hd] at hb
    exact ⟨(Except.ok.inj hb).symm, hd⟩
  · rw [Encode_deep h v (by omega) (by omega)] at hb
    cases hb

theorem nest_reorder (σ : List (Val × Val) → List (Val × Val))
    (hσ : ∀ l, List.Perm (σ l) l) : ∀ v, nest (reorder σ v) = nest v := by
  apply Val.induct
  · rfl
  · intro b; rfl
  · intro i; rfl
  · intro u; rfl
  · intro x; rfl
  · intro s; rfl
  · intro b; rfl
  · intro t d; rfl
  · intro l ih
    have hl : nestList (reorderList σ l) = nestList l := by
      induction l with
      | nil => rfl
      | cons v vs ihl =>
        simp only [reorderList, nestList]
        rw [ih v (List.mem_cons_self _ _), ihl (fun w hw => ih w (List.mem_cons_of_mem _ hw))]
    simp only [reorder, nest, hl]
  · intro l ih
    have hl : nestPairs (reorderPairs σ l) = nestPairs l := by
      induction l with
      | nil => rfl
      | cons p ps ihl =>
        obtain ⟨k, v⟩ := p
        have h1 := ih (k, v) (List.mem_cons_self _ _)
        simp only [reorderPairs, nestPairs]
        rw [h1.1, h1.2, ihl (fun w hw => ih w (List.mem_cons_of_mem _ hw))]
    simp only [reorder, nest, nestPairs_perm (hσ _), hl]

/-- A value decoded within the depth budget `d` is nested at most `d` deep. -/
theorem nest_decoded_le {c : Bool} {d : Nat} {v w : Val} (g : Good c d v w) : nest w ≤ d := by
  by_contra hlt
  have hb := ((inv_all c w d).2 (by omega)).dec []
  rw [g.enc, g.dec []] at hb
  cases hb

theorem putEntry_new (acc : List (Val × Val)) (p : Val × Val)
    (h : encode true p.1 ∉ acc.map (fun q => encode true q.1)) : putEntry acc p = acc ++ [p] := by
  unfold putEntry
  rw [if_neg]
  simp only [List.any_eq_true, sameKey, decide_eq_true_eq, not_exists, not_and]
  intro q hq he
  exact h (List.mem_map.mpr ⟨q, hq, he⟩)

theorem foldl_putEntry (l : List (Val × Val)) : ∀ acc : List (Val × Val),
    ((acc ++ l).map (fun q => encode true q.1)).Nodup → l.foldl putEntry acc = acc ++ l := by
  induction l with
  | nil => intro acc _; simp
  | cons p ps ih =>
    intro acc hn
    have hp : encode true p.1 ∉ acc.map (fun q => encode true q.1) := by
      simp only [List.map_append, List.map_cons] at hn
      have := (List.nodup_append.mp hn).2.2
      intro hm
      exact this hm (List.mem_cons_self _ _)
    rw [List.foldl_cons, putEntry_new acc p hp, ih]
    · simp
    · simpa using hn

/-- A list of entries with pairwise distinct keys is stored as it is. -/
theorem toMap_of_nodup (l : List (Val × Val))
    (hn : (l.map (fun q => encode true q.1)).Nodup) : toMap l = l := by
  have := foldl_putEntry l [] (by simpa using hn)
  simpa [toMap] using this

/-- A value whose maps have distinct keys is held by the target as it was
read. -/
theorem materialize_of_keysDistinct :
    ∀ v, keysDistinct true v = true → materialize v = v := by
  apply Val.induct
  · intro _; rfl
  · intro b _; rfl
  · intro i _; rfl
  · intro u _; rfl
  · intro x _; rfl
  · intro s _; rfl
  · intro b _; rfl
  · intro t d _; rfl
  · intro l ih hk
    simp only [keysDistinct] at hk
    have hl : materializeList l = l := by
      induction l with
      | nil => rfl
      | cons v vs ihl =>
        simp only [keysDistinctList, Bool.and_eq_true] at hk
        simp only [materializeList]
        rw [ih v (List.mem_cons_self _ _) hk.1,
          ihl (fun w hw => ih w (List.mem_cons_of_mem _ hw)) hk.2]
    simp only [materialize, hl]
  · intro l ih hk
    simp only [keysDistinct, Bool.and_eq_true, decide_eq_true_eq] at hk
    obtain ⟨hnd, hkp⟩ := hk
    have hl : materializePairs l = l := by
      clear hnd
      induction l with
      | nil => rfl
      | cons p ps ihl =>
        obtain ⟨k, v⟩ := p
        simp only [keysDistinctPairs, Bool.and_eq_true] at hkp
        have h1 := ih (k, v) (List.mem_cons_self _ _)
        simp only [materializePairs]
        rw [h1.1 hkp.1.1, h1.2 hkp.1.2,
          ihl (fun w hw => ih w (List.mem_cons_of_mem _ hw)) hkp.2]
    simp only [materialize, hl, toMap_of_nodup l hnd]

theorem decodePairs_short (decK decV : List Tok → Except Err (Val × List Tok))
    (hK : decK [] = Except.error Err.endOfInput) (m : Nat) :
    ∀ (k : Nat) (toks : List Tok) (ps : List (Val × Val)),
      decodePairs decK decV k toks = Except.ok (ps, []) →
      decodePairs decK decV (k + m + 1) toks = Except.error Err.endOfInput := by
  intro k
  induction k with
  | zero =>
    intro toks ps h
    simp only [decodePairs, Except.ok.injEq, Prod.mk.injEq] at h
    rw [h.2]
    simp only [Nat.zero_add, decodePairs, hK]
  | succ k ih =>
    intro toks ps h
    have e : k + 1 + m + 1 = (k + m + 1) + 1 := by omega
    rw [e, decodePairs]
    rw [decodePairs] at h
    cases hk : decK toks with
    | error e => rw [hk] at h; simp at h
    | ok kr =>
      obtain ⟨key, r⟩ := kr
      rw [hk] at h
      simp only at h ⊢
      cases hv : decV r with
      | error e => rw [hv] at h; simp at h
      | ok vr =>
        obtain ⟨val, r'⟩ := vr
        rw [hv] at h
        simp only at h ⊢
        cases hp : decodePairs decK decV k r' with
        | error e => rw [hp] at h; simp at h
        | ok pr =>
          obtain ⟨ps', r''⟩ := pr
          rw [hp] at h
          simp only [Except.ok.injEq, Prod.mk.injEq] at h
          have hp' : decodePairs decK decV k r' = Except.ok (ps', []) := by rw [hp, h.2]
          rw [ih r' ps' hp']

theorem readRaw_short : ∀ (n : Nat) (data : List Nat), data.length < n →
    readRaw n (data.map Tok.raw) = Except.error Err.endOfInput := by
  intro n
  induction n with
  | zero => intro data h; omega
  | succ n ih =>
    intro data h
    cases data with
    | nil => simp [readRaw]
    | cons b bs =>
      have := ih bs (by simp only [List.length_cons] at h; omega)
      simp only [List.map_cons, readRaw, this]

theorem depthBudget_cons_pos (h : Handle) (t : Tok) (toks : List Tok) :
    ∃ d, depthBudget h (t :: toks) = d + 1 := by
  unfold depthBudget
  split
  · exact ⟨toks.length, by simp⟩
  · exact ⟨h.maxDepth - 1, by omega⟩

theorem candsList_append (d : Nat) (a b : List Field) :
    candsList d (a ++ b) = candsList d a ++ candsList d b := by
  induction a with
  | nil => simp [candsList]
  | cons f fs ih => simp [candsList, ih]

theorem cands_dropOmitEmpty (f : Field) :
    ∀ d, candsList d f.dropOmitEmpty = (f.cands d).filter (fun c => !c.decl.omitEmpty) := by
  exact @Field.rec
    (fun f => ∀ d, candsList d f.dropOmitEmpty = (f.cands d).filter (fun c => !c.decl.omitEmpty))
    (fun fs => ∀ d, candsList d (dropOmitEmptyList fs)
      = (candsList d fs).filter (fun c => !c.decl.omitEmpty))
    (by
      intro n o v d
      cases o <;> simp [Field.dropOmitEmpty, Field.cands, candsList])
    (by
      intro fs ih d
      simp only [Field.dropOmitEmpty, Field.cands, candsList, List.append_nil]
      exact ih (d + 1))
    (by intro d; simp [dropOmitEmptyList, candsList])
    (by
      intro f fs ih1 ih2 d
      simp only [dropOmitEmptyList, candsList, candsList_append, List.filter_append, ih1 d, ih2 d])
    f

theorem candsList_dropOmitEmpty (fs : List Field) (d : Nat) :
    candsList d (dropOmitEmptyList fs) = (candsList d fs).filter (fun c => !c.decl.omitEmpty) := by
  induction fs with
  | nil => simp [dropOmitEmptyList, candsList]
  | cons f fs ih =>
    simp only [dropOmitEmptyList, candsList, candsList_append, List.filter_append, ih,
      cands_dropOmitEmpty f d]

theorem tableFrom_subset (pre : List Decl) (cs : List Cand) :
    ∀ c ∈ tableFrom pre cs, c ∈ cs := by
  induction cs generalizing pre with
  | nil => intro c hc; simp [tableFrom] at hc
  | cons x post ih =>
    intro c hc
    simp only [tableFrom, List.mem_append] at hc
    rcases hc with hc | hc
    · split at hc
      · simp only [List.mem_singleton] at hc; rw [hc]; exact List.mem_cons_self _ _
      · cases hc
    · exact List.mem_cons_of_mem _ (ih _ c hc)

theorem all_filter_of {α : Type} (l : List α) (keep p : α → Bool)
    (h : ∀ x ∈ l, keep x = false → p x = true) : l.all p = (l.filter keep).all p := by
  induction l with
  | nil => rfl
  | cons x xs ih =>
    have ih' := ih (fun y hy => h y (List.mem_cons_of_mem _ hy))
    cases hk : keep x
    · have := h x (List.mem_cons_self _ _) hk
      simp [List.filter_cons, hk, this, ih']
    · simp [List.filter_cons, hk, ih']

/-- Dropping the omit-empty-flagged fields commutes with building the field
table when no flagged field shares its name with an unflagged one. -/
theorem tableFrom_filter (pre : List Decl) (cs : List Cand)
    (hu : ∀ c ∈ pre ++ cs.map Cand.decl, c.omitEmpty = true →
      ∀ x ∈ pre ++ cs.map Cand.decl, x.omitEmpty = false → x.name ≠ c.name) :
    (tableFrom pre cs).filter (fun c => !c.decl.omitEmpty) =
      tableFrom (pre.filter (fun c => !c.omitEmpty))
        (cs.filter (fun c => !c.decl.omitEmpty)) := by
  induction cs generalizing pre with
  | nil => simp [tableFrom]
  | cons c post ih =>
    have hu' : ∀ y ∈ (pre ++ [c.decl]) ++ post.map Cand.decl, y.omitEmpty = true →
        ∀ x ∈ (pre ++ [c.decl]) ++ post.map Cand.decl, x.omitEmpty = false → x.name ≠ y.name := by
      simpa [List.map_cons, List.append_assoc] using hu
    have ih' := ih (pre ++ [c.decl]) hu'
    simp only [tableFrom, List.filter_append, ih']
    cases ho : c.decl.omitEmpty
    · have hcm : c.decl ∈ pre ++ (c :: post).map Cand.decl := by simp
      have hw : wins pre (post.map Cand.decl) c.decl =
          wins (pre.filter (fun c => !c.omitEmpty))
            ((post.filter (fun c => !c.decl.omitEmpty)).map Cand.decl) c.decl := by
        unfold wins
        have e1 : (post.filter (fun c => !c.decl.omitEmpty)).map Cand.decl =
            (post.map Cand.decl).filter (fun c => !c.omitEmpty) := by
          rw [List.filter_map]; rfl
        rw [e1]
        congr 1
        · apply all_filter_of
          intro x hx hk
          have hxo : x.omitEmpty = true := by simpa using hk
          have := hu x (by simp [hx]) hxo c.decl hcm ho
          simp [Ne.symm this]
        · apply all_filter_of
          intro x hx hk
          have hxo : x.omitEmpty = true := by simpa using hk
          have := hu x (List.mem_append_right _ (List.mem_cons_of_mem _ hx)) hxo c.decl hcm ho
          simp [Ne.symm this]
      simp only [List.filter_cons, ho, Bool.not_false, if_true, tableFrom, List.filter_nil,
        List.filter_append]
      rw [← hw]
      split <;> simp [List.filter_cons, ho]
    · simp only [List.filter_cons, ho, Bool.not_true, Bool.false_eq_true, if_false,
        List.filter_nil, List.append_nil]
      split <;> simp [List.filter_cons, ho]

theorem wins_pre_mem {pre post : List Decl} {c : Decl} (h : wins pre post c = true)
    (x : Decl) (hx : x ∈ pre) : x.name ≠ c.name ∨ c.depth < x.depth := by
  unfold wins at h
  simp only [Bool.and_eq_true, List.all_eq_true, decide_eq_true_eq] at h
  exact h.1 x hx

theorem wins_post_mem {pre post : List Decl} {c : Decl} (h : wins pre post c = true)
    (x : Decl) (hx : x ∈ post) : x.name ≠ c.name ∨ c.depth ≤ x.depth := by
  unfold wins at h
  simp only [Bool.and_eq_true, List.all_eq_true, decide_eq_true_eq] at h
  exact h.2 x hx

theorem winnerIdxFrom_at (key : List Nat) (tD : Decl) (tpost : List Decl) (hk : tD.name = key) :
    ∀ (tpre pre0 : List Decl), wins (pre0 ++ tpre) tpost tD = true →
      winnerIdxFrom pre0 (tpre ++ tD :: tpost) key = some (pre0.length + tpre.length) := by
  intro tpre
  induction tpre with
  | nil =>
    intro pre0 hw
    simp only [List.append_nil] at hw
    simp [winnerIdxFrom, hk, hw]
  | cons x tpre ih =>
    intro pre0 hw
    have hw' : wins ((pre0 ++ [x]) ++ tpre) tpost tD = true := by
      simpa [List.append_assoc] using hw
    have hne : ¬ (x.name = key ∧ wins pre0 (tpre ++ tD :: tpost) x = true) := by
      rintro ⟨hxn, hxw⟩
      have h1 := wins_pre_mem hw x (by simp)
      have h2 := wins_post_mem hxw tD (by simp)
      rw [hk, hxn] at h1
      rw [hk, hxn] at h2
      rcases h1 with h1 | h1
      · exact h1 rfl
      · rcases h2 with h2 | h2
        · exact h2 rfl
        · omega
    simp only [List.cons_append, winnerIdxFrom, List.append_eq, hne, if_false]
    rw [ih (pre0 ++ [x]) hw']
    simp only [List.length_append, List.length_cons, List.length_nil]
    congr 1
    omega

theorem winnerIdxFrom_name (key : List Nat) :
    ∀ (ds pre0 : List Decl) (i : Nat), winnerIdxFrom pre0 ds key = some i →
      ∃ j x, i = pre0.length + j ∧ ds.get? j = some x ∧ x.name = key := by
  intro ds
  induction ds with
  | nil => intro pre0 i h; simp [winnerIdxFrom] at h
  | cons c post ih =>
    intro pre0 i h
    simp only [winnerIdxFrom] at h
    split at h
    · rename_i hc
      simp only [Option.some.injEq] at h
      exact ⟨0, c, by omega, rfl, hc.1⟩
    · obtain ⟨j, x, hj, hx, hn⟩ := ih (pre0 ++ [c]) i h
      refine ⟨j + 1, x, ?_, hx, hn⟩
      simp only [List.length_append, List.length_cons, List.length_nil] at hj
      omega

theorem mem_tableFrom {f : Cand} :
    ∀ (l : List Cand) (pre0 : List Decl), f ∈ tableFrom pre0 l →
      ∃ l1 l2, l = l1 ++ f :: l2 ∧
        wins (pre0 ++ l1.map Cand.decl) (l2.map Cand.decl) f.decl = true := by
  intro l
  induction l with
  | nil => intro pre0 h; simp [tableFrom] at h
  | cons c post ih =>
    intro pre0 h
    simp only [tableFrom, List.mem_append] at h
    rcases h with h | h
    · split at h
      · rename_i hw
        simp only [List.mem_singleton] at h
        subst h
        exact ⟨[], post, rfl, by simpa using hw⟩
      · cases h
    · obtain ⟨l1, l2, hl, hw⟩ := ih (pre0 ++ [c.decl]) h
      refine ⟨c :: l1, l2, by rw [hl]; rfl, ?_⟩
      simpa [List.append_assoc] using hw

theorem tableFrom_mem (f : Cand) (l2 : List Cand) :
    ∀ (l1 : List Cand) (pre0 : List Decl),
      wins (pre0 ++ l1.map Cand.decl) (l2.map Cand.decl) f.decl = true →
      f ∈ tableFrom pre0 (l1 ++ f :: l2) := by
  intro l1
  induction l1 with
  | nil =>
    intro pre0 hw
    simp only [List.map_nil, List.append_nil] at hw
    simp [tableFrom, hw]
  | cons c l1 ih =>
    intro pre0 hw
    simp only [List.cons_append, tableFrom, List.mem_append]
    right
    apply ih
    simpa [List.append_assoc] using hw

theorem decodeFields_fields (c : Bool) (d : Nat) (ds : List Decl) (r : List Tok) :
    ∀ (fs : List Cand) (vals : List Val), (∀ f ∈ fs, nest f.v ≤ d) →
      decodeFields d ds fs.length (flatFields c fs ++ r) vals
        = Except.ok (storeAll c d ds fs vals, r) := by
  intro fs
  induction fs with
  | nil => intro vals _; simp [decodeFields, flatFields, storeAll]
  | cons f fs ih =>
    intro vals hn
    have hf := hn f (List.mem_cons_self _ _)
    have g := (swallow_eq_of_decode c f.v d (flatFields c fs ++ r)).1 hf
    have ih' := fun vs => ih vs (fun x hx => hn x (List.mem_cons_of_mem _ hx))
    have e : flatFields c (f :: fs) ++ r
        = Tok.str f.decl.name :: (encode c f.v ++ (flatFields c fs ++ r)) := by
      simp [flatFields]
    rw [e]
    simp only [List.length_cons, decodeFields]
    cases hw : winnerIdx ds f.decl.name with
    | none =>
      simp only [g.1]
      rw [ih']
      simp [storeAll, List.foldl_cons, hw]
    | some i =>
      simp only [g.2]
      rw [ih']
      simp [storeAll, List.foldl_cons, hw]

theorem storeAll_length (c : Bool) (d : Nat) (ds : List Decl) :
    ∀ (fs : List Cand) (vals : List Val), (storeAll c d ds fs vals).length = vals.length := by
  intro fs
  induction fs with
  | nil => intro vals; rfl
  | cons f fs ih =>
    intro vals
    simp only [storeAll, List.foldl_cons]
    cases hw : winnerIdx ds f.decl.name with
    | none => exact ih vals
    | some i =>
      have := ih (vals.set i (decodedAs c d f.v))
      simp only [storeAll] at this
      simp only [this, List.length_set]

theorem storeAll_keep (c : Bool) (d : Nat) (ds : List Decl) (p : Nat) :
    ∀ (fs : List Cand) (vals : List Val),
      (∀ f ∈ fs, winnerIdx ds f.decl.name ≠ some p) →
      (storeAll c d ds fs vals).get? p = vals.get? p := by
  intro fs
  induction fs with
  | nil => intro vals _; rfl
  | cons f fs ih =>
    intro vals hne
    have hf := hne f (List.mem_cons_self _ _)
    have ih' := fun vs => ih vs (fun x hx => hne x (List.mem_cons_of_mem _ hx))
    simp only [storeAll, List.foldl_cons]
    cases hw : winnerIdx ds f.decl.name with
    | none => exact ih' vals
    | some i =>
      have hi : i ≠ p := by
        intro e; rw [hw, e] at hf; exact hf rfl
      have := ih' (vals.set i (decodedAs c d f.v))
      simp only [storeAll] at this
      simp only [this]
      simp [List.getElem?_set, hi]

theorem storeAll_hit (c : Bool) (d : Nat) (ds : List Decl) (p : Nat) (w : Val) :
    ∀ (fs : List Cand) (vals : List Val),
      (∀ f ∈ fs, winnerIdx ds f.decl.name = some p → decodedAs c d f.v = w) →
      p < vals.length →
      ((∃ f ∈ fs, winnerIdx ds f.decl.name = some p) ∨ vals.get? p = some w) →
      (storeAll c d ds fs vals).get? p = some w := by
  intro fs
  induction fs with
  | nil =>
    intro vals _ _ h
    rcases h with ⟨f, hf, _⟩ | h
    · cases hf
    · exact h
  | cons f fs ih =>
    intro vals hw hp h
    have ih' := fun vs => ih vs (fun x hx => hw x (List.mem_cons_of_mem _ hx))
    simp only [storeAll, List.foldl_cons]
    cases hwi : winnerIdx ds f.decl.name with
    | none =>
      apply ih' vals hp
      rcases h with ⟨x, hx, hxi⟩ | h
      · rcases List.mem_cons.mp hx with rfl | hx
        · rw [hwi] at hxi; cases hxi
        · exact Or.inl ⟨x, hx, hxi⟩
      · exact Or.inr h
    | some i =>
      have := ih' (vals.set i (decodedAs c d f.v)) (by simpa using hp)
      simp only [storeAll] at this
      apply this
      by_cases hi : i = p
      · right
        subst hi
        rw [hw f (List.mem_cons_self _ _) hwi]
        simp [List.getElem?_set, hp]
      · rcases h with ⟨x, hx, hxi⟩ | h
        · rcases List.mem_cons.mp hx with rfl | hx
          · rw [hwi] at hxi; simp only [Option.some.injEq] at hxi; exact absurd hxi hi
          · exact Or.inl ⟨x, hx, hxi⟩
        · right
          simp [List.getElem?_set, hi, h]
          simpa using h

theorem flatFields_length_ge (c : Bool) (fs : List Cand) (f : Cand) (hf : f ∈ fs) :
    (encode c f.v).length ≤ (flatFields c fs).length := by
  induction fs with
  | nil => cases hf
  | cons x xs ih =>
    have e : flatFields c (x :: xs) = Tok.str x.decl.name :: (encode c x.v ++ flatFields c xs) := by
      simp [flatFields]
    rw [e]
    simp only [List.length_cons, List.length_append]
    rcases List.mem_cons.mp hf with rfl | hf
    · omega
    · have := ih hf
      omega

theorem decodeFields_deep (c : Bool) (d : Nat) (ds : List Decl) (r : List Tok) :
    ∀ (fs : List Cand) (vals : List Val), (∃ f ∈ fs, d < nest f.v) →
      decodeFields d ds fs.length (flatFields c fs ++ r) vals
        = Except.error Err.depthExceeded := by
  intro fs
  induction fs with
  | nil => intro vals h; obtain ⟨f, hf, _⟩ := h; cases hf
  | cons f fs ih =>
    intro vals hex
    have e : flatFields c (f :: fs) ++ r
        = Tok.str f.decl.name :: (encode c f.v ++ (flatFields c fs ++ r)) := by
      simp [flatFields]
    rw [e]
    simp only [List.length_cons, decodeFields]
    rcases Nat.lt_or_ge d (nest f.v) with hd | hd
    · have g := (swallow_eq_of_decode c f.v d (flatFields c fs ++ r)).2 hd
      cases hw : winnerIdx ds f.decl.name with
      | none => simp only [g.1]
      | some i => simp only [g.2]
    · have g := (swallow_eq_of_decode c f.v d (flatFields c fs ++ r)).1 hd
      have hex' : ∃ x ∈ fs, d < nest x.v := by
        obtain ⟨x, hx, hxd⟩ := hex
        rcases List.mem_cons.mp hx with rfl | hx
        · omega
        · exact ⟨x, hx, hxd⟩
      cases hw : winnerIdx ds f.decl.name with
      | none => simp only [g.1]; exact ih vals hex'
      | some i => simp only [g.2]; exact ih _ hex'

theorem stack_length_le (n : Nat) (stack : List Nat) (hn : stack.Nodup)
    (hb : ∀ x ∈ stack, x < n) : stack.length ≤ n := by
  have hs : stack ⊆ List.range n := fun x hx => List.mem_range.mpr (hb x hx)
  have := (List.subperm_of_subset hn hs).length_le
  simpa using this

theorem encRef_val (heap : Heap) (h : Handle) (fuel : Nat) (stack : List Nat) (v : Val) :
    encRef heap h fuel stack (Ref.val v) = some (Except.ok (encode h.canonical v)) := by
  cases fuel <;> rfl

theorem encRef_nilPtr (heap : Heap) (h : Handle) (fuel : Nat) (stack : List Nat) :
    encRef heap h fuel stack Ref.nilPtr = some (Except.ok [Tok.nil]) := by
  cases fuel <;> rfl

theorem encFields_cases (c : Bool) (enc : Ref → Option (Except Err (List Tok)))
    (Q : Ref → Prop) (node : Node)
    (h : ∀ p ∈ node, enc p.2 = some (Except.error Err.circularReference) ∨
      ((∃ t, enc p.2 = some (Except.ok t)) ∧ Q p.2)) :
    encFields c enc node = some (Except.error Err.circularReference) ∨
      ((∃ ts, encFields c enc node = some (Except.ok ts)) ∧ ∀ p ∈ node, Q p.2) := by
  induction node with
  | nil => right; exact ⟨⟨[], rfl⟩, fun p hp => by cases hp⟩
  | cons p rest ih =>
    obtain ⟨name, r⟩ := p
    have hp := h (name, r) (List.mem_cons_self _ _)
    have ih' := ih (fun q hq => h q (List.mem_cons_of_mem _ hq))
    simp only at hp
    rcases hp with hp | ⟨⟨t, ht⟩, hq⟩
    · left; simp only [encFields, hp]
    · rcases ih' with ih' | ⟨⟨ts, hts⟩, hqs⟩
      · left; simp only [encFields, ht, ih']
      · right
        refine ⟨⟨_, by simp only [encFields, ht, hts]; rfl⟩, ?_⟩
        intro q hqm
        rcases List.mem_cons.mp hqm with rfl | hqm
        · exact hq
        · exact hqs q hqm

/-- With the cycle check on and enough fuel the traversal returns: with the
circular-reference error, or with an encoding, and then no struct being
descended into is reached again and the struct does not reach itself. -/
theorem encRef_ptr (heap : Heap) (h : Handle) (hc : h.checkCircularRef = true) :
    ∀ (fuel : Nat) (stack : List Nat) (a : Nat), stack.Nodup →
      (∀ x ∈ stack, x < heap.length) → heap.length < fuel + stack.length →
      encRef heap h fuel stack (Ref.ptr a) = some (Except.error Err.circularReference) ∨
      ((∃ ts, encRef heap h fuel stack (Ref.ptr a) = some (Except.ok ts)) ∧
        (∀ b, Reaches heap a b → b ∉ stack) ∧ ¬ Cyclic heap a) := by
  intro fuel
  induction fuel with
  | zero =>
    intro stack a hn hb hlt
    have := stack_length_le heap.length stack hn hb
    omega
  | succ fuel ih =>
    intro stack a hn hb hlt
    by_cases hmem : a ∈ stack
    · left
      simp only [encRef, hc, hmem, and_self, if_true]
    · have hcond : ¬ (h.checkCircularRef = true ∧ a ∈ stack) := fun hh => hmem hh.2
      cases hget : heap.get? a with
      | none =>
        right
        have hno : ∀ b, ¬ Edge heap a b := by
          rintro b ⟨node, hnode, _⟩
          rw [hget] at hnode
          cases hnode
        refine ⟨⟨_, by simp only [encRef, hcond, if_false, hget]; rfl⟩, ?_, ?_⟩
        · intro b hr
          rcases Relation.ReflTransGen.cases_head hr with rfl | ⟨c, hac, _⟩
          · exact hmem
          · exact absurd hac (hno c)
        · rintro ⟨b, hab, _⟩
          exact hno b hab
      | some node =>
        have ha : a < heap.length := by
          rw [List.get?_eq_getElem?] at hget
          exact (List.getElem?_eq_some_iff.mp hget).1
        have hn' : (a :: stack).Nodup := List.nodup_cons.mpr ⟨hmem, hn⟩
        have hb' : ∀ x ∈ a :: stack, x < heap.length := by
          intro x hx
          rcases List.mem_cons.mp hx with rfl | hx
          · exact ha
          · exact hb x hx
        have hlt' : heap.length < fuel + (a :: stack).length := by
          simp only [List.length_cons]; omega
        have hall : ∀ p ∈ node,
            encRef heap h fuel (a :: stack) p.2 = some (Except.error Err.circularReference) ∨
            ((∃ t, encRef heap h fuel (a :: stack) p.2 = some (Except.ok t)) ∧
              ∀ c, p.2 = Ref.ptr c → ∀ x, Reaches heap c x → x ∉ a :: stack) := by
          intro p _
          obtain ⟨name, r⟩ := p
          cases r with
          | val v =>
            right
            refine ⟨⟨_, encRef_val heap h fuel _ v⟩, ?_⟩
            intro c hcc; cases hcc
          | nilPtr =>
            right
            refine ⟨⟨_, encRef_nilPtr heap h fuel _⟩, ?_⟩
            intro c hcc; cases hcc
          | ptr b =>
            rcases ih (a :: stack) b hn' hb' hlt' with h1 | ⟨h1, h2, _⟩
            · left; exact h1
            · right
              refine ⟨h1, ?_⟩
              intro c hcc
              simp only [Ref.ptr.injEq] at hcc
              subst hcc
              exact h2
        rcases encFields_cases h.canonical (encRef heap h fuel (a :: stack))
          (fun r => ∀ c, r = Ref.ptr c → ∀ x, Reaches heap c x → x ∉ a :: stack) node hall
          with he | ⟨⟨ts, hts⟩, hq⟩
        · left
          simp only [encRef, hcond, if_false, hget, he]
        · right
          have hedge : ∀ c, Edge heap a c → ∀ x, Reaches heap c x → x ∉ a :: stack := by
            rintro c ⟨node', hnode', name, hmemc⟩ x hx
            rw [hget] at hnode'
            simp only [Option.some.injEq] at hnode'
            subst hnode'
            exact hq (name, Ref.ptr c) hmemc c rfl x hx
          refine ⟨⟨_, by simp only [encRef, hcond, if_false, hget, hts]; rfl⟩, ?_, ?_⟩
          · intro b hr
            rcases Relation.ReflTransGen.cases_head hr with rfl | ⟨c, hac, hcb⟩
            · exact hmem
            · exact fun hbs => hedge c hac b hcb (List.mem_cons_of_mem _ hbs)
          · rintro ⟨b, hab, hba⟩
            exact hedge b hab a hba (List.mem_cons_self _ _)

/-- C12, as stated, fails: with Canonical enabled, the map with the two keys
`int64(1)` and `uint64(1)`, which are written alike, is encoded with two
entries; the map decoded from that holds one entry for the key 1, with the
value read last, and is encoded with one entry. -/
theorem canonical_idempotent_counterexample :
    Encode canonicalHandle collidingMap
      = Except.ok [Tok.mapHdr 2, Tok.uint 1, Tok.str [97], Tok.uint 1, Tok.str [98]] ∧
    Decode canonicalHandle [Tok.mapHdr 2, Tok.uint 1, Tok.str [97], Tok.uint 1, Tok.str [98]]
      = Except.ok (Val.map [(Val.uint 1, Val.str [98])]) ∧
    Encode canonicalHandle (Val.map [(Val.uint 1, Val.str [98])])
      = Except.ok [Tok.mapHdr 1, Tok.uint 1, Tok.str [98]] := by
  refine ⟨?_, ?_, ?_⟩
  · have h12 : entryLe ([Tok.uint 1], [Tok.str [97]]) ([Tok.uint 1], [Tok.str [98]]) :=
      le_refl _
    simp [Encode, canonicalHandle, collidingMap, encode, encodeEntries, emitEntries,
      List.insertionSort, List.orderedInsert, h12]
  · rfl
  · simp [Encode, canonicalHandle, encode, encodeEntries, emitEntries,
      List.insertionSort, List.orderedInsert]

/-- C12, amended: canonical idempotence for maps whose keys stay distinct.
With Canonical enabled, let `b` be the encoding of a value `m` none of whose
maps, nested ones included, has two keys with the same encoding.  `Decode`
returns a value for `b`, and that value encodes to `b` again, whatever the
iteration order `σ` of its maps; and `m` encodes to `b` whatever the iteration
order of its maps. -/
theorem canonical_idempotent (h : Handle) (hc : h.canonical = true)
    (σ : List (Val × Val) → List (Val × Val)) (hσ : ∀ l, List.Perm (σ l) l)
    (m : Val) (hk : keysDistinct true m = true) (b : List Tok)
    (hb : Encode h m = Except.ok b) :
    (∃ w, Decode h b = Except.ok w ∧ Encode h (reorder σ w) = Except.ok b) ∧
    Encode h (reorder σ m) = Except.ok b := by
  obtain ⟨hbe, hd⟩ := Encode_eq_ok h m b hb
  rw [hc] at hbe
  subst hbe
  have hbud := depthBudget_ge h true m [] hd
  simp only [List.append_nil] at hbud
  have g := good_of_le true _ m hbud
  have hkw := g.kd hk
  constructor
  · refine ⟨_, Decode_ok h true m hd, ?_⟩
    rw [materialize_of_keysDistinct _ hkw]
    have hw : h.maxDepth = 0 ∨
        nest (reorder σ (decodedAs true (depthBudget h (encode true m)) m)) ≤ h.maxDepth := by
      by_cases h0 : h.maxDepth = 0
      · exact Or.inl h0
      · right
        rw [nest_reorder σ hσ]
        have := nest_decoded_le g
        simpa [depthBudget, h0] using this
    have := Encode_ok h _ hw
    rw [hc, encode_reorder σ hσ _ hkw, g.enc] at this
    exact this
  · have := Encode_ok h (reorder σ m) (by rw [nest_reorder σ hσ]; exact hd)
    rw [hc, encode_reorder σ hσ m hk] at this
    exact this

/-- Witness for C12: a map with a nested map, the decoded maps traversed in
reverse order. -/
theorem canonical_idempotent_witness :
    canonicalHandle.canonical = true ∧ (∀ l : List (Val × Val), List.Perm l.reverse l) ∧
    keysDistinct true sampleMap = true ∧
    Encode canonicalHandle sampleMap = Except.ok (encode true sampleMap) ∧
    ∃ w, Decode canonicalHandle (encode true sampleMap) = Except.ok w ∧
      Encode canonicalHandle (reorder List.reverse w) = Except.ok (encode true sampleMap) :=
  ⟨rfl, List.reverse_perm, by decide, rfl,
    (canonical_idempotent canonicalHandle rfl List.reverse List.reverse_perm sampleMap
      (by decide) (encode true sampleMap) rfl).1⟩

/-- C14. Depth guard on decode: for the encoding of a value `v` whose container
nesting is deeper than a configured `MaxDepth` M > 0, decoding fails with
exactly the depth-exceeded error, into a generic target and into a struct
target that has no field for any key of the encoded map, so that the nested
data is only swallowed; when the nesting is at most M, or M = 0, decoding
returns no error (and leaves such a struct target as it was). -/
theorem decode_depth_guard (h : Handle) (c : Bool) (v : Val) :
    (0 < h.maxDepth → h.maxDepth < nest v →
      Decode h (encode c v) = Except.error Err.depthExceeded ∧
      ∀ ds vals l, v = Val.map l → Unmatched ds l →
        DecodeStruct h ds vals (encode c v) = Except.error Err.depthExceeded) ∧
    (h.maxDepth = 0 ∨ nest v ≤ h.maxDepth →
      (∃ w, Decode h (encode c v) = Except.ok w) ∧
      ∀ ds vals l, v = Val.map l → Unmatched ds l →
        DecodeStruct h ds vals (encode c v) = Except.ok vals) := by
  constructor
  · intro h0 hd
    refine ⟨Decode_deep h c v h0 hd, ?_⟩
    intro ds vals l hv hu
    subst hv
    exact DecodeStruct_deep h c ds vals l hu h0 hd
  · intro hd
    refine ⟨⟨_, Decode_ok h c v hd⟩, ?_⟩
    intro ds vals l hv hu
    subst hv
    exact DecodeStruct_ok h c ds vals l hu hd

/-- C16. Declared-length distrust: a map header declaring more pairs than the
input that follows holds makes the decode fail with the end-of-input error,
for a typed map target (whatever the decoders `decK`, `decV` of its key and
value types) and for a generic target alike; so does an extension header
declaring more bytes than follow.  The inputs of
`TestMsgpackDecodeMapAndExtSizeMismatch` are instances: a map header declaring
`0x10eeeeee` pairs followed by one pair, into `map[int]string` and
`map[int][]byte`, and an extension header declaring `0x7fffffff` bytes followed
by one byte, into a generic target. -/
theorem declared_length_distrust (h : Handle) :
    (∀ (decK decV : List Tok → Except Err (Val × List Tok)) (n : Nat) (toks : List Tok)
        (ps : List (Val × Val)),
      decK [] = Except.error Err.endOfInput →
      decodePairs decK decV ps.length toks = Except.ok (ps, []) → ps.length < n →
      DecodeMap h decK decV (Tok.mapHdr n :: toks) = Except.error Err.endOfInput) ∧
    (∀ (n : Nat) (toks : List Tok) (ps : List (Val × Val)),
      decodePairs (decodeVal (depthBudget h (Tok.mapHdr n :: toks) - 1))
        (decodeVal (depthBudget h (Tok.mapHdr n :: toks) - 1)) ps.length toks
        = Except.ok (ps, []) → ps.length < n →
      Decode h (Tok.mapHdr n :: toks) = Except.error Err.endOfInput) ∧
    (∀ (tag n : Nat) (data : List Nat), data.length < n →
      Decode h (Tok.extHdr tag n :: data.map Tok.raw) = Except.error Err.endOfInput) ∧
    DecodeMap h decodeInt decodeStr [Tok.mapHdr 0x10eeeeee, Tok.uint 1, Tok.str [1]]
      = Except.error Err.endOfInput ∧
    DecodeMap h decodeInt decodeBytes [Tok.mapHdr 0x10eeeeee, Tok.uint 1, Tok.str [1]]
      = Except.error Err.endOfInput ∧
    Decode h [Tok.extHdr 0xda 0x7fffffff, Tok.raw 1] = Except.error Err.endOfInput := by
  have hmap : ∀ (decK decV : List Tok → Except Err (Val × List Tok)) (n : Nat) (toks : List Tok)
        (ps : List (Val × Val)),
      decK [] = Except.error Err.endOfInput →
      decodePairs decK decV ps.length toks = Except.ok (ps, []) → ps.length < n →
      DecodeMap h decK decV (Tok.mapHdr n :: toks) = Except.error Err.endOfInput := by
    intro decK decV n toks ps hK hps hn
    obtain ⟨d, hd⟩ := depthBudget_cons_pos h (Tok.mapHdr n) toks
    have e : n = ps.length + (n - ps.length - 1) + 1 := by omega
    have := decodePairs_short decK decV hK (n - ps.length - 1) ps.length toks ps hps
    rw [← e] at this
    simp only [DecodeMap, hd, decodeMap, this]
  have hext : ∀ (tag n : Nat) (data : List Nat), data.length < n →
      Decode h (Tok.extHdr tag n :: data.map Tok.raw) = Except.error Err.endOfInput := by
    intro tag n data hn
    simp only [Decode, decodeVal, readRaw_short n data hn]
  refine ⟨hmap, ?_, hext, ?_, ?_, ?_⟩
  · intro n toks ps hps hn
    obtain ⟨d, hd⟩ := depthBudget_cons_pos h (Tok.mapHdr n) toks
    rw [hd] at hps
    simp only [Nat.add_sub_cancel] at hps
    have e : n = ps.length + (n - ps.length - 1) + 1 := by omega
    have := decodePairs_short (decodeVal d) (decodeVal d) (by cases d <;> rfl)
      (n - ps.length - 1) ps.length toks ps hps
    rw [← e] at this
    simp only [Decode, hd, decodeVal, this]
  · exact hmap decodeInt decodeStr _ [Tok.uint 1, Tok.str [1]] [(Val.int 1, Val.str [1])]
      rfl rfl (by decide)
  · exact hmap decodeInt decodeBytes _ [Tok.uint 1, Tok.str [1]] [(Val.int 1, Val.bin [1])]
      rfl rfl (by decide)
  · exact hext 0xda 0x7fffffff [1] (by decide)

/-- C18. Swallow: let `b` be the encoding of a value by `Encode`, followed by
any further input `r`.  Whenever a decode of the value at the start of `b ++ r`
returns, leaving the input `r'`, swallow leaves the same `r'`, which is `r`:
exactly `b` is consumed; both do return when `MaxDepth` is 0 or at least the
nesting of the value.  Swallow returns the unread input only: it materialises
nothing. -/
theorem swallow_consumes_encoding (h : Handle) (v : Val) (b r : List Tok)
    (hb : Encode h v = Except.ok b) :
    (∀ w r', decodeVal (depthBudget h (b ++ r)) (b ++ r) = Except.ok (w, r') →
      Swallow h (b ++ r) = Except.ok r' ∧ r' = r) ∧
    (h.maxDepth = 0 ∨ nest v ≤ h.maxDepth →
      Swallow h (b ++ r) = Except.ok r ∧
      ∃ w, decodeVal (depthBudget h (b ++ r)) (b ++ r) = Except.ok (w, r)) := by
  obtain ⟨hbe, _⟩ := Encode_eq_ok h v b hb
  subst hbe
  constructor
  · intro w r' hw
    rcases Nat.lt_or_ge (depthBudget h (encode h.canonical v ++ r)) (nest v) with hd | hd
    · rw [((swallow_eq_of_decode h.canonical v _ r).2 hd).2] at hw
      cases hw
    · have g := (swallow_eq_of_decode h.canonical v _ r).1 hd
      rw [g.2] at hw
      simp only [Except.ok.injEq, Prod.mk.injEq] at hw
      rw [← hw.2]
      exact ⟨g.1, rfl⟩
  · intro hd
    have g := (swallow_eq_of_decode h.canonical v _ r).1 (depthBudget_ge h h.canonical v r hd)
    exact ⟨g.1, _, g.2⟩

/-- Witness for C18: the sample map followed by one more token. -/
theorem swallow_consumes_encoding_witness :
    Encode defaultHandle sampleMap = Except.ok (encode false sampleMap) ∧
    Swallow defaultHandle (encode false sampleMap ++ [Tok.nil]) = Except.ok [Tok.nil] :=
  ⟨rfl, ((swallow_consumes_encoding defaultHandle sampleMap (encode false sampleMap) [Tok.nil]
    rfl).2 (Or.inl rfl)).1⟩

/-- C17, as stated, fails: a struct whose direct field `X` is flagged
omit-empty and zero, and which embeds a struct with an unflagged field `X`
holding 5, encodes to the empty map, the direct field shadowing the embedded
one and being skipped; the struct that declares only the remaining field
encodes `X` as 5. -/
theorem omitempty_shadowing_counterexample :
    (∀ c ∈ candsList 0 omitemptyShadow, c.decl.omitEmpty = true → isEmptyVal c.v = true) ∧
    encodeStruct defaultHandle (candsList 0 omitemptyShadow) = [Tok.mapHdr 0] ∧
    encodeStruct defaultHandle (candsList 0 (dropOmitEmptyList omitemptyShadow))
      = [Tok.mapHdr 1, Tok.str [88], Tok.uint 5] ∧
    encodeStruct defaultHandle (candsList 0 omitemptyShadow)
      ≠ encodeStruct defaultHandle (candsList 0 (dropOmitEmptyList omitemptyShadow)) := by
  refine ⟨?_, rfl, rfl, ?_⟩
  · intro c hc ho
    simp only [omitemptyShadow, candsList, Field.cands, List.append_nil, List.cons_append,
      List.nil_append, List.mem_cons, List.mem_singleton, List.not_mem_nil, or_false] at hc
    rcases hc with rfl | rfl
    · rfl
    · cases ho
  · intro h
    have h1 : encodeStruct defaultHandle (candsList 0 omitemptyShadow) = [Tok.mapHdr 0] := rfl
    have h2 : encodeStruct defaultHandle (candsList 0 (dropOmitEmptyList omitemptyShadow))
      = [Tok.mapHdr 1, Tok.str [88], Tok.uint 5] := rfl
    rw [h1, h2] at h
    cases h

/-- C17, amended: with StructToArray off, for every struct value whose
omit-empty-flagged fields all hold the empty value of their shape, and none of
whose flagged fields shares its encoded name with an unflagged field, the
encoding is identical to the encoding of the struct that declares only the
remaining fields with the same names and values. -/
theorem omitempty_as_absent (h : Handle) (hs : h.structToArray = false) (fs : List Field)
    (hempty : ∀ c ∈ candsList 0 fs, c.decl.omitEmpty = true → isEmptyVal c.v = true)
    (huniq : ∀ c ∈ candsList 0 fs, c.decl.omitEmpty = true →
      ∀ x ∈ candsList 0 fs, x.decl.omitEmpty = false → x.decl.name ≠ c.decl.name) :
    encodeStruct h (candsList 0 fs) = encodeStruct h (candsList 0 (dropOmitEmptyList fs)) := by
  have hu : ∀ c ∈ ([] : List Decl) ++ (candsList 0 fs).map Cand.decl, c.omitEmpty = true →
      ∀ x ∈ ([] : List Decl) ++ (candsList 0 fs).map Cand.decl, x.omitEmpty = false →
        x.name ≠ c.name := by
    intro c hc ho x hx hxo
    simp only [List.nil_append, List.mem_map] at hc hx
    obtain ⟨c', hc', rfl⟩ := hc
    obtain ⟨x', hx', rfl⟩ := hx
    exact huniq c' hc' ho x' hx' hxo
  have ht := tableFrom_filter [] (candsList 0 fs) hu
  simp only [List.filter_nil] at ht
  have e1 : (fieldTable (candsList 0 fs)).filter Cand.emitted
      = (fieldTable (candsList 0 fs)).filter (fun c => !c.decl.omitEmpty) := by
    apply List.filter_congr
    intro c hc
    have hm := tableFrom_subset [] _ c hc
    unfold Cand.emitted
    cases ho : c.decl.omitEmpty
    · rfl
    · simp [hempty c hm ho]
  have e2 : (fieldTable (candsList 0 (dropOmitEmptyList fs))).filter Cand.emitted
      = fieldTable (candsList 0 (dropOmitEmptyList fs)) := by
    rw [List.filter_eq_self]
    intro c hc
    have hm := tableFrom_subset [] _ c hc
    rw [candsList_dropOmitEmpty] at hm
    have := (List.mem_filter.mp hm).2
    unfold Cand.emitted
    simp only [Bool.not_eq_true'] at this
    simp [this]
  unfold encodeStruct
  rw [hs]
  simp only [Bool.false_eq_true, if_false, e1, e2]
  unfold fieldTable
  rw [ht, candsList_dropOmitEmpty]

/-- Witness for C17: the zero values of `T1` and `T2` of `doTestOmitempty`
encode alike. -/
theorem omitempty_as_absent_witness :
    defaultHandle.structToArray = false ∧ dropOmitEmptyList omitemptyT1 = omitemptyT2 ∧
    encodeStruct defaultHandle (candsList 0 omitemptyT1)
      = encodeStruct defaultHandle (candsList 0 omitemptyT2) :=
  ⟨rfl, rfl, omitempty_as_absent defaultHandle rfl omitemptyT1
    (by
      intro c hc ho
      simp only [omitemptyT1, candsList, Field.cands, List.append_nil, List.cons_append,
        List.nil_append, List.mem_cons, List.mem_singleton, List.not_mem_nil, or_false] at hc
      rcases hc with rfl | rfl | rfl
      · cases ho
      · rfl
      · rfl)
    (by
      intro c hc ho x hx hxo
      simp only [omitemptyT1, candsList, Field.cands, List.append_nil, List.cons_append,
        List.nil_append, List.mem_cons, List.mem_singleton, List.not_mem_nil, or_false] at hc hx
      rcases hc with rfl | rfl | rfl <;> rcases hx with rfl | rfl | rfl <;> simp_all)⟩

/-- C19. Embedded-field shadowing: let a struct declare the field `cD` directly,
first among the direct fields of its encoded name, whatever fields of that name
embedded structs contribute before (`pre`) or after it (`post`).  Then `cD` is
the one field of the field table under that name, the one encoded, and the name
denotes its position on decode.  Whenever decoding the encoding of the struct
into a target of the same type returns, the direct field of the target holds
the value `w` that decoding the encoding of the value of `cD` yields (its prior
value if `cD` was skipped as omit-empty), and every other field of that name
keeps its prior value; the decode does return when `MaxDepth` is 0 or above the
nesting of every field value. -/
theorem embedded_shadowing (h : Handle) (hs : h.structToArray = false)
    (pre post : List Cand) (cD : Cand) (vals : List Val)
    (hdir : cD.decl.depth = 0)
    (hfirst : ∀ x ∈ pre, x.decl.name = cD.decl.name → 0 < x.decl.depth)
    (hlen : vals.length = (pre ++ cD :: post).length) :
    cD ∈ fieldTable (pre ++ cD :: post) ∧
    (∀ f ∈ fieldTable (pre ++ cD :: post), f.decl.name = cD.decl.name → f = cD) ∧
    winnerIdx ((pre ++ cD :: post).map Cand.decl) cD.decl.name = some pre.length ∧
    (∀ rs, DecodeStruct h ((pre ++ cD :: post).map Cand.decl) vals
        (encodeStruct h (pre ++ cD :: post)) = Except.ok rs →
      rs.length = vals.length ∧
      (cD.emitted = true → ∃ w d, rs.get? pre.length = some w ∧
        decodeVal d (encode h.canonical cD.v) = Except.ok (w, []) ∧
        encode h.canonical w = encode h.canonical cD.v) ∧
      (cD.emitted = false → rs.get? pre.length = vals.get? pre.length) ∧
      (∀ q x, q ≠ pre.length → ((pre ++ cD :: post).map Cand.decl).get? q = some x →
        x.name = cD.decl.name → rs.get? q = vals.get? q)) ∧
    ((h.maxDepth = 0 ∨ ∀ c ∈ pre ++ cD :: post, nest c.v < h.maxDepth) →
      ∃ rs, DecodeStruct h ((pre ++ cD :: post).map Cand.decl) vals
        (encodeStruct h (pre ++ cD :: post)) = Except.ok rs) := by
  have hwin : wins (pre.map Cand.decl) (post.map Cand.decl) cD.decl = true := by
    unfold wins
    simp only [Bool.and_eq_true, List.all_eq_true, decide_eq_true_eq, List.mem_map]
    constructor
    · rintro x ⟨y, hy, rfl⟩
      by_cases hn : y.decl.name = cD.decl.name
      · right; rw [hdir]; exact hfirst y hy hn
      · left; exact hn
    · rintro x ⟨y, _, rfl⟩
      right; rw [hdir]; exact Nat.zero_le _
  have hds : (pre ++ cD :: post).map Cand.decl
      = pre.map Cand.decl ++ cD.decl :: post.map Cand.decl := by simp
  have hidx : winnerIdx ((pre ++ cD :: post).map Cand.decl) cD.decl.name = some pre.length := by
    rw [hds]
    have := winnerIdxFrom_at cD.decl.name cD.decl (post.map Cand.decl) rfl
      (pre.map Cand.decl) [] (by simpa using hwin)
    simpa [winnerIdx] using this
  have hmem : cD ∈ fieldTable (pre ++ cD :: post) :=
    tableFrom_mem cD post pre [] (by simpa using hwin)
  have huniq : ∀ f ∈ fieldTable (pre ++ cD :: post), f.decl.name = cD.decl.name → f = cD := by
    intro f hf hn
    obtain ⟨l1, l2, hl, hw⟩ := mem_tableFrom _ [] hf
    have h1 := winnerIdxFrom_at f.decl.name f.decl (l2.map Cand.decl) rfl
      (l1.map Cand.decl) [] hw
    have h2 : winnerIdx ((pre ++ cD :: post).map Cand.decl) f.decl.name = some l1.length := by
      rw [hl]
      simpa [winnerIdx] using h1
    rw [hn, hidx] at h2
    simp only [Option.some.injEq] at h2
    have := List.append_inj hl h2
    simp only [List.cons.injEq] at this
    exact this.2.1.symm
  have hget : ((pre ++ cD :: post).map Cand.decl).get? pre.length = some cD.decl := by
    rw [hds, List.get?_eq_getElem?, List.getElem?_append_right (by simp)]
    simp
  have hkey : ∀ f ∈ fieldTable (pre ++ cD :: post), ∀ q,
      winnerIdx ((pre ++ cD :: post).map Cand.decl) f.decl.name = some q →
      ∃ x, ((pre ++ cD :: post).map Cand.decl).get? q = some x ∧ x.name = f.decl.name := by
    intro f _ q hq
    obtain ⟨j, x, hj, hx, hxn⟩ := winnerIdxFrom_name _ _ [] q hq
    simp only [List.length_nil, Nat.zero_add] at hj
    subst hj
    exact ⟨x, hx, hxn⟩
  have hp : ∀ f ∈ fieldTable (pre ++ cD :: post),
      winnerIdx ((pre ++ cD :: post).map Cand.decl) f.decl.name = some pre.length → f = cD := by
    intro f hf hq
    obtain ⟨x, hx, hxn⟩ := hkey f hf _ hq
    rw [hget] at hx
    simp only [Option.some.injEq] at hx
    subst hx
    exact huniq f hf hxn.symm
  obtain ⟨d, hd⟩ := depthBudget_cons_pos h
    (Tok.mapHdr ((fieldTable (pre ++ cD :: post)).filter Cand.emitted).length)
    (flatFields h.canonical ((fieldTable (pre ++ cD :: post)).filter Cand.emitted))
  have hrun : DecodeStruct h ((pre ++ cD :: post).map Cand.decl) vals
        (encodeStruct h (pre ++ cD :: post))
      = match decodeFields d ((pre ++ cD :: post).map Cand.decl)
          ((fieldTable (pre ++ cD :: post)).filter Cand.emitted).length
          (flatFields h.canonical ((fieldTable (pre ++ cD :: post)).filter Cand.emitted)) vals with
        | Except.error e => Except.error e
        | Except.ok (rs, _) => Except.ok rs := by
    unfold DecodeStruct encodeStruct
    rw [hs]
    simp only [Bool.false_eq_true, if_false, hd, decodeStruct]
  by_cases hall : ∀ f ∈ (fieldTable (pre ++ cD :: post)).filter Cand.emitted, nest f.v ≤ d
  · have hdec := decodeFields_fields h.canonical d ((pre ++ cD :: post).map Cand.decl) []
      ((fieldTable (pre ++ cD :: post)).filter Cand.emitted) vals hall
    simp only [List.append_nil] at hdec
    rw [hdec] at hrun
    refine ⟨hmem, huniq, hidx, ?_, fun _ => ⟨_, hrun⟩⟩
    intro rs hrs
    rw [hrun] at hrs
    simp only [Except.ok.injEq] at hrs
    subst hrs
    refine ⟨storeAll_length _ _ _ _ _, ?_, ?_, ?_⟩
    · intro hem
      have hD : nest cD.v ≤ d := hall cD (List.mem_filter.mpr ⟨hmem, hem⟩)
      have g := good_of_le h.canonical d cD.v hD
      refine ⟨decodedAs h.canonical d cD.v, d, ?_, by simpa using g.dec [], g.enc⟩
      apply storeAll_hit
      · intro f hf hq
        rw [hp f (List.mem_filter.mp hf).1 hq]
      · rw [hlen]; simp
      · exact Or.inl ⟨cD, List.mem_filter.mpr ⟨hmem, hem⟩, hidx⟩
    · intro hem
      apply storeAll_keep
      intro f hf hq
      have := hp f (List.mem_filter.mp hf).1 hq
      subst this
      rw [(List.mem_filter.mp hf).2] at hem
      cases hem
    · intro q x hq hx hxn
      apply storeAll_keep
      intro f hf hfq
      obtain ⟨y, hy, hyn⟩ := hkey f (List.mem_filter.mp hf).1 q hfq
      rw [hx] at hy
      simp only [Option.some.injEq] at hy
      subst hy
      have hfD := huniq f (List.mem_filter.mp hf).1 (by rw [← hyn, hxn])
      subst hfD
      rw [hidx] at hfq
      simp only [Option.some.injEq] at hfq
      exact hq hfq.symm
  · have hex : ∃ f ∈ (fieldTable (pre ++ cD :: post)).filter Cand.emitted, d < nest f.v := by
      by_contra hne
      apply hall
      intro f hf
      by_contra hlt
      exact hne ⟨f, hf, by omega⟩
    have hdec := decodeFields_deep h.canonical d ((pre ++ cD :: post).map Cand.decl) []
      ((fieldTable (pre ++ cD :: post)).filter Cand.emitted) vals hex
    simp only [List.append_nil] at hdec
    rw [hdec] at hrun
    refine ⟨hmem, huniq, hidx, ?_, ?_⟩
    · intro rs hrs
      rw [hrun] at hrs
      cases hrs
    · intro hdepth
      exfalso
      obtain ⟨f, hf, hfd⟩ := hex
      have hfc : f ∈ pre ++ cD :: post := tableFrom_subset [] _ f (List.mem_filter.mp hf).1
      unfold depthBudget at hd
      split at hd
      · have h1 := flatFields_length_ge h.canonical _ f hf
        have h2 := nest_le_length h.canonical f.v
        simp only [List.length_cons] at hd
        omega
      · rcases hdepth with h0 | hlt
        · contradiction
        · have := hlt f hfc
          omega

/-- Witness for C19: the struct of `doTestEmbeddedFieldPrecedence`, decoded
into the zero value of the same type: the direct field reads back 1, the
embedded one stays zero. -/
theorem embedded_shadowing_witness :
    candsList 0 precedenceStruct
      = [] ++ (⟨⟨[70, 105, 101, 108, 100], 0, false⟩, Val.uint 1⟩ : Cand)
          :: [⟨⟨[70, 105, 101, 108, 100], 1, false⟩, Val.uint 2⟩] ∧
    encodeStruct defaultHandle (candsList 0 precedenceStruct)
      = [Tok.mapHdr 1, Tok.str [70, 105, 101, 108, 100], Tok.uint 1] ∧
    DecodeStruct defaultHandle ((candsList 0 precedenceStruct).map Cand.decl)
        [Val.uint 0, Val.uint 0] (encodeStruct defaultHandle (candsList 0 precedenceStruct))
      = Except.ok [Val.uint 1, Val.uint 0] ∧
    winnerIdx
      (([] ++ (⟨⟨[70, 105, 101, 108, 100], 0, false⟩, Val.uint 1⟩ : Cand)
          :: [⟨⟨[70, 105, 101, 108, 100], 1, false⟩, Val.uint 2⟩]).map Cand.decl)
      [70, 105, 101, 108, 100] = some 0 :=
  ⟨rfl, rfl, rfl,
    (embedded_shadowing defaultHandle rfl []
      [⟨⟨[70, 105, 101, 108, 100], 1, false⟩, Val.uint 2⟩]
      ⟨⟨[70, 105, 101, 108, 100], 0, false⟩, Val.uint 1⟩ [Val.uint 0, Val.uint 0]
      rfl (by intro x hx; cases hx) rfl).2.2.1⟩

theorem nest_mchain (k i : Nat) : nest (mchain k i) = k + 1 := by
  induction k generalizing i with
  | zero => simp [mchain, nest, nestPairs]
  | succ k ih => simp [mchain, nest, nestPairs, ih]

theorem nest_sfunc (n : Nat) (x : Val) : nest (sfunc n x) = n + 1 + nest x := by
  induction n with
  | zero => simp [sfunc, nest, nestList]; omega
  | succ n ih => simp [sfunc, nest, nestList, ih]; omega

theorem nest_maxDepthS : nest maxDepthS = 12 := by
  simp [maxDepthS, mfunc, nest_sfunc, nest_mchain]

theorem maxDepthM99_eq : maxDepthM99 = Val.map [(Val.str (keyA 0), mchain 98 1)] := rfl

theorem nest_maxDepthM99 : nest (Val.map [(Val.str (keyA 0), mchain 98 1)]) = 100 := by
  have hs : nest (Val.str (keyA 0)) = 0 := rfl
  rw [nest]
  simp only [nestPairs, hs, nest_mchain]
  decide

theorem unmatched_maxDepthM99 : Unmatched maxDepthT1 [(Val.str (keyA 0), mchain 98 1)] := by
  intro p hp
  simp only [List.mem_singleton] at hp
  subst hp
  exact ⟨keyA 0, rfl, by decide⟩

theorem maxDepthRound_intf (E : TestEngine) (I : Val) (M : Nat) (e : Option Err) (b : List Tok)
    (hm : E.marshal M I = Except.ok b) (hd : errOf (E.unmarshalIntf M b) = e) :
    maxDepthRound E ⟨I, M, false, e⟩ = true := by
  unfold maxDepthRound
  simp only [hm, Bool.false_eq_true, if_false, hd, decide_True]

theorem maxDepthRound_T1 (E : TestEngine) (I : Val) (M : Nat) (e : Option Err) (b : List Tok)
    (hm : E.marshal M I = Except.ok b) (hd : errOf (E.unmarshalT1 M b) = e) :
    maxDepthRound E ⟨I, M, true, e⟩ = true := by
  unfold maxDepthRound
  simp only [hm, if_true, hd, decide_True]

theorem unguardedEngine_marshal (M : Nat) (v : Val) :
    unguardedEngine.marshal M v = Except.ok (encode false v) := rfl

theorem unguardedEngine_unmarshalIntf (M : Nat) (b : List Tok) :
    unguardedEngine.unmarshalIntf M b = Decode ⟨false, false, false, M⟩ b := rfl

theorem unguardedEngine_unmarshalT1 (M : Nat) (b : List Tok) :
    unguardedEngine.unmarshalT1 M b
      = DecodeStruct ⟨false, false, false, M⟩ maxDepthT1 [Val.nil] b :=
  rfl

/-- The engine whose encoder ignores `MaxDepth` passes `doTestMaxDepth`. -/
theorem unguardedEngine_passes : doTestMaxDepth unguardedEngine = true := by
  have r1 := Decode_ok ⟨false, false, false, 0⟩ false maxDepthS (Or.inl rfl)
  have r2 := Decode_ok ⟨false, false, false, 256⟩ false maxDepthS
    (Or.inr (by rw [nest_maxDepthS]; decide))
  have r3 := Decode_deep ⟨false, false, false, 7⟩ false maxDepthS (by decide)
    (by rw [nest_maxDepthS]; decide)
  have r4 := Decode_ok ⟨false, false, false, 15⟩ false maxDepthS
    (Or.inr (by rw [nest_maxDepthS]; decide))
  have r5 := DecodeStruct_deep ⟨false, false, false, 15⟩ false maxDepthT1 [Val.nil] _
    unmatched_maxDepthM99 (by decide) (by rw [nest_maxDepthM99]; decide)
  have r6 := DecodeStruct_ok ⟨false, false, false, 215⟩ false maxDepthT1 [Val.nil] _
    unmatched_maxDepthM99 (Or.inr (by rw [nest_maxDepthM99]; decide))
  rw [← maxDepthM99_eq] at r5 r6
  have q1 := maxDepthRound_intf unguardedEngine maxDepthS 0 none _
    (unguardedEngine_marshal _ _) (by rw [unguardedEngine_unmarshalIntf, r1]; rfl)
  have q2 := maxDepthRound_intf unguardedEngine maxDepthS 256 none _
    (unguardedEngine_marshal _ _) (by rw [unguardedEngine_unmarshalIntf, r2]; rfl)
  have q3 := maxDepthRound_intf unguardedEngine maxDepthS 7 (some Err.depthExceeded) _
    (unguardedEngine_marshal _ _) (by rw [unguardedEngine_unmarshalIntf, r3]; rfl)
  have q4 := maxDepthRound_intf unguardedEngine maxDepthS 15 none _
    (unguardedEngine_marshal _ _) (by rw [unguardedEngine_unmarshalIntf, r4]; rfl)
  have q5 := maxDepthRound_T1 unguardedEngine maxDepthM99 15 (some Err.depthExceeded) _
    (unguardedEngine_marshal _ _) (by rw [unguardedEngine_unmarshalT1, r5]; rfl)
  have q6 := maxDepthRound_T1 unguardedEngine maxDepthM99 215 none _
    (unguardedEngine_marshal _ _) (by rw [unguardedEngine_unmarshalT1, r6]; rfl)
  simp only [doTestMaxDepth, maxDepthTable, List.all_cons, List.all_nil, Bool.and_true,
    q1, q2, q3, q4, q5, q6]

/-- The encoder that follows the depth guard of the specification refuses the
structure `s` of `doTestMaxDepth` under `MaxDepth = 7`. -/
theorem Encode_maxDepthS_7 :
    Encode ⟨false, false, false, 7⟩ maxDepthS = Except.error Err.depthExceeded :=
  Encode_deep ⟨false, false, false, 7⟩ maxDepthS (by decide) (by rw [nest_maxDepthS]; decide)

/-- The engine whose encoder has the depth guard of the specification fails
`doTestMaxDepth`, in the third round. -/
theorem specEngine_fails : doTestMaxDepth specEngine = false := by
  have q3 : maxDepthRound specEngine ⟨maxDepthS, 7, false, some Err.depthExceeded⟩ = false := by
    have hm : specEngine.marshal 7 maxDepthS = Except.error Err.depthExceeded :=
      Encode_maxDepthS_7
    unfold maxDepthRound
    simp only [hm]
  simp only [doTestMaxDepth, maxDepthTable, List.all_cons, List.all_nil, q3,
    Bool.false_and, Bool.and_false]

/-- C13, as stated, fails: the structure `s` of `doTestMaxDepth` has nesting
depth 12; the test encodes it under `MaxDepth = 7` (third row of its table) and
fails unless the encode returns without error, so that every engine that
passes the test encodes a structure of depth 12 under `MaxDepth = 7`.  The
encoder with the depth guard of the specification returns the depth-exceeded
error there, and an engine with that encoder fails the test, which an engine
whose encoder ignores `MaxDepth` passes. -/
theorem doTestMaxDepth_encode_counterexample :
    nest maxDepthS = 12 ∧
    maxDepthTable.get? 2 = some ⟨maxDepthS, 7, false, some Err.depthExceeded⟩ ∧
    (∀ E : TestEngine, doTestMaxDepth E = true → ∃ b, E.marshal 7 maxDepthS = Except.ok b) ∧
    Encode ⟨false, false, false, 7⟩ maxDepthS = Except.error Err.depthExceeded ∧
    doTestMaxDepth specEngine = false ∧
    doTestMaxDepth unguardedEngine = true := by
  refine ⟨nest_maxDepthS, rfl, ?_, Encode_maxDepthS_7, specEngine_fails, unguardedEngine_passes⟩
  intro E hE
  simp only [doTestMaxDepth, maxDepthTable, List.all_cons, List.all_nil, Bool.and_true,
    Bool.and_eq_true] at hE
  have h3 := hE.2.2.1
  unfold maxDepthRound at h3
  cases hm : E.marshal 7 maxDepthS with
  | ok b => exact ⟨b, rfl⟩
  | error e => simp [hm] at h3

/-- C13, amended: with `MaxDepth` at least the nesting depth of a value, or
with `MaxDepth = 0` (unbounded), `Encode` succeeds, for every value.  With
`MaxDepth` below the nesting depth the encode need not fail: every engine that
passes `doTestMaxDepth` encodes the value of every row of its table without
error under the `MaxDepth` of the row, among them the structure `s` of depth 12
under `MaxDepth = 7` and the map `m99` of depth 100 under `MaxDepth = 15`, and
reports the depth-exceeded error from the decode of these two encodings. -/
theorem doTestMaxDepth_encode (E : TestEngine) (hE : doTestMaxDepth E = true) :
    (∀ (h : Handle) (v : Val), h.maxDepth = 0 ∨ nest v ≤ h.maxDepth →
      Encode h v = Except.ok (encode h.canonical v)) ∧
    (∀ row ∈ maxDepthTable, ∃ b, E.marshal row.M row.I = Except.ok b) ∧
    nest maxDepthS = 12 ∧
    (∃ b, E.marshal 7 maxDepthS = Except.ok b ∧
      errOf (E.unmarshalIntf 7 b) = some Err.depthExceeded) ∧
    nest maxDepthM99 = 100 ∧
    (∃ b, E.marshal 15 maxDepthM99 = Except.ok b ∧
      errOf (E.unmarshalT1 15 b) = some Err.depthExceeded) := by
  have hall : ∀ row ∈ maxDepthTable, maxDepthRound E row = true := by
    intro row hrow
    exact List.all_eq_true.mp hE row hrow
  have hround : ∀ row : MaxDepthRow, maxDepthRound E row = true →
      ∃ b, E.marshal row.M row.I = Except.ok b ∧
        (if row.S then errOf (E.unmarshalT1 row.M b) else errOf (E.unmarshalIntf row.M b))
          = row.E := by
    intro row hr
    unfold maxDepthRound at hr
    cases hm : E.marshal row.M row.I with
    | ok b =>
      rw [hm] at hr
      exact ⟨b, rfl, by simpa using hr⟩
    | error e => rw [hm] at hr; cases hr
  refine ⟨Encode_ok, ?_, nest_maxDepthS, ?_, by rw [maxDepthM99_eq]; exact nest_maxDepthM99, ?_⟩
  · intro row hrow
    obtain ⟨b, hb, _⟩ := hround row (hall row hrow)
    exact ⟨b, hb⟩
  · obtain ⟨b, hb, he⟩ := hround ⟨maxDepthS, 7, false, some Err.depthExceeded⟩
      (hall _ (by simp [maxDepthTable]))
    exact ⟨b, hb, by simpa using he⟩
  · obtain ⟨b, hb, he⟩ := hround ⟨maxDepthM99, 15, true, some Err.depthExceeded⟩
      (hall _ (by simp [maxDepthTable]))
    exact ⟨b, hb, by simpa using he⟩

/-- Witness for C13: the engine whose encoder ignores `MaxDepth` passes
`doTestMaxDepth`. -/
theorem doTestMaxDepth_encode_witness :
    doTestMaxDepth unguardedEngine = true ∧
    ∀ row ∈ maxDepthTable, ∃ b, unguardedEngine.marshal row.M row.I = Except.ok b :=
  ⟨unguardedEngine_passes, (doTestMaxDepth_encode unguardedEngine unguardedEngine_passes).2.1⟩

/-- C15. Cycle detection: with CheckCircularRef enabled, for every struct that
reaches itself through a chain of pointers, the encode traversal returns, given
fuel for more descents than the heap has structs, and returns the
circular-reference error. -/
theorem cycle_detected (heap : Heap) (h : Handle) (hc : h.checkCircularRef = true) (a : Nat)
    (hcyc : Cyclic heap a) (fuel : Nat) (hf : heap.length < fuel) :
    encRef heap h fuel [] (Ref.ptr a) = some (Except.error Err.circularReference) := by
  rcases encRef_ptr heap h hc fuel [] a List.nodup_nil (fun x hx => by cases hx)
    (by simpa using hf) with h1 | ⟨_, _, h3⟩
  · exact h1
  · exact absurd hcyc h3

/-- Witness for C15: the structs of `doTestEncCircularRef`: `t3` points to `t2`,
`t2` to `t1`, and the interface field of `t1` holds the pointer to `t3`. -/
theorem cycle_detected_witness :
    checkingHandle.checkCircularRef = true ∧ Cyclic circularHeap 0 ∧
    encRef circularHeap checkingHandle 4 [] (Ref.ptr 0)
      = some (Except.error Err.circularReference) :=
  ⟨rfl,
    ⟨1, ⟨_, rfl, [84], by simp⟩,
      Relation.ReflTransGen.head (⟨_, rfl, [84], by simp⟩ : Edge circularHeap 1 2)
        (Relation.ReflTransGen.single (⟨_, rfl, [84], by simp⟩ : Edge circularHeap 2 0))⟩,
    cycle_detected circularHeap checkingHandle rfl 0
      ⟨1, ⟨_, rfl, [84], by simp⟩,
        Relation.ReflTransGen.head (⟨_, rfl, [84], by simp⟩ : Edge circularHeap 1 2)
          (Relation.ReflTransGen.single (⟨_, rfl, [84], by simp⟩ : Edge circularHeap 2 0))⟩
      4 (by decide)⟩

end Engine

/-! ## Claims on the value hooks -/

theorem int64_uint64 (v : Int) (h1 : -2 ^ 63 ≤ v) (h2 : v < 2 ^ 63) :
    int64 ((uint64 v : Nat) : Int) = v := by
  unfold int64 uint64
  norm_num at h1 h2 ⊢
  omega

theorem timeUnix_zero (v : Int) (h1 : -2 ^ 63 ≤ v) (h2 : v < 2 ^ 63) :
    (timeUnix 0 v).1 * 1000000000 + ((timeUnix 0 v).2 : Int) = v ∧ (timeUnix 0 v).2 < 1000000000 := by
  norm_num at h1 h2
  unfold timeUnix
  by_cases hv : 0 ≤ v
  · have e : v.tdiv 1000000000 = v / 1000000000 := Int.tdiv_eq_ediv hv (by norm_num)
    have e1 : int64 (v / 1000000000) = v / 1000000000 :=
      int64_of_range (v / 1000000000) (by norm_num; omega) (by norm_num; omega)
    rw [e]
    split
    · simp only [Int.zero_add, e1]
      split
      · omega
      · constructor <;> omega
    · constructor <;> omega
  · have hn : v.tdiv 1000000000 = -((-v) / 1000000000) := by
      have := Int.neg_tdiv (-v) 1000000000
      rw [Int.neg_neg] at this
      rw [this, Int.tdiv_eq_ediv (by omega) (by norm_num)]
    have e1 : int64 (-((-v) / 1000000000)) = -((-v) / 1000000000) :=
      int64_of_range (-((-v) / 1000000000)) (by norm_num; omega) (by norm_num; omega)
    have e2 : int64 (-((-v) / 1000000000) - 1) = -((-v) / 1000000000) - 1 :=
      int64_of_range (-((-v) / 1000000000) - 1) (by norm_num; omega) (by norm_num; omega)
    rw [hn]
    split
    · simp only [Int.zero_add, e1, e2]
      split
      · constructor <;> omega
      · constructor <;> omega
    · omega

/-- C21. Value-hook shape tolerance for time: for every `int64` `v`,
`testUnixNanoTimeExt.UpdateExt` given the intermediate `int64(v)` and given the
intermediate `uint64(v)` stores the same time, which is in UTC and lies `v`
nanoseconds after the Unix epoch; for an intermediate of any other shape it
panics with the message naming the type of the intermediate, before anything
is stored. -/
theorem testUnixNanoTimeExt_shapes (tt : Time) (v : Int) (h1 : -2 ^ 63 ≤ v) (h2 : v < 2 ^ 63) :
    testUnixNanoTimeExt.UpdateExt (Iface.ptrTime tt) (Iface.int64 v)
      = Except.ok (timeUnixUTC 0 v) ∧
    testUnixNanoTimeExt.UpdateExt (Iface.ptrTime tt) (Iface.uint64 (uint64 v))
      = Except.ok (timeUnixUTC 0 v) ∧
    (timeUnixUTC 0 v).loc = Location.utc ∧
    (timeUnixUTC 0 v).sec * 1000000000 + ((timeUnixUTC 0 v).nsec : Int) = v ∧
    (timeUnixUTC 0 v).nsec < 1000000000 ∧
    ∀ w : Iface, (∀ x, w ≠ Iface.int64 x) → (∀ x, w ≠ Iface.uint64 x) →
      testUnixNanoTimeExt.UpdateExt (Iface.ptrTime tt) w = Except.error
        ("unsupported format for time conversion: expecting int64/uint64; got " ++ w.typeName) := by
  have ht := timeUnix_zero v h1 h2
  refine ⟨rfl, ?_, rfl, ht.1, ht.2, ?_⟩
  · simp only [testUnixNanoTimeExt.UpdateExt, int64_uint64 v h1 h2]
  · intro w hi hu
    cases w with
    | int64 x => exact absurd rfl (hi x)
    | uint64 x => exact absurd rfl (hu x)
    | _ => rfl

/-- Witness for C21: 1.5 seconds before the epoch, and a string intermediate. -/
theorem testUnixNanoTimeExt_shapes_witness :
    testUnixNanoTimeExt.UpdateExt (Iface.ptrTime sampleTime) (Iface.int64 (-1500000000))
      = Except.ok ⟨-2, 500000000, Location.utc⟩ ∧
    testUnixNanoTimeExt.UpdateExt (Iface.ptrTime sampleTime)
        (Iface.uint64 (uint64 (-1500000000)))
      = Except.ok (timeUnixUTC 0 (-1500000000)) ∧
    testUnixNanoTimeExt.UpdateExt (Iface.ptrTime sampleTime) (Iface.str "x") = Except.error
      "unsupported format for time conversion: expecting int64/uint64; got string" :=
  ⟨rfl,
    (testUnixNanoTimeExt_shapes sampleTime (-1500000000) (by decide) (by decide)).2.1,
    (testUnixNanoTimeExt_shapes sampleTime (-1500000000) (by decide) (by decide)).2.2.2.2.2
      (Iface.str "x") (fun x h => by cases h) (fun x h => by cases h)⟩

/-- The type assertion `v.(int64)` of `wrapInt64Ext.UpdateExt` admits an
`int64` only: given the intermediate `int64(v)` the hook stores `wrapInt64(v)`
in the target; on an intermediate of any other shape, `uint64` included, it
panics and nothing is stored. -/
theorem wrapInt64Ext_UpdateExt_shapes (d : Int) (v : Int) :
    wrapInt64Ext.UpdateExt (Iface.ptrWrapInt64 d) (Iface.int64 v) = some v ∧
    (∀ u : Nat, wrapInt64Ext.UpdateExt (Iface.ptrWrapInt64 d) (Iface.uint64 u) = none) ∧
    ∀ w : Iface, (∀ x, w ≠ Iface.int64 x) →
      wrapInt64Ext.UpdateExt (Iface.ptrWrapInt64 d) w = none := by
  refine ⟨rfl, fun _ => rfl, ?_⟩
  intro w hi
  cases w with
  | int64 x => exact absurd rfl (hi x)
  | _ => rfl

/-- C22: the code falls short of the claim.  Given the intermediate
`uint64(5)`, the unguarded type assertion `v.(int64)` of
`wrapInt64Ext.UpdateExt` panics and nothing is stored, where the claim has
`wrapInt64(5)` stored; given `int64(5)` the hook stores 5.  The sibling hook
`testUnixNanoTimeExt.UpdateExt` switches on the shape and accepts the same
`uint64(5)` like `int64(5)`. -/
theorem wrapInt64Ext_UpdateExt_uint64_panics :
    wrapInt64Ext.UpdateExt (Iface.ptrWrapInt64 0) (Iface.uint64 (uint64 5)) = none ∧
    wrapInt64Ext.UpdateExt (Iface.ptrWrapInt64 0) (Iface.int64 5) = some 5 ∧
    testUnixNanoTimeExt.UpdateExt (Iface.ptrTime sampleTime) (Iface.uint64 (uint64 5))
      = Except.ok (timeUnixUTC 0 5) ∧
    testUnixNanoTimeExt.UpdateExt (Iface.ptrTime sampleTime) (Iface.int64 5)
      = Except.ok (timeUnixUTC 0 5) :=
  ⟨by decide, by decide, rfl, rfl⟩

/-! ## Safety of the timestamp codec -/

theorem holds_length (st : EncState) (P : List Nat) (h : st.Holds P) (hl : P.length ≤ 15) :
    st.bs.length = 16 ∧ st.i = 1 + P.length := by
  obtain ⟨h1, h2⟩ := h
  refine ⟨?_, h2⟩
  rw [h1]
  simp only [List.cons_append, List.length_cons, List.length_append, List.length_replicate]
  omega

theorem putSecsChecked_eq (s : Int) (st : EncState) (P : List Nat) (h : st.Holds P)
    (hl : P.length ≤ 15) : putSecsChecked s st = some (putSecs s st) := by
  obtain ⟨h1, h2⟩ := holds_length st P h hl
  have hf : pruneSignExt (bigenPutUint64 (uint64 s)) (decide (s ≥ 0)) < 8 :=
    pruneSignExt_lt _ _ (by simp [bigenPutUint64])
  have hlen : (bigenPutUint64 (uint64 s)).length = 8 := by simp [bigenPutUint64]
  unfold putSecsChecked putSecs copyFrom
  by_cases hs : s = 0
  · simp [hs]
  · simp only [ne_eq, hs, not_false_eq_true, if_true, hlen]
    rw [if_pos (by omega), if_pos (by omega)]

theorem putNsecsChecked_eq (n : Nat) (st : EncState) (P : List Nat) (h : st.Holds P)
    (hl : P.length ≤ 15) : putNsecsChecked n st = some (putNsecs n st) := by
  obtain ⟨h1, h2⟩ := holds_length st P h hl
  have hf : pruneSignExt (bigenPutUint32 (uint32 n)) true < 4 :=
    pruneSignExt_lt _ _ (by simp [bigenPutUint32])
  unfold putNsecsChecked putNsecs copyFrom
  by_cases hs : n = 0
  · simp [hs]
  · simp only [ne_eq, hs, not_false_eq_true, if_true]
    rw [if_pos (by omega), if_pos (by omega)]

theorem putZoneChecked_eq (t : Time) (st : EncState) (P : List Nat) (h : st.Holds P)
    (hl : P.length ≤ 13) : putZoneChecked t st = some (putZone t st) := by
  obtain ⟨h1, h2⟩ := holds_length st P h (by omega)
  unfold putZoneChecked putZone setAt
  by_cases hs : t.loc = Location.utc
  · simp [hs]
  · simp only [hs, if_false]
    rw [if_pos (by omega)]
    simp only [List.length_set]
    rw [if_pos (by omega)]

/-- C27. Output bound of `bincEncodeTime`: with every index and slice
expression on the scratch buffers checked, the encoder runs without a panic
(the writes `bs[i]`, `bs[i+1]` and `bs[0]`, the slices `bs[i:]` and the final
`bs[0:i]` are in range) and returns the same bytes; for every time the output
length is `1 + ks + kn + kz`, with `ks` at most 8 and at least 1 when the
seconds are written, `kn` at most 4 and at least 1 when the nanoseconds are
written, and `kz` 0 or 2, hence between 1 and 15. -/
theorem bincEncodeTime_bound (t : Time) :
    bincEncodeTimeChecked t = some (bincEncodeTime t) ∧
    (bincEncodeTime t).length
      = 1 + (secsField t).length + (nsecsField t).length + (tzField t).length ∧
    (secsField t).length ≤ 8 ∧ (t.sec ≠ 0 → 1 ≤ (secsField t).length) ∧
    (nsecsField t).length ≤ 4 ∧ (t.nsec ≠ 0 → 1 ≤ (nsecsField t).length) ∧
    ((tzField t).length = 0 ∨ (tzField t).length = 2) ∧
    1 ≤ (bincEncodeTime t).length ∧ (bincEncodeTime t).length ≤ 15 := by
  have l1 := secsField_length_le t
  have l2 := nsecsField_length_le t
  have l3 := tzField_length t
  have hz : (tzField t).length = 0 ∨ (tzField t).length = 2 := by
    rw [l3]; split <;> simp
  have hlen : (bincEncodeTime t).length
      = 1 + (secsField t).length + (nsecsField t).length + (tzField t).length := by
    rw [bincEncodeTime_eq]
    simp only [List.length_cons, List.length_append]
    omega
  have h1 := putSecs_holds t _ _ holds_init (by simp)
  have h2 := putNsecs_holds t _ _ h1 (by simp; omega)
  have h3 := putZone_holds t _ _ h2 (by simp; omega)
  have e1 := putSecsChecked_eq t.sec _ _ holds_init (by simp)
  have e2 := putNsecsChecked_eq t.nsec _ _ h1 (by simp; omega)
  have e3 := putZoneChecked_eq t _ _ h2 (by simp; omega)
  obtain ⟨g1, g2⟩ := holds_length _ _ h3 (by
    simp only [List.nil_append, List.length_append]; omega)
  refine ⟨?_, hlen, l1, ?_, l2, ?_, hz, by omega, by omega⟩
  · unfold bincEncodeTimeChecked
    simp only [e1, e2, e3, setAt, slice]
    rw [if_pos (by omega)]
    simp only [List.length_set]
    rw [if_pos ⟨Nat.zero_le _, by
      rw [g1, g2]; simp only [List.nil_append, List.length_append]; omega⟩]
    simp [bincEncodeTime]
  · intro hs
    have := (secsField_eq_nil t).not.mpr hs
    exact List.length_pos.mpr this
  · intro hs
    have := (nsecsField_eq_nil t).not.mpr hs
    exact List.length_pos.mpr this

theorem take_take_drop (bs : List Nat) (a b n : Nat) (h : a + b ≤ n) :
    ((bs.take n).drop a).take b = (bs.drop a).take b := by
  rw [List.drop_take, List.take_take, Nat.min_eq_left (by omega)]

theorem headD_take (bs : List Nat) (n : Nat) (h : 1 ≤ n) : (bs.take n).headD 0 = bs.headD 0 := by
  cases bs with
  | nil => simp
  | cons b r =>
    cases n with
    | zero => omega
    | succ n => simp

theorem inFields_take (bs : List Nat) (n : Nat) (h : declaredLen (bs.headD 0) ≤ n) :
    (bs.take n).headD 0 = bs.headD 0 ∧ inSecs (bs.take n) = inSecs bs ∧
    inNsecs (bs.take n) = inNsecs bs ∧ inTz (bs.take n) = inTz bs := by
  have h1 : 1 ≤ n := by unfold declaredLen at h; omega
  have hh := headD_take bs n h1
  unfold declaredLen at h
  refine ⟨hh, ?_, ?_, ?_⟩
  · unfold inSecs; rw [hh]; exact take_take_drop _ _ _ _ (by omega)
  · unfold inNsecs; rw [hh]; exact take_take_drop _ _ _ _ (by omega)
  · unfold inTz; rw [hh]; exact take_take_drop _ _ _ _ (by omega)

theorem bincDecodeTime_take (bs : List Nat) (hb : IsBytes bs)
    (hl : declaredLen (bs.headD 0) ≤ bs.length) :
    bincDecodeTime (bs.take (declaredLen (bs.headD 0))) = bincDecodeTime bs := by
  obtain ⟨e0, e1, e2, e3⟩ := inFields_take bs (declaredLen (bs.headD 0)) (Nat.le_refl _)
  have hl' : declaredLen ((bs.take (declaredLen (bs.headD 0))).headD 0)
      ≤ (bs.take (declaredLen (bs.headD 0))).length := by
    rw [e0, List.length_take]
    omega
  rw [bincDecodeTime_of_len bs hb hl, bincDecodeTime_of_len _ (hb.take _) hl', e0, e1, e2, e3]

/-- C28. Totality of `bincDecodeTime` on well-formed lengths: for every byte
string `bs` with `len(bs) ≥ 1 + (A ? DDD+1 : 0) + (B ? EE+1 : 0) + (C ? 2 : 0)`,
the bits read from `bs[0]`, `bincDecodeTime` runs without an out-of-range index
or slice and returns a nil error; its result depends on no byte beyond that
length: every byte string with the same first bytes gives the same result.  So
for every output of `bincEncodeTime`, whose length is the declared one. -/
theorem bincDecodeTime_total (bs : List Nat) (hb : IsBytes bs)
    (hl : declaredLen (bs.headD 0) ≤ bs.length) :
    (∃ tt, bincDecodeTime bs = some (tt, none)) ∧
    (∀ bs' : List Nat, IsBytes bs' →
      bs'.take (declaredLen (bs.headD 0)) = bs.take (declaredLen (bs.headD 0)) →
      bincDecodeTime bs' = bincDecodeTime bs) ∧
    (∀ t : Time, IsBytes (bincEncodeTime t) ∧
      declaredLen ((bincEncodeTime t).headD 0) = (bincEncodeTime t).length ∧
      ∃ tt, bincDecodeTime (bincEncodeTime t) = some (tt, none)) := by
  refine ⟨⟨_, bincDecodeTime_of_len bs hb hl⟩, ?_, ?_⟩
  · intro bs' hb' he
    have hpos : 1 ≤ declaredLen (bs.headD 0) := by unfold declaredLen; omega
    have hh : bs'.headD 0 = bs.headD 0 := by
      rw [← headD_take bs' _ hpos, he, headD_take bs _ hpos]
    have hl' : declaredLen (bs'.headD 0) ≤ bs'.length := by
      rw [hh]
      have := congrArg List.length he
      simp only [List.length_take] at this
      omega
    rw [← bincDecodeTime_take bs hb hl, ← bincDecodeTime_take bs' hb' hl', hh, he]
  · intro t
    obtain ⟨h1, h2, h3⟩ := descriptor_lens t
    have hlt : descriptor t < 256 := by
      have l1 := secsField_length_le t
      have l2 := nsecsField_length_le t
      unfold descriptor
      split <;> split <;> split <;> omega
    refine ⟨?_, ?_, _, bincDecodeTime_encode t⟩
    · rw [bincEncodeTime_eq]
      intro b hbm
      simp only [List.mem_cons, List.mem_append] at hbm
      rcases hbm with rfl | (hbm | hbm) | hbm
      · exact hlt
      · exact isBytes_secsField t b hbm
      · exact isBytes_nsecsField t b hbm
      · exact isBytes_tzField t b hbm
    · rw [bincEncodeTime_eq]
      simp only [List.headD_cons, declaredLen, h1, h2, h3, List.length_cons, List.length_append]
      omega

/-- Witness for C28: a descriptor declaring one seconds byte, followed by that
byte and by two bytes more. -/
theorem bincDecodeTime_total_witness :
    IsBytes [0x80, 5, 7, 9] ∧ declaredLen (([0x80, 5, 7, 9] : List Nat).headD 0) = 2 ∧
    (∃ tt, bincDecodeTime [0x80, 5, 7, 9] = some (tt, none)) ∧
    bincDecodeTime [0x80, 5] = bincDecodeTime [0x80, 5, 7, 9] :=
  ⟨by decide, by decide,
    (bincDecodeTime_total [0x80, 5, 7, 9] (by decide) (by decide)).1,
    (bincDecodeTime_total [0x80, 5, 7, 9] (by decide) (by decide)).2.1 [0x80, 5]
      (by decide) (by decide)⟩

/-! ## Claims on the code generator driver -/

namespace Codecgen

theorem lastIndex_none (sub : List Char) :
    ∀ s, lastIndex sub s = none → ∀ j, ¬ sub <+: s.drop j := by
  intro s
  induction s with
  | nil =>
    intro h j hp
    simp only [lastIndex] at h
    split at h
    · cases h
    · rename_i hne
      simp only [List.drop_nil, List.prefix_nil] at hp
      exact hne hp
  | cons c cs ih =>
    intro h j hp
    simp only [lastIndex] at h
    cases hl : lastIndex sub cs with
    | some i => rw [hl] at h; cases h
    | none =>
      rw [hl] at h
      simp only at h
      split at h
      · cases h
      · rename_i hne
        cases j with
        | zero => exact hne hp
        | succ j => exact ih hl j hp

theorem lastIndex_some (sub : List Char) :
    ∀ s i, lastIndex sub s = some i →
      i ≤ s.length ∧ sub <+: s.drop i ∧ ∀ j, i < j → j ≤ s.length → ¬ sub <+: s.drop j := by
  intro s
  induction s with
  | nil =>
    intro i h
    simp only [lastIndex] at h
    split at h
    · rename_i he
      simp only [Option.some.injEq] at h
      subst h
      subst he
      refine ⟨Nat.le_refl _, List.nil_prefix, ?_⟩
      intro j hj hl
      simp only [List.length_nil] at hl
      omega
    · cases h
  | cons c cs ih =>
    intro i h
    simp only [lastIndex] at h
    cases hl : lastIndex sub cs with
    | some k =>
      rw [hl] at h
      simp only [Option.some.injEq] at h
      subst h
      obtain ⟨h1, h2, h3⟩ := ih k hl
      refine ⟨by simp only [List.length_cons]; omega, by simpa using h2, ?_⟩
      intro j hj hjl
      cases j with
      | zero => omega
      | succ j =>
        simp only [List.length_cons] at hjl
        simpa using h3 j (by omega) (by omega)
    | none =>
      rw [hl] at h
      simp only at h
      split at h
      · rename_i hp
        simp only [Option.some.injEq] at h
        subst h
        refine ⟨Nat.zero_le _, by simpa using hp, ?_⟩
        intro j hj _
        cases j with
        | zero => omega
        | succ j => simpa using lastIndex_none sub cs hl j
      · cases h

theorem infix_iff_drop (sub s : List Char) : sub <:+: s ↔ ∃ j, sub <+: s.drop j := by
  constructor
  · rintro ⟨a, b, h⟩
    refine ⟨a.length, b, ?_⟩
    rw [← h]
    simp
  · rintro ⟨j, b, h⟩
    refine ⟨s.take j, b, ?_⟩
    rw [List.append_assoc, h, List.take_append_drop]

theorem vendorStart_eq : vendorStart = ['v', 'e', 'n', 'd', 'o', 'r', '/'] := rfl

theorem vendorInline_eq : vendorInline = ['/', 'v', 'e', 'n', 'd', 'o', 'r', '/'] := rfl

theorem drop_lt_of_inline {s : List Char} {j : Nat} (h : vendorInline <+: s.drop j) :
    j + 8 ≤ s.length := by
  have := h.length_le
  simp only [vendorInline_eq, List.length_cons, List.length_nil, List.length_drop] at this
  omega

theorem lastIndex_inline_none (s : List Char) :
    lastIndex vendorInline s = none ↔ ¬ vendorInline <:+: s := by
  constructor
  · intro h hi
    obtain ⟨j, hj⟩ := (infix_iff_drop _ _).mp hi
    exact lastIndex_none _ s h j hj
  · intro h
    cases hl : lastIndex vendorInline s with
    | none => rfl
    | some i =>
      exfalso
      exact h ((infix_iff_drop _ _).mpr ⟨i, (lastIndex_some _ s i hl).2.1⟩)

theorem stripVendorChars_of_none (s : List Char)
    (h1 : ¬ vendorInline <:+: s) (h2 : ¬ vendorStart <+: s) : stripVendorChars s = s := by
  unfold stripVendorChars
  rw [(lastIndex_inline_none s).mpr h1]
  simp only [h2, if_false]

theorem stripVendorChars_of_some (s : List Char) (i : Nat)
    (h : lastIndex vendorInline s = some i) : stripVendorChars s = s.drop (i + 8) := by
  unfold stripVendorChars
  rw [h]
  rfl

theorem stripVendorChars_of_start (s : List Char)
    (h1 : ¬ vendorInline <:+: s) (h2 : vendorStart <+: s) :
    stripVendorChars s = s.drop 7 := by
  unfold stripVendorChars
  rw [(lastIndex_inline_none s).mpr h1]
  simp only [h2, if_true]
  rfl

/-- After the last `/vendor/` nothing contains `/vendor/` or starts with
`vendor/`. -/
theorem clean_of_some (s : List Char) (i : Nat) (h : lastIndex vendorInline s = some i) :
    ¬ vendorInline <:+: s.drop (i + 8) ∧ ¬ vendorStart <+: s.drop (i + 8) := by
  obtain ⟨_, h2, h3⟩ := lastIndex_some _ s i h
  constructor
  · intro hi
    obtain ⟨j, hj⟩ := (infix_iff_drop _ _).mp hi
    rw [List.drop_drop] at hj
    have hl := drop_lt_of_inline hj
    exact h3 _ (by omega) (by omega) hj
  · intro hs
    obtain ⟨t, ht⟩ := h2
    obtain ⟨u, hu⟩ := hs
    have e8 : s.drop (i + 8) = t := by
      have := congrArg (List.drop 8) ht
      rw [List.drop_drop] at this
      rw [← this]
      simp [vendorInline_eq]
    have e8t : vendorStart ++ u = t := by rw [hu, e8]
    have e7 : s.drop (i + 7) = vendorInline ++ u := by
      have := congrArg (List.drop 7) ht
      rw [List.drop_drop] at this
      rw [← this, ← e8t]
      simp [vendorInline_eq, vendorStart_eq]
    have hp : vendorInline <+: s.drop (i + 7) := ⟨u, e7.symm⟩
    have hl := drop_lt_of_inline hp
    exact h3 _ (by omega) (by omega) hp

/-- Without any `/vendor/`, nothing after a leading `vendor/` contains
`/vendor/` or starts with `vendor/`. -/
theorem clean_of_start (s : List Char) (h1 : ¬ vendorInline <:+: s) (h2 : vendorStart <+: s) :
    ¬ vendorInline <:+: s.drop 7 ∧ ¬ vendorStart <+: s.drop 7 := by
  constructor
  · intro hi
    exact h1 (hi.trans (List.drop_suffix 7 s).isInfix)
  · intro hs
    obtain ⟨t, ht⟩ := h2
    obtain ⟨u, hu⟩ := hs
    have e7 : s.drop 7 = t := by
      rw [← ht]
      simp [vendorStart_eq]
    have e6 : s.drop 6 = vendorInline ++ u := by
      rw [← ht, ← e7, ← hu]
      simp [vendorInline_eq, vendorStart_eq]
    exact h1 ((infix_iff_drop _ _).mpr ⟨6, u, e6.symm⟩)

theorem stripVendorChars_clean (s : List Char) (h : vendorInline <:+: s ∨ vendorStart <+: s) :
    ¬ vendorInline <:+: stripVendorChars s ∧ ¬ vendorStart <+: stripVendorChars s := by
  cases hl : lastIndex vendorInline s with
  | some i =>
    rw [stripVendorChars_of_some s i hl]
    exact clean_of_some s i hl
  | none =>
    have h1 := (lastIndex_inline_none s).mp hl
    rcases h with h | h
    · exact absurd h h1
    · rw [stripVendorChars_of_start s h1 h]
      exact clean_of_start s h1 h

theorem stripVendorChars_idem (s : List Char) :
    stripVendorChars (stripVendorChars s) = stripVendorChars s := by
  by_cases h : vendorInline <:+: s ∨ vendorStart <+: s
  · obtain ⟨h1, h2⟩ := stripVendorChars_clean s h
    exact stripVendorChars_of_none _ h1 h2
  · have e := stripVendorChars_of_none s (fun hi => h (Or.inl hi)) (fun hs => h (Or.inr hs))
    rw [e, e]

/-- C26. `stripVendor`: the result is a suffix of `s`; if `s` contains
`/vendor/` it is everything after the last occurrence of `/vendor/`; otherwise,
if `s` starts with `vendor/` it is `s` without that prefix; otherwise it is `s`
itself. -/
theorem stripVendor_spec (s : String) :
    (stripVendor s).toList <:+ s.toList ∧
    (vendorInline <:+: s.toList →
      ∃ i, i + 8 ≤ s.toList.length ∧ (s.toList.drop i).take 8 = vendorInline ∧
        (∀ j, i < j → ¬ vendorInline <+: s.toList.drop j) ∧
        (stripVendor s).toList = s.toList.drop (i + 8)) ∧
    (¬ vendorInline <:+: s.toList → vendorStart <+: s.toList →
      (stripVendor s).toList = s.toList.drop 7) ∧
    (¬ vendorInline <:+: s.toList → ¬ vendorStart <+: s.toList → stripVendor s = s) := by
  have hto : (stripVendor s).toList = stripVendorChars s.toList := rfl
  refine ⟨?_, ?_, ?_, ?_⟩
  · rw [hto]
    unfold stripVendorChars
    split
    · exact List.drop_suffix _ _
    · split
      · exact List.drop_suffix _ _
      · exact List.suffix_refl _
  · intro hi
    cases hl : lastIndex vendorInline s.toList with
    | none => exact absurd hi ((lastIndex_inline_none _).mp hl)
    | some i =>
      obtain ⟨_, h2, h3⟩ := lastIndex_some _ _ i hl
      have hlen := drop_lt_of_inline h2
      refine ⟨i, hlen, ?_, ?_, ?_⟩
      · obtain ⟨t, ht⟩ := h2
        rw [← ht]
        simp [vendorInline_eq]
      · intro j hj hp
        exact h3 j hj (by have := drop_lt_of_inline hp; omega) hp
      · rw [hto, stripVendorChars_of_some _ i hl]
  · intro h1 h2
    rw [hto, stripVendorChars_of_start _ h1 h2]
  · intro h1 h2
    have : stripVendorChars s.toList = s.toList := stripVendorChars_of_none _ h1 h2
    unfold stripVendor
    rw [this]
    rfl

/-- C29. `stripVendor` is idempotent; whenever `s` contains `/vendor/` or
starts with `vendor/`, the result neither contains `/vendor/` nor starts with
`vendor/`; so for the overlapping inputs `a/vendor/vendor/b` and
`vendor/vendor/x`. -/
theorem stripVendor_idempotent (s : String) :
    stripVendor (stripVendor s) = stripVendor s ∧
    (vendorInline <:+: s.toList ∨ vendorStart <+: s.toList →
      ¬ vendorInline <:+: (stripVendor s).toList ∧ ¬ vendorStart <+: (stripVendor s).toList) ∧
    stripVendor "a/vendor/vendor/b" = "b" ∧ stripVendor "vendor/vendor/x" = "x" := by
  refine ⟨?_, fun h => stripVendorChars_clean s.toList h, by decide, by decide⟩
  unfold stripVendor
  show String.mk (stripVendorChars (stripVendorChars s.toList)) = _
  rw [stripVendorChars_idem]

theorem selferStep_ident (N id name : String) (acc : List String × List String) :
    (N ∈ (selferStep acc (Decl.funcDecl (some [Expr.ident id]) name)).1 ∨
      N ∈ (selferStep acc (Decl.funcDecl (some [Expr.ident id]) name)).2) ↔
      ((N ∈ acc.1 ∨ N ∈ acc.2) ∨
        (N = id ∧ (name = "CodecEncodeSelf" ∨ name = "CodecDecodeSelf"))) := by
  simp only [selferStep]
  by_cases h1 : name = "CodecEncodeSelf"
  · simp only [h1, if_true, List.mem_cons]
    tauto
  · by_cases h2 : name = "CodecDecodeSelf"
    · have : ¬ ("CodecDecodeSelf" = "CodecEncodeSelf") := by decide
      simp only [h2, this, if_true, if_false, List.mem_cons]
      tauto
    · simp only [h1, h2, if_false]
      tauto

theorem selferStep_star (N id name : String) (acc : List String × List String) :
    (N ∈ (selferStep acc (Decl.funcDecl (some [Expr.starExpr (Expr.ident id)]) name)).1 ∨
      N ∈ (selferStep acc (Decl.funcDecl (some [Expr.starExpr (Expr.ident id)]) name)).2) ↔
      ((N ∈ acc.1 ∨ N ∈ acc.2) ∨
        (N = id ∧ (name = "CodecEncodeSelf" ∨ name = "CodecDecodeSelf"))) := by
  simp only [selferStep]
  by_cases h1 : name = "CodecEncodeSelf"
  · simp only [h1, if_true, List.mem_cons]
    tauto
  · by_cases h2 : name = "CodecDecodeSelf"
    · have : ¬ ("CodecDecodeSelf" = "CodecEncodeSelf") := by decide
      simp only [h2, this, if_true, if_false, List.mem_cons]
      tauto
    · simp only [h1, h2, if_false]
      tauto

theorem isSelferDecl_ident (N id name : String) :
    isSelferDecl N (Decl.funcDecl (some [Expr.ident id]) name) = true ↔
      (N = id ∧ (name = "CodecEncodeSelf" ∨ name = "CodecDecodeSelf")) := by
  simp only [isSelferDecl, Bool.or_eq_true, decide_eq_true_eq, Decl.funcDecl.injEq,
    Option.some.injEq, List.cons.injEq, Expr.ident.injEq, and_true, reduceCtorEq, and_false,
    false_and, or_false, false_or]
  constructor
  · rintro (⟨h1, h2⟩ | ⟨h1, h2⟩)
    · exact ⟨h1.symm, Or.inl h2⟩
    · exact ⟨h1.symm, Or.inr h2⟩
  · rintro ⟨h1, h2 | h2⟩
    · exact Or.inl ⟨h1.symm, h2⟩
    · exact Or.inr ⟨h1.symm, h2⟩

theorem isSelferDecl_star (N id name : String) :
    isSelferDecl N (Decl.funcDecl (some [Expr.starExpr (Expr.ident id)]) name) = true ↔
      (N = id ∧ (name = "CodecEncodeSelf" ∨ name = "CodecDecodeSelf")) := by
  simp only [isSelferDecl, Bool.or_eq_true, decide_eq_true_eq, Decl.funcDecl.injEq,
    Option.some.injEq, List.cons.injEq, Expr.starExpr.injEq, Expr.ident.injEq, and_true,
    reduceCtorEq, and_false, false_and, or_false, false_or]
  constructor
  · rintro (⟨h1, h2⟩ | ⟨h1, h2⟩)
    · exact ⟨h1.symm, Or.inl h2⟩
    · exact ⟨h1.symm, Or.inr h2⟩
  · rintro ⟨h1, h2 | h2⟩
    · exact Or.inl ⟨h1.symm, h2⟩
    · exact Or.inr ⟨h1.symm, h2⟩

theorem selferStep_mem (N : String) (acc : List String × List String) (d : Decl) :
    (N ∈ (selferStep acc d).1 ∨ N ∈ (selferStep acc d).2) ↔
      ((N ∈ acc.1 ∨ N ∈ acc.2) ∨ isSelferDecl N d = true) := by
  cases d with
  | genDecl specs => simp [selferStep, isSelferDecl]
  | badDecl => simp [selferStep, isSelferDecl]
  | funcDecl recv name =>
    cases recv with
    | none => simp [selferStep, isSelferDecl]
    | some l =>
      cases l with
      | nil => simp [selferStep, isSelferDecl]
      | cons e es =>
        cases es with
        | cons e2 es2 => simp [selferStep, isSelferDecl]
        | nil =>
          cases e with
          | ident id => rw [selferStep_ident, isSelferDecl_ident]
          | starExpr x =>
            cases x with
            | ident id => rw [selferStep_star, isSelferDecl_star]
            | _ => simp [selferStep, isSelferDecl]
          | _ => simp [selferStep, isSelferDecl]

theorem selferFold_mem (N : String) (ds : List Decl) :
    ∀ acc : List String × List String,
      (N ∈ (ds.foldl selferStep acc).1 ∨ N ∈ (ds.foldl selferStep acc).2) ↔
        ((N ∈ acc.1 ∨ N ∈ acc.2) ∨ ds.any (isSelferDecl N) = true) := by
  induction ds with
  | nil => intro acc; simp
  | cons d ds ih =>
    intro acc
    rw [List.foldl_cons, ih, selferStep_mem]
    simp only [List.any_cons, Bool.or_eq_true]
    tauto

theorem selferFiles_mem (N : String) (files : List File) :
    ∀ acc : List String × List String,
      (N ∈ (files.foldl (fun acc f => f.decls.foldl selferStep acc) acc).1 ∨
        N ∈ (files.foldl (fun acc f => f.decls.foldl selferStep acc) acc).2) ↔
        ((N ∈ acc.1 ∨ N ∈ acc.2) ∨ declaresSelfer files N = true) := by
  induction files with
  | nil => intro acc; simp [declaresSelfer]
  | cons f fs ih =>
    intro acc
    rw [List.foldl_cons, ih, selferFold_mem]
    simp only [declaresSelfer, List.any_cons, Bool.or_eq_true]
    tauto

theorem selferTyps_mem (N : String) (files : List File) :
    (N ∈ (selferTyps files).1 ∨ N ∈ (selferTyps files).2) ↔ declaresSelfer files N = true := by
  unfold selferTyps
  rw [selferFiles_mem]
  simp

theorem typeStep_eq (r nr : String → Bool) (enc dec : List String) (types : List String)
    (dd : Spec) :
    typeStep r nr enc dec types dd = types ++
      (((match dd with
        | Spec.typeSpec n t => [(n, t)]
        | Spec.other => []).filter (keepSpec r nr enc dec)).map Prod.fst) := by
  cases dd with
  | other => simp [typeStep]
  | typeSpec name type =>
    have hk : keepSpec r nr enc dec (name, type) = (!decide (name.length = 0) &&
        isSelectable type && r name && !nr name && !decide (name ∈ enc) &&
        !decide (name ∈ dec)) := rfl
    simp only [List.filter_cons, List.filter_nil, hk]
    by_cases h0 : name.length = 0
    · simp [typeStep, h0]
    · cases type <;> simp [typeStep, h0, isSelectable]
      all_goals split <;> simp_all

theorem typeFold_eq (r nr : String → Bool) (enc dec : List String) (specs : List Spec) :
    ∀ types : List String,
      specs.foldl (typeStep r nr enc dec) types = types ++
        (((declTypeSpecs (Decl.genDecl specs)).filter (keepSpec r nr enc dec)).map Prod.fst) := by
  induction specs with
  | nil => intro types; simp [declTypeSpecs]
  | cons dd specs ih =>
    intro types
    rw [List.foldl_cons, ih, typeStep_eq]
    cases dd with
    | other => simp [declTypeSpecs]
    | typeSpec n t =>
      simp only [declTypeSpecs, List.filterMap_cons, List.filter_cons, List.filter_nil]
      split <;> simp

theorem declStep_eq (r nr : String → Bool) (enc dec : List String) (types : List String)
    (d : Decl) :
    declStep r nr enc dec types d = types ++
      (((declTypeSpecs d).filter (keepSpec r nr enc dec)).map Prod.fst) := by
  cases d with
  | genDecl specs => simp only [declStep]; exact typeFold_eq r nr enc dec specs types
  | funcDecl recv name => simp [declStep, declTypeSpecs]
  | badDecl => simp [declStep, declTypeSpecs]

theorem declFold_eq (r nr : String → Bool) (enc dec : List String) (ds : List Decl) :
    ∀ types : List String,
      ds.foldl (declStep r nr enc dec) types = types ++
        (((ds.flatMap declTypeSpecs).filter (keepSpec r nr enc dec)).map Prod.fst) := by
  induction ds with
  | nil => intro types; simp
  | cons d ds ih =>
    intro types
    rw [List.foldl_cons, ih, declStep_eq]
    simp [List.flatMap_cons, List.filter_append]

theorem fileFold_eq (r nr : String → Bool) (enc dec : List String) (files : List File) :
    ∀ types : List String,
      files.foldl (fun types f => f.decls.foldl (declStep r nr enc dec) types) types = types ++
        (((typeSpecs files).filter (keepSpec r nr enc dec)).map Prod.fst) := by
  induction files with
  | nil => intro types; simp [typeSpecs]
  | cons f fs ih =>
    intro types
    rw [List.foldl_cons, ih, declFold_eq]
    simp [typeSpecs, List.flatMap_cons, List.filter_append]

theorem length_eq_zero_iff (s : String) : s.length = 0 ↔ s = "" := by
  constructor
  · intro h
    have : s.data = [] := List.length_eq_zero.mp h
    exact String.ext this
  · intro h; rw [h]; rfl

theorem readFiles_ok (env : Env) (lastdir : String) :
    ∀ (infiles : List String) (i : Nat) (st : LoopState),
      (readFiles env lastdir i infiles st).err = none →
      ∃ files, List.Forall₂ (fun infile f => env.parseFile infile = Except.ok f) infiles files ∧
        (readFiles env lastdir i infiles st).st.astfiles = st.astfiles ++ files := by
  intro infiles
  induction infiles with
  | nil =>
    intro i st _
    exact ⟨[], List.Forall₂.nil, by simp [readFiles]⟩
  | cons infile rest ih =>
    intro i st h
    rw [readFiles] at h ⊢
    split at h
    · cases h
    · cases hs : env.stat infile with
      | error e => rw [hs] at h; cases h
      | ok size =>
        rw [hs] at h
        simp only at h ⊢
        cases hp : env.parseFile infile with
        | error e => rw [hp] at h; cases h
        | ok f =>
          rw [hp] at h
          simp only at h ⊢
          split at h
          · cases h
          · rename_i hdir hmain
            simp only [hdir, hs, hp, hmain, if_false, ite_not]
            simp only at h
            obtain ⟨files, hf, he⟩ := ih (i + 1) _ h
            refine ⟨f :: files, List.Forall₂.cons hp hf, ?_⟩
            rw [he]
            simp

theorem readFiles_ops (env : Env) (lastdir : String) (file : String) (t : Tmpl) (tv : TmplT) :
    ∀ (infiles : List String) (i : Nat) (st : LoopState),
      Op.execute file t tv ∉ (readFiles env lastdir i infiles st).ops := by
  intro infiles
  induction infiles with
  | nil => intro i st; simp [readFiles]
  | cons infile rest ih =>
    intro i st
    rw [readFiles]
    split
    · simp
    · split
      · simp
      · split
        · simp
        · split
          · simp
          · simp only [List.cons_append, List.nil_append, List.mem_cons, reduceCtorEq,
              false_or]
            exact ih _ _

theorem gen1_ops (env : Env) (name : String) (t0 : Tmpl) (tv : TmplT)
    (file : String) (t : Tmpl) (tv' : TmplT)
    (h : Op.execute file t tv' ∈ (gen1 env name t0 tv).2) : tv' = tv := by
  unfold gen1 at h
  split at h
  · simp at h
  · split at h
    · simp at h
    · split at h
      · simp at h; exact h.2.2
      · simp at h; exact h.2.2

theorem runTemplates_ops (env : Env) (outfile goRunTag lastdir : String) (del : Bool)
    (tv : TmplT) (file : String) (t : Tmpl) (tv' : TmplT)
    (h : Op.execute file t tv' ∈ (runTemplates env outfile goRunTag lastdir del tv).2) :
    tv' = tv := by
  unfold runTemplates at h
  simp only at h
  have hd : ∀ a b : String, Op.execute file t tv' ∉
      (if del = true then [Op.remove a, Op.remove b] else []) := by
    intro a b; split <;> simp
  split at h
  · rename_i e ops1 h1
    rcases List.mem_append.mp h with h | h
    · exact gen1_ops env _ _ tv file t tv' (by rw [h1]; exact h)
    · exact absurd h (hd _ _)
  · rename_i ops1 h1
    split at h
    · rename_i e ops2 h2
      rcases List.mem_append.mp h with h | h
      · rcases List.mem_append.mp h with h | h
        · exact gen1_ops env _ _ tv file t tv' (by rw [h1]; exact h)
        · exact gen1_ops env _ _ tv file t tv' (by rw [h2]; exact h)
      · exact absurd h (hd _ _)
    · rename_i ops2 h2
      split at h
      all_goals
        rcases List.mem_append.mp h with h | h
        · rcases List.mem_append.mp h with h | h
          · rcases List.mem_append.mp h with h | h
            · exact gen1_ops env _ _ tv file t tv' (by rw [h1]; exact h)
            · exact gen1_ops env _ _ tv file t tv' (by rw [h2]; exact h)
          · simp at h
        · exact absurd h (hd _ _)

/-- Whenever `Generate` executes a template, every input file has been parsed,
and the value handed to the template holds the types found in the parsed files
and the normalised identifier. -/
theorem Generate_execute (env : Env) (outfile buildTag codecPkgPath : String) (uid : Int)
    (goRunTag st : String) (regexName notRegexName : String → Bool)
    (deleteTempFile noExtensions : Bool) (infiles : List String)
    (file : String) (t : Tmpl) (tv : TmplT)
    (h : Op.execute file t tv ∈ (Generate env outfile buildTag codecPkgPath uid goRunTag st
      regexName notRegexName deleteTempFile noExtensions infiles).2) :
    ∃ files, List.Forall₂ (fun infile f => env.parseFile infile = Except.ok f) infiles files ∧
      tv.Types = findTypes regexName notRegexName files ∧
      tv.RandString = formatInt (normUid env uid) := by
  unfold Generate at h
  split at h
  · simp at h
  · split at h
    · simp at h
    · split at h
      · simp at h
      · simp only at h
        split at h
        · simp at h
        · split at h
          · simp at h
          · rename_i absdir hab importPath hpk
            split at h
            · rename_i e he
              simp only [List.cons_append, List.nil_append, List.mem_cons, reduceCtorEq,
                false_or] at h
              exact absurd h (readFiles_ops env _ file t tv _ _ _)
            · rename_i he
              obtain ⟨files, hf, hfs⟩ := readFiles_ok env _ infiles 0 _ he
              simp only [List.nil_append] at hfs
              split at h
              · simp only [List.cons_append, List.nil_append, List.mem_cons, reduceCtorEq,
                  false_or] at h
                exact absurd h (readFiles_ops env _ file t tv _ _ _)
              · simp only [List.cons_append, List.nil_append, List.mem_cons, reduceCtorEq,
                  false_or, List.mem_append] at h
                rcases h with h | h
                · exact absurd h (readFiles_ops env _ file t tv _ _ _)
                · have := runTemplates_ops env _ _ _ _ _ file t tv h
                  refine ⟨files, hf, ?_, ?_⟩
                  · rw [this, hfs]
                  · rw [this]
                    unfold initTv
                    split <;> rfl

/-- C24. Argument validation of `Generate`: with no input files it returns nil
and makes no call at all, whatever the other arguments; with at least one input
file it returns the error `codec package path cannot be blank` when
`codecPkgPath` is empty, and otherwise the error `outfile cannot be blank` when
`outfile` is empty, in both cases without any call made: no file is read,
created or removed. -/
theorem Generate_validation (env : Env) (outfile buildTag codecPkgPath : String) (uid : Int)
    (goRunTag st : String) (regexName notRegexName : String → Bool)
    (deleteTempFile noExtensions : Bool) (infile : String) (rest : List String) :
    Generate env outfile buildTag codecPkgPath uid goRunTag st regexName notRegexName
      deleteTempFile noExtensions [] = (none, []) ∧
    Generate env outfile buildTag "" uid goRunTag st regexName notRegexName
      deleteTempFile noExtensions (infile :: rest)
      = (some "codec package path cannot be blank", []) ∧
    (codecPkgPath ≠ "" →
      Generate env "" buildTag codecPkgPath uid goRunTag st regexName notRegexName
        deleteTempFile noExtensions (infile :: rest) = (some "outfile cannot be blank", [])) := by
  refine ⟨rfl, ?_, ?_⟩
  · unfold Generate
    simp
  · intro hc
    unfold Generate
    simp [hc]

/-- C25, as stated, fails: with the input files `a.go`, which declares package
`p`, and `b.go`, which declares package `main`, `Generate` does not return the
error of the `main` package: only the first file is checked.  It goes on to
create the temporary files and to remove the out file. -/
theorem Generate_main_later_counterexample :
    sampleEnv.parseFile "b.go" = Except.ok ⟨"main", []⟩ ∧
    (Generate sampleEnv "out.go" "" "codec" 7 "" "" (fun _ => true) (fun _ => false)
      true false ["a.go", "b.go"]).1 = none ∧
    Op.create "./codecgen-main-7.generated.go" ∈
      (Generate sampleEnv "out.go" "" "codec" 7 "" "" (fun _ => true) (fun _ => false)
        true false ["a.go", "b.go"]).2 ∧
    Op.remove "out.go" ∈
      (Generate sampleEnv "out.go" "" "codec" 7 "" "" (fun _ => true) (fun _ => false)
        true false ["a.go", "b.go"]).2 :=
  ⟨rfl, by decide, by decide, by decide⟩

/-- C25, amended: for every list of input files whose first file declares
package `main`, `Generate`, once the arguments are not blank, the package path
of the output directory is found, and the first file is in that directory, is
found and parses, returns the error
`codecgen cannot be run on types in the 'main' package`, having made no other
call: no temporary file is created and the out file is not removed. -/
theorem Generate_main_first (env : Env) (outfile buildTag codecPkgPath : String) (uid : Int)
    (goRunTag st : String) (regexName notRegexName : String → Bool)
    (deleteTempFile noExtensions : Bool) (infile : String) (rest : List String)
    (absdir importPath : String) (size : Int) (f : File)
    (hc : codecPkgPath ≠ "") (ho : outfile ≠ "")
    (habs : env.abs (env.dir outfile) = Except.ok absdir)
    (hpkg : env.pkgPath absdir = Except.ok importPath)
    (hdir : env.dir infile = env.dir outfile)
    (hstat : env.stat infile = Except.ok size)
    (hparse : env.parseFile infile = Except.ok f)
    (hmain : f.name = "main") :
    Generate env outfile buildTag codecPkgPath uid goRunTag st regexName notRegexName
      deleteTempFile noExtensions (infile :: rest)
      = (some "codecgen cannot be run on types in the 'main' package",
        [Op.abs (env.dir outfile), Op.pkgPath absdir, Op.stat infile, Op.parse infile]) := by
  have hr : readFiles env (env.dir outfile) 0 (infile :: rest) ⟨0, "", []⟩
      = ⟨some "codecgen cannot be run on types in the 'main' package",
          { AllFilesSize := int64 (0 + size), PackageName := f.name, astfiles := [] ++ [f] },
          [Op.stat infile, Op.parse infile]⟩ := by
    simp [readFiles, hdir, hstat, hparse, hmain]
  unfold Generate
  simp only [List.length_cons, Nat.succ_ne_zero, if_false, hc, ho, habs, hpkg, hr]
  simp

/-- Witness for C25: the single input file `b.go`, which declares package
`main`. -/
theorem Generate_main_first_witness :
    sampleEnv.parseFile "b.go" = Except.ok ⟨"main", []⟩ ∧
    Generate sampleEnv "out.go" "" "codec" 7 "" "" (fun _ => true) (fun _ => false)
      true false ["b.go"]
      = (some "codecgen cannot be run on types in the 'main' package",
        [Op.abs ".", Op.pkgPath "/w/.", Op.stat "b.go", Op.parse "b.go"]) :=
  ⟨rfl, Generate_main_first sampleEnv "out.go" "" "codec" 7 "" "" (fun _ => true)
    (fun _ => false) true false "b.go" [] "/w/." "example.com/p" 10 ⟨"main", []⟩
    (by decide) (by decide) rfl rfl rfl rfl rfl rfl⟩

/-- C23. Type selection of `codecgen`: for every list of parsed input files
(the names of their type specs are not empty), the type list `Generate` hands
to the templates is made of the top-level type specs, in input-file order and,
within a file, declaration order, whose type expression is a struct, an
identifier, a map, an array or slice, or a chan, whose name matches the `-r`
regex and not the `-nr` regex, and for whose name no file declares a method
`CodecEncodeSelf` or `CodecDecodeSelf` with the receiver `N` or `*N`. -/
theorem findTypes_selection (regexName notRegexName : String → Bool) (files : List File)
    (hne : ∀ p ∈ typeSpecs files, p.1 ≠ "") :
    findTypes regexName notRegexName files
      = ((typeSpecs files).filter (fun p => isSelectable p.2 && regexName p.1 &&
          !notRegexName p.1 && !declaresSelfer files p.1)).map Prod.fst ∧
    (∀ N, N ∈ findTypes regexName notRegexName files ↔
      ∃ ty, (N, ty) ∈ typeSpecs files ∧ isSelectable ty = true ∧ regexName N = true ∧
        notRegexName N = false ∧ declaresSelfer files N = false) ∧
    (∀ (env : Env) (outfile buildTag codecPkgPath : String) (uid : Int) (goRunTag st : String)
        (deleteTempFile noExtensions : Bool) (infiles : List String) (file : String) (t : Tmpl)
        (tv : TmplT),
      Op.execute file t tv ∈ (Generate env outfile buildTag codecPkgPath uid goRunTag st
        regexName notRegexName deleteTempFile noExtensions infiles).2 →
      ∃ fs, List.Forall₂ (fun infile f => env.parseFile infile = Except.ok f) infiles fs ∧
        tv.Types = findTypes regexName notRegexName fs) := by
  have hkeep : ∀ p ∈ typeSpecs files,
      keepSpec regexName notRegexName (selferTyps files).1 (selferTyps files).2 p
        = (isSelectable p.2 && regexName p.1 && !notRegexName p.1 &&
            !declaresSelfer files p.1) := by
    intro p hp
    have h0 : ¬ p.1.length = 0 := fun h => hne p hp ((length_eq_zero_iff _).mp h)
    have hs := selferTyps_mem p.1 files
    unfold keepSpec
    simp only [h0, decide_False, Bool.not_false, Bool.true_and]
    cases hd : declaresSelfer files p.1
    · have h1 : ¬ (p.1 ∈ (selferTyps files).1 ∨ p.1 ∈ (selferTyps files).2) := by
        rw [hs, hd]; simp
      have h2 : p.1 ∉ (selferTyps files).1 := fun h => h1 (Or.inl h)
      have h3 : p.1 ∉ (selferTyps files).2 := fun h => h1 (Or.inr h)
      simp [h2, h3]
    · have h1 : p.1 ∈ (selferTyps files).1 ∨ p.1 ∈ (selferTyps files).2 := by
        rw [hs, hd]
      rcases h1 with h1 | h1
      · simp [h1]
      · simp [h1]
  have heq : findTypes regexName notRegexName files
      = ((typeSpecs files).filter (fun p => isSelectable p.2 && regexName p.1 &&
          !notRegexName p.1 && !declaresSelfer files p.1)).map Prod.fst := by
    unfold findTypes
    rw [fileFold_eq]
    simp only [List.nil_append]
    congr 1
    exact List.filter_congr hkeep
  refine ⟨heq, ?_, ?_⟩
  · intro N
    rw [heq]
    simp only [List.mem_map, List.mem_filter, Bool.and_eq_true, Bool.not_eq_true',
      Prod.exists, exists_and_right, exists_eq_right]
    constructor
    · rintro ⟨ty, h1, ⟨⟨h2, h3⟩, h4⟩, h5⟩
      exact ⟨ty, h1, h2, h3, h4, h5⟩
    · rintro ⟨ty, h1, h2, h3, h4, h5⟩
      exact ⟨ty, h1, ⟨⟨h2, h3⟩, h4⟩, h5⟩
  · intro env outfile buildTag codecPkgPath uid goRunTag st deleteTempFile noExtensions
      infiles file t tv h
    obtain ⟨fs, h1, h2, _⟩ := Generate_execute env outfile buildTag codecPkgPath uid goRunTag st
      regexName notRegexName deleteTempFile noExtensions infiles file t tv h
    exact ⟨fs, h1, h2⟩

/-- Witness for C23: of the struct `T`, the func type `F` and the integer type
`S`, which has a selfer method, only `T` is selected. -/
theorem findTypes_selection_witness :
    (∀ p ∈ typeSpecs [sampleFile], p.1 ≠ "") ∧
    findTypes (fun _ => true) (fun _ => false) [sampleFile] = ["T"] :=
  ⟨by decide,
    (findTypes_selection (fun _ => true) (fun _ => false) [sampleFile] (by decide)).1.trans
      (by decide)⟩

theorem formatInt_nat (n : Nat) (i : Int) (h : i = n) : formatInt i = toString n := by
  subst h
  unfold formatInt
  rw [if_neg (by omega), Int.toNat_ofNat]

/-- C30. Identifier normalisation of `codecgen`: for every `int64` `uid` other
than the minimum, the identifier `RandString` that `Generate` hands to the
templates is the decimal rendering, without a sign, of a strictly positive
number: of `|uid|` when `uid ≠ 0`, and of a number in the range 101..9877 when
`uid = 0` (`Int63n(9777)` giving a number from 0 to 9776); for `uid` equal to
the minimum `int64` the negation wraps and `RandString` keeps the leading minus
sign. -/
theorem randString_normalised (env : Env) (uid : Int) (h1 : -2 ^ 63 ≤ uid) (h2 : uid < 2 ^ 63) :
    (uid ≠ 0 → uid ≠ -2 ^ 63 →
      0 < uid.natAbs ∧ formatInt (normUid env uid) = toString uid.natAbs) ∧
    (uid = 0 → 0 ≤ env.int63n 9777 → env.int63n 9777 < 9777 →
      ∃ n : Nat, 101 ≤ n ∧ n ≤ 9877 ∧ formatInt (normUid env uid) = toString n) ∧
    (uid = -2 ^ 63 → normUid env uid = -2 ^ 63 ∧
      formatInt (normUid env uid) = "-9223372036854775808") ∧
    (∀ (outfile buildTag codecPkgPath goRunTag st : String)
        (regexName notRegexName : String → Bool) (deleteTempFile noExtensions : Bool)
        (infiles : List String) (file : String) (t : Tmpl) (tv : TmplT),
      Op.execute file t tv ∈ (Generate env outfile buildTag codecPkgPath uid goRunTag st
        regexName notRegexName deleteTempFile noExtensions infiles).2 →
      tv.RandString = formatInt (normUid env uid)) := by
  norm_num at h1 h2
  refine ⟨?_, ?_, ?_, ?_⟩
  · intro h0 hmin
    norm_num at hmin
    refine ⟨by omega, ?_⟩
    apply formatInt_nat
    unfold normUid
    split
    · rw [int64_of_range (-uid) (by norm_num; omega) (by norm_num; omega)]
      omega
    · omega
  · intro h0 hr1 hr2
    refine ⟨(101 + env.int63n 9777).toNat, by omega, by omega, ?_⟩
    apply formatInt_nat
    unfold normUid
    rw [if_neg (by omega), if_pos h0,
      int64_of_range (101 + env.int63n 9777) (by norm_num; omega) (by norm_num; omega)]
    omega
  · intro hmin
    have e : normUid env uid = -2 ^ 63 := by
      unfold normUid
      rw [if_pos (by rw [hmin]; norm_num), hmin]
      unfold int64
      norm_num
    refine ⟨e, ?_⟩
    rw [e]
    unfold formatInt
    rw [if_pos (by norm_num)]
    decide
  · intro outfile buildTag codecPkgPath goRunTag st regexName notRegexName deleteTempFile
      noExtensions infiles file t tv h
    exact (Generate_execute env outfile buildTag codecPkgPath uid goRunTag st
      regexName notRegexName deleteTempFile noExtensions infiles file t tv h).choose_spec.2.2

/-- Witness for C30: the identifiers for `uid` -42 and for `uid` 0 when
`Int63n` gives 5. -/
theorem randString_normalised_witness :
    formatInt (normUid sampleEnv (-42)) = "42" ∧ formatInt (normUid sampleEnv 0) = "106" ∧
    (0 < (-42 : Int).natAbs ∧
      formatInt (normUid sampleEnv (-42)) = toString (-42 : Int).natAbs) :=
  ⟨by decide, by decide,
    (randString_normalised sampleEnv (-42) (by decide) (by decide)).1 (by decide) (by decide)⟩

end Codecgen

end Codec
